import Mathlib

/-!
UniVector: a shallow embedding of `vector.h`.

The C++ class template `Vector<T>` (with its nested `Iterator` and
`ConstIterator`) is embedded over an explicit memory:

* a pointer is a natural number, the address counted in element slots, and
  `0` is `nullptr`; pointer arithmetic and comparison are those of the numbers;
* `Mem` holds the slots of the live buffers and the table of live allocations
  (`new T[n]` / `delete[]`); an indexed access `p[i]` is defined only inside
  the live buffer that starts at `p`, an access through a reference or an
  iterator position only at a slot of some live buffer;
* `World` adds the live `Vector` objects, keyed by their own address, which is
  what an iterator keeps in `tied_vec`;
* every member function is a function from the state before the call to an
  outcome `Res`: a normal return, a thrown `std::runtime_error` of the class,
  an exception thrown by `new` (for both, the state at the throw is kept, since
  the caller can catch and go on), or no defined execution;
* the answer of the allocator is a parameter `a` of every operation that calls
  `new T[n]`: `0` when the allocator has no memory for the request, otherwise
  the address of the new buffer, which can be any address that is not null and
  whose slots are unused (`Mem.fresh`). `new` throws when the answer is `0`
  and, whatever the answer, when `n` exceeds `ALLOC_MAX`.

What is idealised:

* `size_type` is `Nat`. No live buffer has more than `ALLOC_MAX` slots and the
  size of a container never exceeds the length of its buffer, so the
  arithmetic the code does on the members, `(sz + 1) * 2` and, when
  `sz >= max_sz`, `(max_sz + 1) * 2`, stays below `2^64` on every state that is
  reached (`sizes_do_not_wrap`); the length of an initializer list, itself an
  array in memory, is below `2^63`, so `il.size() * 2` does not wrap either; a
  number of `2^64` or more is not an argument of a call;
* `T` is a type with a default value, which is what the slots of `new T[n]`
  hold (`T` is default-constructed there), and with plain copy assignment that
  does not throw.
-/

namespace UniVector

/-! ## Memory -/

/-- The free store, indexed by addresses: `cell p` is the element stored at
address `p` when that slot belongs to a live buffer, `blk b` is the length of
the live buffer that starts at `b`. -/
structure Mem (α : Type) where
  cell : Nat → Option α
  blk : Nat → Option Nat

/-- The free store with no allocation. -/
def Mem.empty {α : Type} : Mem α := ⟨fun _ => none, fun _ => none⟩

/-- The largest length of an array that `new T[n]` can return: for a longer one
`new` throws `std::bad_array_new_length`, the size in bytes being beyond
`PTRDIFF_MAX`. The value is `PTRDIFF_MAX / sizeof(T)` of a 64-bit platform for
an element type of four bytes. -/
def ALLOC_MAX : Nat := 2 ^ 61 - 1

/-- Whether `new T[n]` can return the address `a`: `a` is not null, `n` is
within `ALLOC_MAX`, `a` is not the start of a live buffer, and none of the `n`
slots is in use. -/
def Mem.fresh {α : Type} (m : Mem α) (a : Nat) (n : Nat) : Bool :=
  decide (a ≠ 0) && decide (n ≤ ALLOC_MAX) && (m.blk a).isNone &&
    (List.range n).all (fun i => (m.cell (a + i)).isNone)

/-- Outcome of `new T[n]`: the free store with the new buffer, an exception
(`std::bad_array_new_length` or `std::bad_alloc`), or no outcome when the
answer is an address the allocator cannot return. -/
inductive NewRes (α : Type) where
  | ok (m : Mem α)
  | bad_alloc
  | stuck

/-- Source: `new T[n]`, the allocator answering `a`: it throws when `n` exceeds
`ALLOC_MAX` or the allocator has no memory (`a = 0`); otherwise the `n` slots at
`a` hold `T()`. -/
def Mem.alloc {α : Type} [Inhabited α] (m : Mem α) (a : Nat) (n : Nat) : NewRes α :=
  if a = 0 ∨ ALLOC_MAX < n then .bad_alloc
  else if m.fresh a n then
    .ok ⟨fun p => if a ≤ p ∧ p < a + n then some default else m.cell p,
         fun b => if b = a then some n else m.blk b⟩
  else .stuck

/-- Source: `delete[] p`: undefined (no result) unless `p` is the start of a live buffer. -/
def Mem.free {α : Type} (m : Mem α) (p : Nat) : Option (Mem α) :=
  match m.blk p with
  | none => none
  | some n =>
    some ⟨fun q => if p ≤ q ∧ q < p + n then none else m.cell q,
          fun b => if b = p then none else m.blk b⟩

/-- Read of the slot at address `p`; no result outside the live buffers. -/
def Mem.read {α : Type} (m : Mem α) (p : Nat) : Option α := m.cell p

/-- Write of `x` to the slot at address `p`; no result outside the live buffers. -/
def Mem.write {α : Type} (m : Mem α) (p : Nat) (x : α) : Option (Mem α) :=
  if (m.cell p).isSome then
    some ⟨fun q => if q = p then some x else m.cell q, m.blk⟩
  else none

/-- Read of `p[i]`, the element at index `i` of the buffer that starts at `p`:
no result (undefined behaviour) unless `p` is a live buffer of more than `i`
slots. -/
def Mem.get {α : Type} (m : Mem α) (p i : Nat) : Option α :=
  match m.blk p with
  | none => none
  | some n => if i < n then m.read (p + i) else none

/-- The statement `p[i] = x;`: no result (undefined behaviour) unless `p` is a
live buffer of more than `i` slots. -/
def Mem.set {α : Type} (m : Mem α) (p i : Nat) (x : α) : Option (Mem α) :=
  match m.blk p with
  | none => none
  | some n => if i < n then m.write (p + i) x else none

/-- Source: `if (values) delete[] values;` -/
def Mem.release {α : Type} (m : Mem α) (p : Nat) : Option (Mem α) :=
  if p ≠ 0 then m.free p else some m

/-! ## Outcomes -/

/-- The `std::runtime_error`s thrown by the class, one per message. -/
inductive Exn where
  | invalid_capacity
  | capacity_too_small
  | empty_vector
  | index_out_of_bounds
  | iterator_out_of_bounds
  | bad_iterator_access
  | bad_const_iterator_access
  deriving DecidableEq, Repr

/-- Outcome of a call on a state of type `σ` returning a `ρ`: normal return,
`std::runtime_error` of the class (with the state at the throw), exception of
`new` that leaves the call (`std::bad_alloc` or `std::bad_array_new_length`,
with the state at the throw), or no defined execution (undefined behaviour, or
an address the allocator cannot have returned). -/
inductive Res (σ ρ : Type) where
  | ok (r : ρ) (s : σ)
  | throw (e : Exn) (s : σ)
  | bad_alloc (s : σ)
  | ub

/-! ## The container -/

/-- The data members of `Vector<T>`. -/
structure Vector where
  sz : Nat
  max_sz : Nat
  values : Nat
  deriving DecidableEq, Repr

/-- Source: `static constexpr size_type DEFAULT_RESERVATION_SCALE = 2;` -/
def DEFAULT_RESERVATION_SCALE : Nat := 2

/-- Source: `static constexpr size_type DEFAULT_MAX_SZ = 0;` -/
def DEFAULT_MAX_SZ : Nat := 0

/-- Source: `static constexpr size_type DEFAULT_RESERVATION_SHIFT = 1;` -/
def DEFAULT_RESERVATION_SHIFT : Nat := 1

/-- The loop `for (i = i0; i < i0 + n; i++) dst[i] = src[i];` -/
def copy_elems {α : Type} (src dst : Nat) : Nat → Nat → Mem α → Option (Mem α)
  | 0, _, m => some m
  | n + 1, i, m =>
    match m.get src i with
    | none => none
    | some x =>
      match m.set dst i x with
      | none => none
      | some m1 => copy_elems src dst n (i + 1) m1

/-- Source: `Vector::realloc`; `a` is the answer of the allocator if `new` is
called. `max_sz = new_max_sz;` comes before `new`, so an exception of `new`
leaves the call with `max_sz` overwritten and the old buffer in place. -/
def realloc {α : Type} [Inhabited α] (a : Nat) (new_max_sz : Nat) (v : Vector) (m : Mem α) :
    Res (Vector × Mem α) Unit :=
  if new_max_sz < DEFAULT_MAX_SZ then .throw .invalid_capacity (v, m)
  else if new_max_sz < v.sz then .throw .capacity_too_small (v, m)
  else
    let v1 : Vector := { v with max_sz := new_max_sz }
    if v1.max_sz ≠ 0 then
      match m.alloc a v1.max_sz with
      | .stuck => .ub
      | .bad_alloc => .bad_alloc (v1, m)
      | .ok m1 =>
        match copy_elems v1.values a v1.sz 0 m1 with
        | none => .ub
        | some m2 =>
          match m2.release v1.values with
          | none => .ub
          | some m3 => .ok () ({ v1 with values := a }, m3)
    else
      match m.release v1.values with
      | none => .ub
      | some m3 => .ok () ({ v1 with values := 0 }, m3)

/-- Outcome of a constructor: the members of the new object and the free
store, an exception of `new` (no object is created and the free store is as it
was), or no defined execution. -/
inductive Built (α : Type) where
  | ok (v : Vector) (m : Mem α)
  | bad_alloc
  | ub

/-- Source: `Vector(size_type n)`; `a` is the answer of the allocator if `new` is
called. -/
def ctor_sized {α : Type} [Inhabited α] (a : Nat) (n : Nat) (m : Mem α) : Built α :=
  if n ≠ 0 then
    match m.alloc a n with
    | .stuck => .ub
    | .bad_alloc => .bad_alloc
    | .ok m1 => .ok ⟨0, n, a⟩ m1
  else .ok ⟨0, n, 0⟩ m

/-- Source: `Vector()`, which delegates to `Vector(DEFAULT_MAX_SZ)`. -/
def ctor_default {α : Type} [Inhabited α] (a : Nat) (m : Mem α) : Built α :=
  ctor_sized a DEFAULT_MAX_SZ m

/-- The loop `for (const auto &elem : il) values[sz++] = elem;` -/
def fill_from {α : Type} : List α → Vector → Mem α → Option (Vector × Mem α)
  | [], v, m => some (v, m)
  | x :: xs, v, m =>
    match m.set v.values v.sz x with
    | none => none
    | some m1 => fill_from xs { v with sz := v.sz + 1 } m1

/-- Source: `Vector(std::initializer_list<value_type> il)`. -/
def ctor_il {α : Type} [Inhabited α] (a : Nat) (il : List α) (m : Mem α) : Built α :=
  match ctor_sized a (il.length * DEFAULT_RESERVATION_SCALE) m with
  | .ub => .ub
  | .bad_alloc => .bad_alloc
  | .ok v m1 =>
    match fill_from il v m1 with
    | none => .ub
    | some (v1, m2) => .ok v1 m2

/-- Source: `Vector(const Vector &rop)`: `new value_type[max_sz]` is called whatever
`max_sz` is. -/
def ctor_copy {α : Type} [Inhabited α] (a : Nat) (rop : Vector) (m : Mem α) : Built α :=
  match m.alloc a rop.max_sz with
  | .stuck => .ub
  | .bad_alloc => .bad_alloc
  | .ok m1 =>
    match copy_elems rop.values a rop.sz 0 m1 with
    | none => .ub
    | some m2 => .ok ⟨rop.sz, rop.max_sz, a⟩ m2

/-- Source: `~Vector()`: the buffer is released; the object itself ends with the call. -/
def dtor {α : Type} (v : Vector) (m : Mem α) : Option (Mem α) :=
  let v1 : Vector := { v with sz := 0, max_sz := 0 }
  m.release v1.values

/-- Source: `Vector &operator=(Vector rop)` called with an lvalue argument `src`: the
parameter `rop` is copy-constructed from `src` (allocator answer `a`), the three
members are swapped, and `rop`, now holding the old members, is destroyed. An
exception of `new` in the copy leaves before the body is entered. -/
def assign {α : Type} [Inhabited α] (a : Nat) (src : Vector) (v : Vector) (m : Mem α) :
    Res (Vector × Mem α) Unit :=
  match ctor_copy a src m with
  | .ub => .ub
  | .bad_alloc => .bad_alloc (v, m)
  | .ok rop m1 =>
    let rop1 : Vector := ⟨v.sz, v.max_sz, v.values⟩
    let v1 : Vector := ⟨rop.sz, rop.max_sz, rop.values⟩
    match dtor rop1 m1 with
    | none => .ub
    | some m2 => .ok () (v1, m2)

/-- Source: `size_type size() const`. -/
def size (v : Vector) : Nat := v.sz

/-- Source: `bool empty() const`, which returns `!sz`. -/
def empty (v : Vector) : Bool := v.sz == 0

/-- Source: `size_type capacity() const`. -/
def capacity (v : Vector) : Nat := v.max_sz

/-- Source: `void clear()`. -/
def clear {α : Type} (v : Vector) (m : Mem α) : Res (Vector × Mem α) Unit :=
  .ok () ({ v with sz := 0 }, m)

/-- Source: `void reserve(size_t n)`: `max_sz` is assigned before `realloc` is
called; `a` is the answer of the allocator if `new` is called. -/
def reserve {α : Type} [Inhabited α] (a : Nat) (n : Nat) (v : Vector) (m : Mem α) :
    Res (Vector × Mem α) Unit :=
  if v.max_sz < n then
    let v1 : Vector := { v with max_sz := n }
    realloc a v1.max_sz v1 m
  else .ok () (v, m)

/-- Source: `void shrink_to_fit()`; `a` is the answer of the allocator if `new`
is called. -/
def shrink_to_fit {α : Type} [Inhabited α] (a : Nat) (v : Vector) (m : Mem α) :
    Res (Vector × Mem α) Unit :=
  if v.sz < v.max_sz then
    let v1 : Vector := { v with max_sz := v.sz }
    realloc a v1.max_sz v1 m
  else .ok () (v, m)

/-- The statement `values[sz++] = x;` -/
def store_back {α : Type} (x : α) (v : Vector) (m : Mem α) : Res (Vector × Mem α) Unit :=
  match m.set v.values v.sz x with
  | none => .ub
  | some m1 => .ok () ({ v with sz := v.sz + 1 }, m1)

/-- Source: `void push_back(value_type x)`; `a` is the answer of the allocator if
`new` is called. -/
def push_back {α : Type} [Inhabited α] (a : Nat) (x : α) (v : Vector) (m : Mem α) :
    Res (Vector × Mem α) Unit :=
  if v.sz ≥ v.max_sz then
    let v1 : Vector := { v with max_sz := (v.sz + DEFAULT_RESERVATION_SHIFT) * DEFAULT_RESERVATION_SCALE }
    match realloc a v1.max_sz v1 m with
    | .ok _ (v2, m2) => store_back x v2 m2
    | .throw e s => .throw e s
    | .bad_alloc s => .bad_alloc s
    | .ub => .ub
  else store_back x v m

/-- Source: `void pop_back()`. -/
def pop_back {α : Type} (v : Vector) (m : Mem α) : Res (Vector × Mem α) Unit :=
  if v.sz = 0 then .throw .empty_vector (v, m)
  else .ok () ({ v with sz := v.sz - 1 }, m)

/-- Source: `reference operator[](size_type index)`: the reference is the address of
the slot. -/
def index_mut {α : Type} (index : Nat) (v : Vector) (m : Mem α) : Res (Vector × Mem α) Nat :=
  if index ≥ v.sz then .throw .index_out_of_bounds (v, m)
  else .ok (v.values + index) (v, m)

/-- Source: `const_reference operator[](size_type index) const`. -/
def index_const {α : Type} (index : Nat) (v : Vector) (m : Mem α) : Res (Vector × Mem α) Nat :=
  if index ≥ v.sz then .throw .index_out_of_bounds (v, m)
  else .ok (v.values + index) (v, m)

/-! ## Iterators -/

/-- The data members of `Vector<T>::Iterator`; `tied_vec` is the address of
the `Vector` object, `0` when null. -/
structure Iterator where
  ptr : Nat
  shift : Nat
  tied_vec : Nat
  deriving DecidableEq, Repr

/-- The data members of `Vector<T>::ConstIterator`. -/
structure ConstIterator where
  ptr : Nat
  shift : Nat
  tied_vec : Nat
  deriving DecidableEq, Repr

/-- Source: `Iterator::operator const_iterator() const`. -/
def Iterator.to_const (it : Iterator) : ConstIterator := ⟨it.ptr, it.shift, it.tied_vec⟩

/-- Source: `ConstIterator::operator-`: the difference of the two raw positions. -/
def ConstIterator.sub (l r : ConstIterator) : Int := (l.ptr : Int) - (r.ptr : Int)

/-- Source: `ConstIterator::operator==`. -/
def ConstIterator.eq (l r : ConstIterator) : Bool := l.ptr == r.ptr

/-- Source: `ConstIterator::operator!=`. -/
def ConstIterator.ne (l r : ConstIterator) : Bool := l.ptr != r.ptr

/-- Source: `Iterator::operator==`. -/
def Iterator.eq (l : Iterator) (r : ConstIterator) : Bool := l.to_const.eq r

/-- Source: `Iterator::operator!=`. -/
def Iterator.ne (l : Iterator) (r : ConstIterator) : Bool := l.to_const.ne r

/-- Source: `iterator begin()` of the object at address `this`. -/
def begin (this : Nat) (v : Vector) : Iterator := ⟨v.values + 0, 0, this⟩

/-- Source: `iterator end()` of the object at address `this`. -/
def end_ (this : Nat) (v : Vector) : Iterator := ⟨v.values + v.sz, v.sz, this⟩

/-- Source: `const_iterator begin() const`. -/
def begin_const (this : Nat) (v : Vector) : ConstIterator := ⟨v.values + 0, 0, this⟩

/-- Source: `const_iterator end() const`. -/
def end_const (this : Nat) (v : Vector) : ConstIterator := ⟨v.values + v.sz, v.sz, this⟩

/-- What a `const_reference` parameter is bound to: an object of the caller
that lies outside the free store (a temporary, a variable), or a slot of the
free store. -/
inductive CRef (α : Type) where
  | obj (x : α)
  | slot (p : Nat)

/-- Read through a `const_reference`. -/
def CRef.get {α : Type} (m : Mem α) : CRef α → Option α
  | .obj x => some x
  | .slot p => m.read p

/-- The loop `for (auto i{sz}; i-- > current;) values[i + 1] = values[i];`
with `n = sz - current` iterations left: the next index is `current + n - 1`. -/
def shift_up {α : Type} (p current : Nat) : Nat → Mem α → Option (Mem α)
  | 0, m => some m
  | n + 1, m =>
    match m.get p (current + n) with
    | none => none
    | some x =>
      match m.set p (current + n + 1) x with
      | none => none
      | some m1 => shift_up p current n m1

/-- Source: `Vector::insert` on the object at address `this`. -/
def insert {α : Type} [Inhabited α] (a this : Nat) (pos : ConstIterator) (val : CRef α)
    (v : Vector) (m : Mem α) : Res (Vector × Mem α) Iterator :=
  let diff : Int := pos.sub (begin this v).to_const
  if diff < 0 ∨ diff.toNat > v.sz then .throw .iterator_out_of_bounds (v, m)
  else
    let current : Nat := diff.toNat
    match (if v.sz ≥ v.max_sz then
        reserve a ((v.max_sz + DEFAULT_RESERVATION_SHIFT) * DEFAULT_RESERVATION_SCALE) v m
      else .ok () (v, m)) with
    | .throw e s => .throw e s
    | .bad_alloc s => .bad_alloc s
    | .ub => .ub
    | .ok _ (v1, m1) =>
      match shift_up v1.values current (v1.sz - current) m1 with
      | none => .ub
      | some m2 =>
        match val.get m2 with
        | none => .ub
        | some x =>
          match m2.set v1.values current x with
          | none => .ub
          | some m3 => .ok ⟨v1.values + current, current, this⟩ ({ v1 with sz := v1.sz + 1 }, m3)

/-- The loop `for (auto i{current}; i < sz - 1; ++i) values[i] = values[i + 1];`
with `n` iterations left and `i` the next index. -/
def shift_down {α : Type} (p : Nat) : Nat → Nat → Mem α → Option (Mem α)
  | 0, _, m => some m
  | n + 1, i, m =>
    match m.get p (i + 1) with
    | none => none
    | some x =>
      match m.set p i x with
      | none => none
      | some m1 => shift_down p n (i + 1) m1

/-- Source: `Vector::erase` on the object at address `this`. -/
def erase {α : Type} (this : Nat) (pos : ConstIterator) (v : Vector) (m : Mem α) :
    Res (Vector × Mem α) Iterator :=
  let diff : Int := pos.sub (begin this v).to_const
  if diff < 0 ∨ diff.toNat ≥ v.sz then .throw .iterator_out_of_bounds (v, m)
  else
    let current : Nat := diff.toNat
    match shift_down v.values (v.sz - 1 - current) current m with
    | none => .ub
    | some m1 => .ok ⟨v.values + current, current, this⟩ ({ v with sz := v.sz - 1 }, m1)

/-! ## The program state -/

/-- The live `Vector` objects, by their address, and the free store. -/
structure World (α : Type) where
  objs : Nat → Option Vector
  mem : Mem α

/-- No object, no allocation. -/
def World.empty {α : Type} : World α := ⟨fun _ => none, Mem.empty⟩

/-- The state with the members of the object at `this` replaced. -/
def World.put {α : Type} (w : World α) (this : Nat) (s : Vector × Mem α) : World α :=
  ⟨fun t => if t = this then some s.1 else w.objs t, s.2⟩

/-- A member function called on the live object at address `this`. -/
def World.call {α ρ : Type} (w : World α) (this : Nat)
    (f : Vector → Mem α → Res (Vector × Mem α) ρ) : Res (World α) ρ :=
  match w.objs this with
  | none => .ub
  | some v =>
    match f v w.mem with
    | .ok r s => .ok r (w.put this s)
    | .throw e s => .throw e (w.put this s)
    | .bad_alloc s => .bad_alloc (w.put this s)
    | .ub => .ub

/-- A constructor run for a new object at address `this`; when it leaves
through an exception of `new` there is no new object. -/
def World.construct {α : Type} (w : World α) (this : Nat)
    (c : Mem α → Built α) : Res (World α) Unit :=
  if this = 0 then .ub
  else
    match w.objs this with
    | some _ => .ub
    | none =>
      match c w.mem with
      | .ub => .ub
      | .bad_alloc => .bad_alloc w
      | .ok v m1 => .ok () (w.put this (v, m1))

/-- The destructor run for the live object at address `this`, whose lifetime
ends. -/
def World.destroy {α : Type} (w : World α) (this : Nat) : Res (World α) Unit :=
  match w.objs this with
  | none => .ub
  | some v =>
    match dtor v w.mem with
    | none => .ub
    | some m1 => .ok () ⟨fun t => if t = this then none else w.objs t, m1⟩

/-- The assignment `*this = *src` between two live objects. -/
def World.assign {α : Type} [Inhabited α] (w : World α) (a this src : Nat) : Res (World α) Unit :=
  match w.objs src with
  | none => .ub
  | some s => w.call this (UniVector.assign a s)

/-- Source: `Iterator::check_validity`; no result when `tied_vec` dangles. -/
def Iterator.check_validity {α : Type} (it : Iterator) (w : World α) : Option Bool :=
  if it.tied_vec = 0 then some false
  else
    match w.objs it.tied_vec with
    | none => none
    | some v =>
      some (decide (v.values ≠ 0) && decide (it.ptr ≠ 0) && decide (it.shift < size v)
        && decide (v.values + it.shift = it.ptr))

/-- Source: `ConstIterator::check_validity`; no result when `tied_vec` dangles. -/
def ConstIterator.check_validity {α : Type} (it : ConstIterator) (w : World α) : Option Bool :=
  if it.tied_vec = 0 then some false
  else
    match w.objs it.tied_vec with
    | none => none
    | some v =>
      some (decide (it.ptr ≠ 0) && decide (it.shift < size v)
        && decide (v.values + it.shift = it.ptr))

/-- Source: `Iterator::operator*`: the reference returned is the address `ptr`. -/
def Iterator.deref {α : Type} (it : Iterator) (w : World α) : Res (World α) Nat :=
  match it.check_validity w with
  | none => .ub
  | some true => .ok it.ptr w
  | some false => .throw .bad_iterator_access w

/-- Source: `Iterator::operator->`. -/
def Iterator.arrow {α : Type} (it : Iterator) (w : World α) : Res (World α) Nat :=
  match it.check_validity w with
  | none => .ub
  | some true => .ok it.ptr w
  | some false => .throw .bad_iterator_access w

/-- Source: `ConstIterator::operator*`. -/
def ConstIterator.deref {α : Type} (it : ConstIterator) (w : World α) : Res (World α) Nat :=
  match it.check_validity w with
  | none => .ub
  | some true => .ok it.ptr w
  | some false => .throw .bad_const_iterator_access w

/-- Source: `ConstIterator::operator->`. -/
def ConstIterator.arrow {α : Type} (it : ConstIterator) (w : World α) : Res (World α) Nat :=
  match it.check_validity w with
  | none => .ub
  | some true => .ok it.ptr w
  | some false => .throw .bad_const_iterator_access w

/-- The body shared by both `Iterator::operator++`: the iterator after the call. -/
def Iterator.advance {α : Type} (it : Iterator) (w : World α) : Option Iterator :=
  match it.check_validity w with
  | none => none
  | some true => some ⟨it.ptr + 1, it.shift + 1, it.tied_vec⟩
  | some false => some it

/-- Source: `iterator &operator++()`: the iterator after the call and the value returned. -/
def Iterator.pre_inc {α : Type} (it : Iterator) (w : World α) : Option (Iterator × Iterator) :=
  match it.advance w with
  | none => none
  | some it1 => some (it1, it1)

/-- Source: `iterator operator++(int)`: the iterator after the call and the value returned. -/
def Iterator.post_inc {α : Type} (it : Iterator) (w : World α) : Option (Iterator × Iterator) :=
  let tmp := it
  match it.advance w with
  | none => none
  | some it1 => some (it1, tmp)

/-- The body shared by both `ConstIterator::operator++`. -/
def ConstIterator.advance {α : Type} (it : ConstIterator) (w : World α) : Option ConstIterator :=
  match it.check_validity w with
  | none => none
  | some true => some ⟨it.ptr + 1, it.shift + 1, it.tied_vec⟩
  | some false => some it

/-- Source: `const_iterator operator++()`. -/
def ConstIterator.pre_inc {α : Type} (it : ConstIterator) (w : World α) :
    Option (ConstIterator × ConstIterator) :=
  match it.advance w with
  | none => none
  | some it1 => some (it1, it1)

/-- Source: `const_iterator operator++(int)`. -/
def ConstIterator.post_inc {α : Type} (it : ConstIterator) (w : World α) :
    Option (ConstIterator × ConstIterator) :=
  let tmp := it
  match it.advance w with
  | none => none
  | some it1 => some (it1, tmp)

/-- The validity predicate in the words of the specification, for an iterator
with position `ptr`, offset `shift` and back-reference `tied_vec`: the
back-reference is non-null (and refers to a container `v`), the position is
non-null, the offset is strictly less than the current size of `v`, and the
position is the current buffer start of `v` plus the offset. -/
def StructurallyValid {α : Type} (w : World α) (ptr shift tied_vec : Nat) : Prop :=
  ∃ v, tied_vec ≠ 0 ∧ w.objs tied_vec = some v ∧ ptr ≠ 0 ∧ shift < size v ∧
    ptr = v.values + shift

/-! ## Public operations on the state -/

/-- A state-changing use of the public interface; `a` is the answer of the
allocator if the operation calls `new`: the address of the new buffer, or `0`
when the allocator has no memory for it. -/
inductive Op (α : Type) where
  | ctor_default (this a : Nat)
  | ctor_sized (this a : Nat) (n : Nat)
  | ctor_il (this a : Nat) (il : List α)
  | ctor_copy (this a src : Nat)
  | dtor (this : Nat)
  | assign (this a src : Nat)
  | clear (this : Nat)
  | reserve (this a : Nat) (n : Nat)
  | shrink_to_fit (this a : Nat)
  | push_back (this a : Nat) (x : α)
  | pop_back (this : Nat)
  | insert (this a : Nat) (pos : ConstIterator) (val : CRef α)
  | erase (this : Nat) (pos : ConstIterator)
  | index_write (this : Nat) (index : Nat) (x : α)
  | deref_write (it : Iterator) (x : α)

/-- The outcome without the returned value. -/
def Res.forget {σ ρ : Type} : Res σ ρ → Res σ Unit
  | .ok _ s => .ok () s
  | .throw e s => .throw e s
  | .bad_alloc s => .bad_alloc s
  | .ub => .ub

/-- The statement `r = x;` for a reference `r` returned by a call. -/
def write_through {α : Type} (x : α) : Res (World α) Nat → Res (World α) Unit
  | .ok r w =>
    match w.mem.write r x with
    | none => .ub
    | some m1 => .ok () ⟨w.objs, m1⟩
  | .throw e w => .throw e w
  | .bad_alloc w => .bad_alloc w
  | .ub => .ub

/-- The effect of one operation on the state. -/
def exec {α : Type} [Inhabited α] (w : World α) : Op α → Res (World α) Unit
  | .ctor_default this a => w.construct this (ctor_default a)
  | .ctor_sized this a n => w.construct this (ctor_sized a n)
  | .ctor_il this a il => w.construct this (ctor_il a il)
  | .ctor_copy this a src =>
    match w.objs src with
    | none => .ub
    | some rop => w.construct this (ctor_copy a rop)
  | .dtor this => w.destroy this
  | .assign this a src => w.assign a this src
  | .clear this => w.call this clear
  | .reserve this a n => w.call this (reserve a n)
  | .shrink_to_fit this a => w.call this (shrink_to_fit a)
  | .push_back this a x => w.call this (push_back a x)
  | .pop_back this => w.call this pop_back
  | .insert this a pos val => (w.call this (insert a this pos val)).forget
  | .erase this pos => (w.call this (erase this pos)).forget
  | .index_write this index x => write_through x (w.call this (index_mut index))
  | .deref_write it x => write_through x (it.deref w)

/-- The states a program can be in: from the state with no object, any
sequence of operations, each returning normally or leaving through an
exception, of the class or of `new`, that the caller catches. -/
inductive Reachable {α : Type} [Inhabited α] : World α → Prop where
  | init : Reachable World.empty
  | ok (w w1 : World α) (op : Op α) : Reachable w → exec w op = .ok () w1 → Reachable w1
  | throw (w w1 : World α) (op : Op α) (e : Exn) :
      Reachable w → exec w op = .throw e w1 → Reachable w1
  | bad_alloc (w w1 : World α) (op : Op α) :
      Reachable w → exec w op = .bad_alloc w1 → Reachable w1

/-- The state after one operation, when it has a defined outcome: a normal
return, or an exception that the caller catches. -/
def step {α : Type} [Inhabited α] (w : World α) (op : Op α) : Option (World α) :=
  match exec w op with
  | .ok _ w1 => some w1
  | .throw _ w1 => some w1
  | .bad_alloc w1 => some w1
  | .ub => none

/-- The state after a sequence of operations. -/
def run {α : Type} [Inhabited α] (w : World α) : List (Op α) → Option (World α)
  | [] => some w
  | op :: ops =>
    match step w op with
    | none => none
    | some w1 => run w1 ops

/-- The state a program reaches from its start by the operations `ops` (the
start state itself when one of them has no defined outcome). -/
def after {α : Type} [Inhabited α] (ops : List (Op α)) : World α :=
  (run World.empty ops).getD World.empty

/-- The address of the object an operation is applied to. -/
def Op.this {α : Type} : Op α → Nat
  | .ctor_default this _ => this
  | .ctor_sized this _ _ => this
  | .ctor_il this _ _ => this
  | .ctor_copy this _ _ => this
  | .dtor this => this
  | .assign this _ _ => this
  | .clear this => this
  | .reserve this _ _ => this
  | .shrink_to_fit this _ => this
  | .push_back this _ _ => this
  | .pop_back this => this
  | .insert this _ _ _ => this
  | .erase this _ => this
  | .index_write this _ _ => this
  | .deref_write it _ => it.tied_vec

/-- Example state: one container, at object address `1`, built from the
literal list `{1, 2, 3}` with its buffer at address `10`. -/
def world123 : World Nat := after [Op.ctor_il 1 10 [1, 2, 3]]

/-- Example state: the container of `world123` after `shrink_to_fit()`, which
moved its three elements to a buffer of three slots at address `20`. -/
def world_tight : World Nat := after [Op.ctor_il 1 10 [1, 2, 3], Op.shrink_to_fit 1 20]

/-- The elements the container holds: the slots at indices `[0, sz)` of its
buffer, in order. -/
def contents {α : Type} (m : Mem α) (v : Vector) : List (Option α) :=
  (List.range v.sz).map (fun i => m.read (v.values + i))

/-- The iterator after `k` pre-increments `++it`. -/
def Iterator.inc_times {α : Type} (w : World α) : Nat → Iterator → Option Iterator
  | 0, it => some it
  | k + 1, it =>
    match it.pre_inc w with
    | none => none
    | some (it1, _) => Iterator.inc_times w k it1

/-- The read-only iterator after `k` pre-increments `++it`. -/
def ConstIterator.inc_times {α : Type} (w : World α) : Nat → ConstIterator → Option ConstIterator
  | 0, it => some it
  | k + 1, it =>
    match it.pre_inc w with
    | none => none
    | some (it1, _) => ConstIterator.inc_times w k it1

/-- The calls `push_back(x)` for the pairs `(a, x)` of the list, in order, on
the object at `this`, `a` being the answer of the allocator if the call grows:
the state afterwards and the number of calls that reallocated, that is took the
branch `sz >= max_sz` of `push_back`, in which `realloc` is called. No result
when a call does not return normally. -/
def push_all {α : Type} [Inhabited α] (this : Nat) :
    List (Nat × α) → World α → Option (World α × Nat)
  | [], w => some (w, 0)
  | (a, x) :: l, w =>
    match w.objs this with
    | none => none
    | some v =>
      match w.call this (push_back a x) with
      | .ok _ w1 =>
        match push_all this l w1 with
        | none => none
        | some (w2, c) => some (w2, (if v.sz ≥ v.max_sz then 1 else 0) + c)
      | .throw _ _ => none
      | .bad_alloc _ => none
      | .ub => none

/-- The allocator can give the answers of the list: in the calls of `push_all`,
each address is unused at the moment of a call that grows. -/
def alloc_ok {α : Type} [Inhabited α] (this : Nat) : List (Nat × α) → World α → Bool
  | [], _ => true
  | (a, x) :: l, w =>
    match w.objs this with
    | none => false
    | some v =>
      (decide (v.sz < v.max_sz) || w.mem.fresh a ((v.sz + 1) * 2)) &&
      match w.call this (push_back a x) with
      | .ok _ w1 => alloc_ok this l w1
      | .throw _ _ => true
      | .bad_alloc _ => true
      | .ub => true

/-- Example state: one default-constructed container, at object address `1`. -/
def world_default : World Nat := after [Op.ctor_default 1 0]

/-- The loop of `operator<<`,
`for (i = 0; i < v.size(); i++) if (i) o << ", " << v.values[i]; else o << v.values[i];`
with `n` iterations left: `o` is the text on the stream and `render x` the text
that `o << x` writes for an element `x`. -/
def print_elems {α : Type} (render : α → String) (p : Nat) :
    Nat → Nat → Mem α → String → Option String
  | 0, _, _, o => some o
  | n + 1, i, m, o =>
    match m.get p i with
    | none => none
    | some x =>
      print_elems render p n (i + 1) m (if i ≠ 0 then o ++ ", " ++ render x else o ++ render x)

/-- Source: `friend std::ostream &operator<<(std::ostream &o, const Vector &v)`:
the text on the stream after the call. -/
def print {α : Type} (render : α → String) (o : String) (v : Vector) (m : Mem α) :
    Option String :=
  match print_elems render v.values (size v) 0 m (o ++ "[") with
  | none => none
  | some o1 => some (o1 ++ "]")

/-- Example state: two default-constructed containers, at object addresses `1`
and `2`. -/
def world_two : World Nat := after [Op.ctor_default 1 0, Op.ctor_default 2 0]

/-- Example state: a default-constructed container at object address `1` and
its copy, constructed at object address `2`, `new` returning the address `60`. -/
def world_copy_of_empty : World Nat := after [Op.ctor_default 1 0, Op.ctor_copy 2 60 1]

/-- Example state: the container of `world123` after a call `reserve(1 << 62)`
that the caller caught: an array of that length is beyond `ALLOC_MAX`, so `new`
throws whatever the allocator answers (here `50`). -/
def world_failed_reserve : World Nat :=
  after [Op.ctor_il 1 10 [1, 2, 3], Op.reserve 1 50 (2 ^ 62)]

/-- Example state: the container of `world_failed_reserve` after three calls of
`push_back`, none of which grows. -/
def world_filled : World Nat :=
  after [Op.ctor_il 1 10 [1, 2, 3], Op.reserve 1 50 (2 ^ 62), Op.push_back 1 50 4,
    Op.push_back 1 50 5, Op.push_back 1 50 6]

/-- Example state: the container of `world_tight` after `reserve(6)`, the
allocator answering with the address `10`, which is unused again since
`shrink_to_fit()` released the first buffer. -/
def world_reused : World Nat :=
  after [Op.ctor_il 1 10 [1, 2, 3], Op.shrink_to_fit 1 20, Op.reserve 1 10 6]

/-- Well-formed free store: nothing is allocated at `nullptr`, every slot of a
live buffer is there, two live buffers share no slot, and no live buffer is
longer than `ALLOC_MAX`. -/
structure MemOK {α : Type} (m : Mem α) : Prop where
  null : m.blk 0 = none
  cells : ∀ b n i, m.blk b = some n → i < n → (m.cell (b + i)).isSome
  disj : ∀ b1 n1 b2 n2 i j, m.blk b1 = some n1 → m.blk b2 = some n2 → b1 ≠ b2 →
    i < n1 → j < n2 → b1 + i ≠ b2 + j
  small : ∀ b n, m.blk b = some n → n ≤ ALLOC_MAX

/-- The capacity the container reports is the length of its buffer:
`sz ≤ max_sz`, a null `values` goes with `max_sz = 0`, and a non-null `values`
is a live buffer of exactly `max_sz` slots. It holds after every constructor
and every reallocation that returned, and is lost when a growth leaves through
an exception of `new`, `max_sz` being assigned before the allocation. -/
structure VecOK {α : Type} (m : Mem α) (v : Vector) : Prop where
  le : v.sz ≤ v.max_sz
  null : v.values = 0 → v.max_sz = 0
  live : v.values ≠ 0 → m.blk v.values = some v.max_sz

/-- What `realloc` needs of the buffer, whatever `max_sz` says: the first `sz`
slots of `values` are in a live buffer. -/
structure BufOK {α : Type} (m : Mem α) (v : Vector) : Prop where
  null : v.values = 0 → v.sz = 0
  live : v.values ≠ 0 → ∃ cap, m.blk v.values = some cap ∧ v.sz ≤ cap

/-- What holds of a container in every state that is reached: `sz ≤ max_sz`,
and the first `sz` slots of `values` are in a live buffer. The length of that
buffer need not be `max_sz`. -/
structure VecFit {α : Type} (m : Mem α) (v : Vector) : Prop where
  le : v.sz ≤ v.max_sz
  null : v.values = 0 → v.sz = 0
  live : v.values ≠ 0 → ∃ cap, m.blk v.values = some cap ∧ v.sz ≤ cap

/-- The buffer has the slot that the capacity promises next: a container that
reports `sz < max_sz` has a live buffer of more than `sz` slots. It holds
whenever the capacity is the length of the buffer (`VecOK`). -/
def HasRoom {α : Type} (m : Mem α) (v : Vector) : Prop :=
  v.sz < v.max_sz → ∃ cap, m.blk v.values = some cap ∧ v.sz < cap

/-- Well-formed state: every live container has its elements in a live buffer,
no two of them share a buffer, and no object lives at the null address. -/
structure WF {α : Type} (w : World α) : Prop where
  mem : MemOK w.mem
  vec : ∀ t v, w.objs t = some v → VecFit w.mem v
  sep : ∀ t1 v1 t2 v2, w.objs t1 = some v1 → w.objs t2 = some v2 → t1 ≠ t2 →
    v1.values ≠ 0 → v1.values ≠ v2.values
  objnull : w.objs 0 = none

/-- What a call on a container with members `v` may do to the free store: the
result is well-formed, every other live buffer is kept with its elements, and
the buffer of the container is the old one or one that was not live. -/
structure Frame {α : Type} (m : Mem α) (v : Vector) (m1 : Mem α) (v1 : Vector) : Prop where
  mem : MemOK m1
  vec : VecFit m1 v1
  keep : ∀ b n, m.blk b = some n → b ≠ v.values →
    m1.blk b = some n ∧ ∀ i, i < n → m1.cell (b + i) = m.cell (b + i)
  own : v1.values = v.values ∨ m.blk v1.values = none

/-- Every object other than the one at `this` has in `w1` the members and the
elements it has in `w`. -/
def Keeps {α : Type} (w : World α) (this : Nat) (w1 : World α) : Prop :=
  ∀ t u, t ≠ this → w.objs t = some u →
    w1.objs t = some u ∧ ∀ i, i < u.sz → w1.mem.cell (u.values + i) = w.mem.cell (u.values + i)

/-- The property `P` holds of the state an outcome leaves, if it leaves one. -/
def Res.Sat {σ ρ : Type} (P : σ → Prop) : Res σ ρ → Prop
  | .ok _ s => P s
  | .throw _ s => P s
  | .bad_alloc s => P s
  | .ub => True

/-- Two free stores with the same live buffers and the same slots in use. -/
def SameShape {α : Type} (m m1 : Mem α) : Prop :=
  m1.blk = m.blk ∧ ∀ q, (m1.cell q).isSome = (m.cell q).isSome

/-- The property `P` holds of the state an outcome leaves, if the outcome is a
normal return or an error of the class. -/
def Res.SatOk {σ ρ : Type} (P : σ → Prop) : Res σ ρ → Prop
  | .ok _ s => P s
  | .throw _ s => P s
  | .bad_alloc _ => True
  | .ub => True

/-- Well-formed state in which, moreover, the capacity of every container is
the length of its buffer. -/
structure Tight {α : Type} (w : World α) : Prop where
  wf : WF w
  vec : ∀ t v, w.objs t = some v → VecOK w.mem v

/-- The states a program is in as long as no call was left through an exception
of `new`: from the state with no object, any sequence of operations, each
returning normally or throwing an error of the class. -/
inductive Steady {α : Type} [Inhabited α] : World α → Prop where
  | init : Steady World.empty
  | ok (w w1 : World α) (op : Op α) : Steady w → exec w op = .ok () w1 → Steady w1
  | throw (w w1 : World α) (op : Op α) (e : Exn) :
      Steady w → exec w op = .throw e w1 → Steady w1

/-! ## The free store and the loops -/

theorem fresh_iff {α : Type} (m : Mem α) (a n : Nat) :
    m.fresh a n = true ↔
      a ≠ 0 ∧ m.blk a = none ∧ (∀ i, i < n → m.cell (a + i) = none) ∧ n ≤ ALLOC_MAX := by
  simp only [Mem.fresh, Bool.and_eq_true, decide_eq_true_eq, List.all_eq_true, List.mem_range,
    Option.isNone_iff_eq_none]
  constructor
  · rintro ⟨⟨⟨h1, h2⟩, h3⟩, h4⟩
    exact ⟨h1, h3, h4, h2⟩
  · rintro ⟨h1, h3, h4, h2⟩
    exact ⟨⟨⟨h1, h2⟩, h3⟩, h4⟩

theorem alloc_eq_ok {α : Type} [Inhabited α] {m m1 : Mem α} {a n : Nat}
    (h : m.alloc a n = .ok m1) :
    m.fresh a n = true ∧
    (∀ p, m1.cell p = if a ≤ p ∧ p < a + n then some default else m.cell p) ∧
    (∀ b, m1.blk b = if b = a then some n else m.blk b) := by
  unfold Mem.alloc at h
  split_ifs at h with h1 h2
  simp only [NewRes.ok.injEq] at h
  subst h
  exact ⟨h2, fun _ => rfl, fun _ => rfl⟩

theorem alloc_of_fresh {α : Type} [Inhabited α] {m : Mem α} {a n : Nat}
    (h : m.fresh a n = true) : ∃ m1, m.alloc a n = .ok m1 := by
  obtain ⟨ha, _, _, hn⟩ := (fresh_iff m a n).mp h
  have h1 : ¬ (a = 0 ∨ ALLOC_MAX < n) := by omega
  unfold Mem.alloc
  rw [if_neg h1, h, if_pos rfl]
  exact ⟨_, rfl⟩

/-- The allocator has no memory for the request, or the request is too long:
`new` throws. -/
theorem alloc_bad {α : Type} [Inhabited α] (m : Mem α) {a n : Nat}
    (h : a = 0 ∨ ALLOC_MAX < n) : m.alloc a n = .bad_alloc := by
  simp only [Mem.alloc, if_pos h]

theorem alloc_stuck {α : Type} [Inhabited α] {m : Mem α} {a n : Nat}
    (h : ¬ (a = 0 ∨ ALLOC_MAX < n)) (hf : m.fresh a n = false) : m.alloc a n = .stuck := by
  simp [Mem.alloc, if_neg h, hf]

/-- The three answers of the allocator. -/
theorem alloc_cases {α : Type} (m : Mem α) (a n : Nat) :
    m.fresh a n = true ∨ (a = 0 ∨ ALLOC_MAX < n) ∨
      (¬ (a = 0 ∨ ALLOC_MAX < n) ∧ m.fresh a n = false) := by
  by_cases h : a = 0 ∨ ALLOC_MAX < n
  · exact Or.inr (Or.inl h)
  · cases hf : m.fresh a n with
    | true => exact Or.inl rfl
    | false => exact Or.inr (Or.inr ⟨h, rfl⟩)

theorem write_eq_some {α : Type} {m m1 : Mem α} {p : Nat} {x : α}
    (h : m.write p x = some m1) :
    (m.cell p).isSome ∧ (∀ q, m1.cell q = if q = p then some x else m.cell q) ∧ m1.blk = m.blk := by
  unfold Mem.write at h
  split at h
  · simp only [Option.some.injEq] at h
    subst h
    exact ⟨by assumption, fun _ => rfl, rfl⟩
  · simp at h

theorem write_of_isSome {α : Type} {m : Mem α} {p : Nat} (x : α)
    (h : (m.cell p).isSome) : ∃ m1, m.write p x = some m1 := by
  simp [Mem.write, h]

theorem free_eq_some {α : Type} {m m1 : Mem α} {p : Nat} (h : m.free p = some m1) :
    ∃ n, m.blk p = some n ∧
      (∀ q, m1.cell q = if p ≤ q ∧ q < p + n then none else m.cell q) ∧
      (∀ b, m1.blk b = if b = p then none else m.blk b) := by
  unfold Mem.free at h
  split at h
  · simp at h
  · rename_i n hn
    simp only [Option.some.injEq] at h
    subst h
    exact ⟨n, hn, fun _ => rfl, fun _ => rfl⟩

theorem free_of_live {α : Type} {m : Mem α} {p n : Nat} (h : m.blk p = some n) :
    ∃ m1, m.free p = some m1 := by
  simp [Mem.free, h]

theorem get_eq {α : Type} {m : Mem α} {p i n : Nat} (h : m.blk p = some n) (hi : i < n) :
    m.get p i = m.cell (p + i) := by
  simp [Mem.get, Mem.read, h, hi]

theorem set_eq {α : Type} {m : Mem α} {p i n : Nat} (x : α) (h : m.blk p = some n)
    (hi : i < n) : m.set p i x = m.write (p + i) x := by
  simp [Mem.set, h, hi]

theorem set_eq_some {α : Type} {m m1 : Mem α} {p i : Nat} {x : α}
    (h : m.set p i x = some m1) : m.write (p + i) x = some m1 := by
  unfold Mem.set at h
  split at h
  · simp at h
  · split_ifs at h
    exact h

/-- A store `p[i] = x` that is defined is inside the live buffer `p`. -/
theorem set_inside {α : Type} {m m1 : Mem α} {p i : Nat} {x : α}
    (h : m.set p i x = some m1) : ∃ n, m.blk p = some n ∧ i < n := by
  unfold Mem.set at h
  split at h
  · simp at h
  · rename_i n hn
    split_ifs at h with hi
    exact ⟨n, hn, hi⟩

/-- A store `p[i] = x` outside the live buffer `p` is undefined. -/
theorem set_outside {α : Type} {m : Mem α} {p i : Nat} (x : α)
    (h : ∀ n, m.blk p = some n → n ≤ i) : m.set p i x = none := by
  unfold Mem.set
  split
  · rfl
  · rename_i n hn
    have := h n hn
    rw [if_neg (by omega)]

theorem copy_elems_spec {α : Type} (src dst : Nat) :
    ∀ (n i : Nat) (m : Mem α),
      (∀ j, j < n → ∃ k, m.blk src = some k ∧ i + j < k ∧ (m.cell (src + (i + j))).isSome) →
      (∀ j, j < n → ∃ k, m.blk dst = some k ∧ i + j < k ∧ (m.cell (dst + (i + j))).isSome) →
      (∀ j k, j < n → k < n → src + (i + j) ≠ dst + (i + k)) →
      ∃ m1, copy_elems src dst n i m = some m1 ∧ m1.blk = m.blk ∧
        ∀ p : Nat, m1.cell p =
          if dst + i ≤ p ∧ p < dst + i + n then m.cell (src + (p - dst)) else m.cell p := by
  intro n
  induction n with
  | zero =>
    intro i m _ _ _
    refine ⟨m, rfl, rfl, fun p => ?_⟩
    split_ifs with h
    · omega
    · rfl
  | succ n ih =>
    intro i m hs hd hx
    obtain ⟨ks, hks, his, h0⟩ := hs 0 (Nat.succ_pos n)
    obtain ⟨kd, hkd, hid, hd0⟩ := hd 0 (Nat.succ_pos n)
    obtain ⟨x, hx0⟩ := Option.isSome_iff_exists.mp h0
    obtain ⟨m1, hw⟩ := write_of_isSome x hd0
    obtain ⟨_, hc1, hb1⟩ := write_eq_some hw
    simp only [Nat.add_zero] at hx0 hw hc1 his hid
    have hs1 : ∀ j, j < n →
        ∃ k, m1.blk src = some k ∧ i + 1 + j < k ∧ (m1.cell (src + (i + 1 + j))).isSome := by
      intro j hj
      obtain ⟨k, hk, hlt, h1⟩ := hs (j + 1) (by omega)
      have hne := hx (j + 1) 0 (by omega) (by omega)
      have e : src + (i + 1 + j) = src + (i + (j + 1)) := by omega
      refine ⟨k, by rw [hb1]; exact hk, by omega, ?_⟩
      rw [hc1, e]
      split_ifs with h
      · omega
      · exact h1
    have hd1 : ∀ j, j < n →
        ∃ k, m1.blk dst = some k ∧ i + 1 + j < k ∧ (m1.cell (dst + (i + 1 + j))).isSome := by
      intro j hj
      obtain ⟨k, hk, hlt, h1⟩ := hd (j + 1) (by omega)
      have e : dst + (i + 1 + j) = dst + (i + (j + 1)) := by omega
      refine ⟨k, by rw [hb1]; exact hk, by omega, ?_⟩
      rw [hc1, e]
      split_ifs with h
      · rfl
      · exact h1
    have hx1 : ∀ j k, j < n → k < n → src + (i + 1 + j) ≠ dst + (i + 1 + k) := by
      intro j k hj hk
      have := hx (j + 1) (k + 1) (by omega) (by omega)
      omega
    obtain ⟨m2, h2, hb2, hc2⟩ := ih (i + 1) m1 hs1 hd1 hx1
    refine ⟨m2, ?_, by rw [hb2, hb1], ?_⟩
    · simp only [copy_elems]
      rw [get_eq hks his, hx0]
      simp only [set_eq x hkd hid, hw]
      exact h2
    · intro p
      rw [hc2, hc1, hc1]
      by_cases hp : dst + i ≤ p ∧ p < dst + i + (n + 1)
      · have hne := hx (p - dst - i) 0 (by omega) (by omega)
        have e : src + (i + (p - dst - i)) = src + (p - dst) := by omega
        rw [e] at hne
        simp only [Nat.add_zero] at hne
        have e2 : src + (p - dst) = src + i → m.cell (src + (p - dst)) = some x := by
          intro h
          rw [h, hx0]
        rw [if_pos hp]
        split_ifs <;> first | rfl | omega | (symm; apply e2; omega)
      · rw [if_neg hp]
        split_ifs <;> first | rfl | omega

theorem shift_up_spec {α : Type} (p current : Nat) :
    ∀ (n : Nat) (m : Mem α),
      (∀ j, j ≤ n → ∃ k, m.blk p = some k ∧ current + j < k ∧
        (m.cell (p + (current + j))).isSome) →
      ∃ m1, shift_up p current n m = some m1 ∧ m1.blk = m.blk ∧
        ∀ q : Nat, m1.cell q =
          if p + current < q ∧ q ≤ p + current + n then m.cell (q - 1) else m.cell q := by
  intro n
  induction n with
  | zero =>
    intro m _
    refine ⟨m, rfl, rfl, fun q => ?_⟩
    split_ifs <;> first | rfl | omega
  | succ n ih =>
    intro m hs
    obtain ⟨k, hk, hlt0, h0⟩ := hs n (by omega)
    obtain ⟨k1, hk1, hlt1, h1⟩ := hs (n + 1) (by omega)
    obtain ⟨x, hx0⟩ := Option.isSome_iff_exists.mp h0
    obtain ⟨m1, hw⟩ := write_of_isSome x h1
    obtain ⟨_, hc1, hb1⟩ := write_eq_some hw
    have hs1 : ∀ j, j ≤ n → ∃ k, m1.blk p = some k ∧ current + j < k ∧
        (m1.cell (p + (current + j))).isSome := by
      intro j hj
      obtain ⟨k2, hk2, hlt2, h2⟩ := hs j (by omega)
      refine ⟨k2, by rw [hb1]; exact hk2, hlt2, ?_⟩
      rw [hc1]
      split_ifs
      · rfl
      · exact h2
    obtain ⟨m2, h2, hb2, hc2⟩ := ih m1 hs1
    refine ⟨m2, ?_, by rw [hb2, hb1], ?_⟩
    · simp only [shift_up]
      rw [get_eq hk hlt0, hx0]
      simp only [set_eq x hk1 (by omega : current + n + 1 < k1)]
      simp only [← Nat.add_assoc] at hw ⊢
      simp only [hw]
      simpa only [← Nat.add_assoc] using h2
    · intro q
      have e2 : q - 1 = p + (current + n) → m.cell (q - 1) = some x := by
        intro h
        rw [h, hx0]
      rw [hc2, hc1, hc1]
      split_ifs <;> first | rfl | omega | (symm; apply e2; omega)

theorem shift_down_spec {α : Type} (p : Nat) :
    ∀ (n i : Nat) (m : Mem α),
      (∀ j, j ≤ n → ∃ k, m.blk p = some k ∧ i + j < k ∧ (m.cell (p + (i + j))).isSome) →
      ∃ m1, shift_down p n i m = some m1 ∧ m1.blk = m.blk ∧
        ∀ q : Nat, m1.cell q =
          if p + i ≤ q ∧ q < p + i + n then m.cell (q + 1) else m.cell q := by
  intro n
  induction n with
  | zero =>
    intro i m _
    refine ⟨m, rfl, rfl, fun q => ?_⟩
    split_ifs <;> first | rfl | omega
  | succ n ih =>
    intro i m hs
    obtain ⟨k1, hk1, hlt1, h1⟩ := hs 1 (by omega)
    obtain ⟨k0, hk0, hlt0, h0⟩ := hs 0 (by omega)
    obtain ⟨x, hx0⟩ := Option.isSome_iff_exists.mp h1
    obtain ⟨m1, hw⟩ := write_of_isSome x h0
    obtain ⟨_, hc1, hb1⟩ := write_eq_some hw
    simp only [Nat.add_zero] at hw hc1 hlt0
    have hs1 : ∀ j, j ≤ n → ∃ k, m1.blk p = some k ∧ i + 1 + j < k ∧
        (m1.cell (p + (i + 1 + j))).isSome := by
      intro j hj
      obtain ⟨k2, hk2, hlt2, h2⟩ := hs (j + 1) (by omega)
      have e : p + (i + 1 + j) = p + (i + (j + 1)) := by omega
      refine ⟨k2, by rw [hb1]; exact hk2, by omega, ?_⟩
      rw [hc1, e]
      split_ifs
      · rfl
      · exact h2
    obtain ⟨m2, h2, hb2, hc2⟩ := ih (i + 1) m1 hs1
    refine ⟨m2, ?_, by rw [hb2, hb1], ?_⟩
    · simp only [shift_down]
      rw [get_eq hk1 hlt1, hx0]
      simp only [set_eq x hk0 hlt0, hw]
      exact h2
    · intro q
      have e2 : q + 1 = p + (i + 1) → m.cell (q + 1) = some x := by
        intro h
        rw [h, hx0]
      rw [hc2, hc1, hc1]
      split_ifs <;> first | rfl | omega | (symm; apply e2; omega)

theorem fill_from_spec {α : Type} :
    ∀ (il : List α) (v : Vector) (m : Mem α),
      (∀ j, j < il.length → ∃ k, m.blk v.values = some k ∧ v.sz + j < k ∧
        (m.cell (v.values + (v.sz + j))).isSome) →
      ∃ m1, fill_from il v m = some (⟨v.sz + il.length, v.max_sz, v.values⟩, m1) ∧
        m1.blk = m.blk ∧
        ∀ q : Nat, m1.cell q =
          if v.values + v.sz ≤ q ∧ q < v.values + v.sz + il.length
          then il[q - (v.values + v.sz)]? else m.cell q := by
  intro il
  induction il with
  | nil =>
    intro v m _
    refine ⟨m, rfl, rfl, fun q => ?_⟩
    split_ifs <;> first | rfl | (simp at *; omega)
  | cons x xs ih =>
    intro v m hs
    obtain ⟨k0, hk0, hlt0, h0⟩ := hs 0 (by simp)
    obtain ⟨m1, hw⟩ := write_of_isSome x h0
    obtain ⟨_, hc1, hb1⟩ := write_eq_some hw
    simp only [Nat.add_zero] at hw hc1 hlt0
    have hs1 : ∀ j, j < xs.length → ∃ k, m1.blk v.values = some k ∧ v.sz + 1 + j < k ∧
        (m1.cell (v.values + (v.sz + 1 + j))).isSome := by
      intro j hj
      obtain ⟨k2, hk2, hlt2, h2⟩ := hs (j + 1) (by simp; omega)
      have e : v.values + (v.sz + 1 + j) = v.values + (v.sz + (j + 1)) := by omega
      refine ⟨k2, by rw [hb1]; exact hk2, by omega, ?_⟩
      rw [hc1, e]
      split_ifs
      · rfl
      · exact h2
    obtain ⟨m2, h2, hb2, hc2⟩ := ih ⟨v.sz + 1, v.max_sz, v.values⟩ m1 hs1
    simp only at h2 hc2
    refine ⟨m2, ?_, by rw [hb2, hb1], ?_⟩
    · simp only [fill_from]
      simp only [set_eq x hk0 hlt0, hw]
      rw [h2]
      simp only [List.length_cons]
      congr 3
      omega
    · intro q
      rw [hc2, hc1]
      simp only [List.length_cons]
      by_cases h0 : q = v.values + v.sz
      · subst h0
        simp
      · by_cases h1 : v.values + v.sz ≤ q ∧ q < v.values + v.sz + (xs.length + 1)
        · have h3 : v.values + (v.sz + 1) ≤ q ∧ q < v.values + (v.sz + 1) + xs.length := by omega
          rw [if_pos h1, if_pos h3]
          have : q - (v.values + v.sz) = (q - (v.values + (v.sz + 1))) + 1 := by omega
          rw [this, List.getElem?_cons_succ]
        · have h3 : ¬ (v.values + (v.sz + 1) ≤ q ∧ q < v.values + (v.sz + 1) + xs.length) := by omega
          rw [if_neg h1, if_neg h3, if_neg h0]

theorem SameShape.memOK {α : Type} {m m1 : Mem α} (h : SameShape m m1) (hm : MemOK m) :
    MemOK m1 := by
  obtain ⟨hb, hc⟩ := h
  refine ⟨by rw [hb]; exact hm.null, ?_, ?_, ?_⟩
  · intro b n i h1 h2
    rw [hb] at h1
    rw [hc]
    exact hm.cells b n i h1 h2
  · intro b1 n1 b2 n2 i j h1 h2
    rw [hb] at h1 h2
    exact hm.disj b1 n1 b2 n2 i j h1 h2
  · intro b n h1
    rw [hb] at h1
    exact hm.small b n h1

theorem sameShape_refl {α : Type} (m : Mem α) : SameShape m m := ⟨rfl, fun _ => rfl⟩

theorem sameShape_trans {α : Type} {m m1 m2 : Mem α} (h1 : SameShape m m1)
    (h2 : SameShape m1 m2) : SameShape m m2 :=
  ⟨by rw [h2.1, h1.1], fun q => by rw [h2.2, h1.2]⟩

theorem write_shape {α : Type} {m m1 : Mem α} {p : Nat} {x : α}
    (h : m.write p x = some m1) : SameShape m m1 := by
  obtain ⟨hp, hc, hb⟩ := write_eq_some h
  refine ⟨hb, fun q => ?_⟩
  rw [hc]
  split_ifs with e
  · rw [e, hp]; rfl
  · rfl

theorem copy_elems_shape {α : Type} (src dst : Nat) :
    ∀ (n i : Nat) (m m1 : Mem α), copy_elems src dst n i m = some m1 → SameShape m m1 := by
  intro n
  induction n with
  | zero =>
    intro i m m1 h
    simp only [copy_elems, Option.some.injEq] at h
    subst h
    exact sameShape_refl m
  | succ n ih =>
    intro i m m1 h
    simp only [copy_elems] at h
    split at h
    · simp at h
    · split at h
      · simp at h
      · rename_i hw
        exact sameShape_trans (write_shape (set_eq_some hw)) (ih _ _ _ h)

theorem shift_up_shape {α : Type} (p current : Nat) :
    ∀ (n : Nat) (m m1 : Mem α), shift_up p current n m = some m1 → SameShape m m1 := by
  intro n
  induction n with
  | zero =>
    intro m m1 h
    simp only [shift_up, Option.some.injEq] at h
    subst h
    exact sameShape_refl m
  | succ n ih =>
    intro m m1 h
    simp only [shift_up] at h
    split at h
    · simp at h
    · split at h
      · simp at h
      · rename_i hw
        exact sameShape_trans (write_shape (set_eq_some hw)) (ih _ _ h)

theorem shift_down_shape {α : Type} (p : Nat) :
    ∀ (n i : Nat) (m m1 : Mem α), shift_down p n i m = some m1 → SameShape m m1 := by
  intro n
  induction n with
  | zero =>
    intro i m m1 h
    simp only [shift_down, Option.some.injEq] at h
    subst h
    exact sameShape_refl m
  | succ n ih =>
    intro i m m1 h
    simp only [shift_down] at h
    split at h
    · simp at h
    · split at h
      · simp at h
      · rename_i hw
        exact sameShape_trans (write_shape (set_eq_some hw)) (ih _ _ _ h)

theorem fill_from_shape {α : Type} :
    ∀ (il : List α) (v v1 : Vector) (m m1 : Mem α),
      fill_from il v m = some (v1, m1) → SameShape m m1 := by
  intro il
  induction il with
  | nil =>
    intro v v1 m m1 h
    simp only [fill_from, Option.some.injEq, Prod.mk.injEq] at h
    rw [← h.2]
    exact sameShape_refl m
  | cons x xs ih =>
    intro v v1 m m1 h
    simp only [fill_from] at h
    split at h
    · simp at h
    · rename_i hw
      exact sameShape_trans (write_shape (set_eq_some hw)) (ih _ _ _ _ h)

/-- A fresh range meets no slot of a live buffer. -/
theorem fresh_apart {α : Type} {m : Mem α} (hm : MemOK m) {a n b k i : Nat}
    (hf : m.fresh a n = true) (hb : m.blk b = some k) (hi : i < k) :
    ¬ (a ≤ b + i ∧ b + i < a + n) := by
  intro h
  obtain ⟨_, _, hc, _⟩ := (fresh_iff m a n).mp hf
  have h1 := hc (b + i - a) (by omega)
  have h2 := hm.cells b k i hb hi
  have e : a + (b + i - a) = b + i := by omega
  rw [e] at h1
  rw [h1] at h2
  simp at h2

theorem alloc_memOK {α : Type} [Inhabited α] {m m1 : Mem α} {a n : Nat} (hm : MemOK m)
    (h : m.alloc a n = .ok m1) : MemOK m1 := by
  obtain ⟨hf, hc, hb⟩ := alloc_eq_ok h
  obtain ⟨ha, hba, hca, hmax⟩ := (fresh_iff m a n).mp hf
  refine ⟨?_, ?_, ?_, ?_⟩
  · rw [hb, if_neg (Ne.symm ha)]
    exact hm.null
  · intro b k i h1 h2
    rw [hb] at h1
    rw [hc]
    split_ifs with e
    · rfl
    · split_ifs at h1 with e1
      · simp only [Option.some.injEq] at h1
        omega
      · exact hm.cells b k i h1 h2
  · intro b1 n1 b2 n2 i j h1 h2 hne hi hj
    rw [hb] at h1 h2
    split_ifs at h1 with e1 <;> split_ifs at h2 with e2
    · omega
    · simp only [Option.some.injEq] at h1
      have := fresh_apart hm hf h2 hj
      omega
    · simp only [Option.some.injEq] at h2
      have := fresh_apart hm hf h1 hi
      omega
    · exact hm.disj b1 n1 b2 n2 i j h1 h2 hne hi hj
  · intro b k h1
    rw [hb] at h1
    split_ifs at h1 with e1
    · simp only [Option.some.injEq] at h1
      omega
    · exact hm.small b k h1

theorem free_memOK {α : Type} {m m1 : Mem α} {p : Nat} (hm : MemOK m)
    (h : m.free p = some m1) : MemOK m1 := by
  obtain ⟨n, hp, hc, hb⟩ := free_eq_some h
  refine ⟨?_, ?_, ?_, ?_⟩
  · rw [hb]
    split_ifs
    · rfl
    · exact hm.null
  · intro b k i h1 h2
    rw [hb] at h1
    split_ifs at h1 with e1
    rw [hc]
    split_ifs with e
    · have := hm.disj b k p n i (b + i - p) h1 hp e1 h2 (by omega)
      omega
    · exact hm.cells b k i h1 h2
  · intro b1 n1 b2 n2 i j h1 h2 hne hi hj
    rw [hb] at h1 h2
    split_ifs at h1 with e1
    split_ifs at h2 with e2
    exact hm.disj b1 n1 b2 n2 i j h1 h2 hne hi hj
  · intro b k h1
    rw [hb] at h1
    split_ifs at h1 with e1
    exact hm.small b k h1

theorem release_memOK {α : Type} {m m1 : Mem α} {p : Nat} (hm : MemOK m)
    (h : m.release p = some m1) : MemOK m1 := by
  unfold Mem.release at h
  split_ifs at h
  · exact free_memOK hm h
  · simp only [Option.some.injEq] at h
    rw [← h]
    exact hm

theorem VecOK.fit {α : Type} {m : Mem α} {v : Vector} (h : VecOK m v) : VecFit m v := by
  refine ⟨h.le, fun h0 => ?_, fun h0 => ⟨v.max_sz, h.live h0, h.le⟩⟩
  have := h.null h0
  have := h.le
  omega

theorem VecFit.bufOK {α : Type} {m : Mem α} {v : Vector} (h : VecFit m v) : BufOK m v :=
  ⟨h.null, h.live⟩

theorem VecOK.hasRoom {α : Type} {m : Mem α} {v : Vector} (h : VecOK m v) : HasRoom m v := by
  intro hlt
  have hz : v.values ≠ 0 := fun h0 => by
    have := h.null h0
    omega
  exact ⟨v.max_sz, h.live hz, hlt⟩

/-- A container with elements has a buffer. -/
theorem VecFit.values_ne_zero {α : Type} {m : Mem α} {v : Vector} (h : VecFit m v)
    (hpos : 0 < v.sz) : v.values ≠ 0 := fun h0 => by
  have := h.null h0
  omega

/-- The slots of the elements are slots of the live buffer. -/
theorem VecFit.slots {α : Type} {m : Mem α} {v : Vector} (h : VecFit m v) (hpos : 0 < v.sz) :
    ∃ cap, m.blk v.values = some cap ∧ v.sz ≤ cap :=
  h.live (h.values_ne_zero hpos)

theorem release_spec {α : Type} {m : Mem α} {p : Nat} (hm : MemOK m)
    (hp : p ≠ 0 → ∃ cap, m.blk p = some cap) :
    ∃ m1, m.release p = some m1 ∧ MemOK m1 ∧
      (∀ b, m1.blk b = if b = p then none else m.blk b) ∧
      (∀ b n i, m.blk b = some n → b ≠ p → i < n → m1.cell (b + i) = m.cell (b + i)) := by
  by_cases h0 : p = 0
  · refine ⟨m, by simp [Mem.release, h0], hm, fun b => ?_, fun _ _ _ _ _ _ => rfl⟩
    split_ifs with e
    · rw [e, h0]
      exact hm.null
    · rfl
  · obtain ⟨cap, hcap⟩ := hp h0
    obtain ⟨m1, h1⟩ := free_of_live hcap
    obtain ⟨k, hk, hc, hb⟩ := free_eq_some h1
    rw [hcap] at hk
    simp only [Option.some.injEq] at hk
    subst hk
    refine ⟨m1, by simp [Mem.release, h0, h1], free_memOK hm h1, hb, ?_⟩
    intro b n i hbn hne hi
    rw [hc]
    split_ifs with e
    · have := hm.disj b n p cap i (b + i - p) hbn hcap hne hi (by omega)
      omega
    · rfl

theorem realloc_spec {α : Type} [Inhabited α] {m : Mem α} {v : Vector} (a n : Nat)
    (hm : MemOK m) (hv : BufOK m v) (hn : v.sz ≤ n) (hf : n ≠ 0 → m.fresh a n = true) :
    ∃ m1, realloc a n v m = .ok () (⟨v.sz, n, if n = 0 then 0 else a⟩, m1) ∧
      Frame m v m1 ⟨v.sz, n, if n = 0 then 0 else a⟩ ∧
      VecOK m1 ⟨v.sz, n, if n = 0 then 0 else a⟩ ∧
      (∀ i, i < v.sz → m1.cell ((if n = 0 then 0 else a) + i) = m.cell (v.values + i)) ∧
      (n ≠ 0 → m.blk a = none ∧ a ≠ 0) ∧
      m1.blk v.values = none := by
  have hlive : v.values ≠ 0 → ∃ cap, m.blk v.values = some cap := fun h =>
    (hv.live h).imp fun _ h => h.1
  by_cases h0 : n = 0
  · subst h0
    obtain ⟨m1, h1, hm1, hb1, hc1⟩ := release_spec hm hlive
    have hvok : VecOK m1 ⟨v.sz, 0, if 0 = 0 then 0 else a⟩ :=
      ⟨by simpa using hn, fun _ => rfl, fun h => absurd rfl h⟩
    refine ⟨m1, ?_, ⟨hm1, hvok.fit, ?_, ?_⟩, hvok, ?_, ?_, ?_⟩
    · simp [realloc, DEFAULT_MAX_SZ, Nat.le_zero.mp hn, h1]
    · intro b k hb hne
      refine ⟨by rw [hb1, if_neg hne]; exact hb, fun i hi => hc1 b k i hb hne hi⟩
    · right
      exact hm.null
    · intro i hi
      omega
    · intro h
      exact absurd rfl h
    · rw [hb1, if_pos rfl]
  · have hfr := hf h0
    obtain ⟨ha, hba, hca, _⟩ := (fresh_iff m a n).mp hfr
    obtain ⟨m0, hal⟩ := alloc_of_fresh (α := α) hfr
    obtain ⟨_, hc0, hb0⟩ := alloc_eq_ok hal
    have hm0 := alloc_memOK hm hal
    -- the source slots
    have hsrc : ∀ j, j < v.sz → (m.cell (v.values + j)).isSome ∧
        ¬ (a ≤ v.values + j ∧ v.values + j < a + n) := by
      intro j hj
      have hnz : v.values ≠ 0 := fun h => by
        have := hv.null h
        omega
      obtain ⟨cap, hcap, hle⟩ := hv.live hnz
      exact ⟨hm.cells _ _ j hcap (by omega), fresh_apart hm hfr hcap (by omega)⟩
    have hsrc0 : ∀ j, j < v.sz → ∃ cap, m.blk v.values = some cap ∧ v.sz ≤ cap := by
      intro j hj
      exact hv.live (fun h => by
        have := hv.null h
        omega)
    obtain ⟨m2, hcp, hb2, hc2⟩ := copy_elems_spec v.values a v.sz 0 m0
      (fun j hj => by
        obtain ⟨cap, hcap, hle⟩ := hsrc0 j hj
        refine ⟨cap, ?_, by omega, ?_⟩
        · rw [hb0]
          split_ifs with e
          · rw [e, hba] at hcap
            simp at hcap
          · exact hcap
        · rw [hc0, Nat.zero_add]
          split_ifs
          · rfl
          · exact (hsrc j hj).1)
      (fun j hj => by
        refine ⟨n, by rw [hb0, if_pos rfl], by omega, ?_⟩
        have h5 : a ≤ a + j ∧ a + j < a + n := by omega
        rw [hc0, Nat.zero_add, if_pos h5]
        rfl)
      (fun j k hj hk => by
        have := (hsrc j hj).2
        omega)
    have hm2 : MemOK m2 := (copy_elems_shape _ _ _ _ _ _ hcp).memOK hm0
    have hlive2 : v.values ≠ 0 → ∃ cap, m2.blk v.values = some cap := by
      intro h
      obtain ⟨cap, hcap⟩ := hlive h
      refine ⟨cap, ?_⟩
      rw [hb2, hb0]
      split_ifs with e
      · rw [e, hba] at hcap
        simp at hcap
      · exact hcap
    obtain ⟨m3, h3, hm3, hb3, hc3⟩ := release_spec hm2 hlive2
    have hav : a ≠ v.values := by
      intro e
      by_cases hz : v.values = 0
      · omega
      · obtain ⟨cap, hcap⟩ := hlive hz
        rw [← e, hba] at hcap
        simp at hcap
    have hba3 : m3.blk a = some n := by
      rw [hb3, if_neg hav, hb2, hb0, if_pos rfl]
    have hvok : VecOK m3 ⟨v.sz, n, if n = 0 then 0 else a⟩ := by
      refine ⟨hn, ?_, ?_⟩
      · intro h
        rw [if_neg h0] at h
        exact absurd h ha
      · intro _
        simp only [if_neg h0]
        exact hba3
    refine ⟨m3, ?_, ⟨hm3, hvok.fit, ?_, ?_⟩, hvok, ?_, ?_, ?_⟩
    · have hlt : ¬ n < v.sz := by omega
      simp [realloc, DEFAULT_MAX_SZ, hlt, h0, hal, hcp, h3]
    · intro b k hb hne
      have hba' : b ≠ a := by
        intro e
        rw [e, hba] at hb
        simp at hb
      have hb2' : m2.blk b = some k := by
        rw [hb2, hb0, if_neg hba']
        exact hb
      refine ⟨by rw [hb3, if_neg hne]; exact hb2', fun i hi => ?_⟩
      have hfa := fresh_apart hm hfr hb hi
      have hfa2 : ¬ (a + 0 ≤ b + i ∧ b + i < a + 0 + v.sz) := by omega
      rw [hc3 b k i hb2' hne hi, hc2, if_neg hfa2, hc0, if_neg hfa]
    · right
      simp only [if_neg h0]
      exact hba
    · intro i hi
      simp only [if_neg h0]
      have h4 := hc3 a n i (by rw [hb2, hb0, if_pos rfl]) hav (by omega)
      have e : a + i - a = i := by omega
      have h5 : a + 0 ≤ a + i ∧ a + i < a + 0 + v.sz := by omega
      rw [h4, hc2, if_pos h5, e, hc0, if_neg (hsrc i hi).2]
    · intro _
      exact ⟨hba, ha⟩
    · rw [hb3, if_pos rfl]

theorem frame_refl {α : Type} {m : Mem α} {v : Vector} (hm : MemOK m) (hv : VecFit m v) :
    Frame m v m v :=
  ⟨hm, hv, fun _ _ hb _ => ⟨hb, fun _ _ => rfl⟩, Or.inl rfl⟩

theorem frame_trans {α : Type} {m m1 m2 : Mem α} {v v1 v2 : Vector}
    (h1 : Frame m v m1 v1) (h2 : Frame m1 v1 m2 v2) : Frame m v m2 v2 := by
  refine ⟨h2.mem, h2.vec, ?_, ?_⟩
  · intro b n hb hne
    obtain ⟨hb1, hc1⟩ := h1.keep b n hb hne
    have hne1 : b ≠ v1.values := by
      rcases h1.own with e | e
      · rw [e]; exact hne
      · intro e1
        rw [← e1, hb] at e
        simp at e
    obtain ⟨hb2, hc2⟩ := h2.keep b n hb1 hne1
    exact ⟨hb2, fun i hi => by rw [hc2 i hi, hc1 i hi]⟩
  · rcases h2.own with e | e
    · rw [e]; exact h1.own
    · by_cases e1 : v2.values = v.values
      · exact Or.inl e1
      · right
        cases hb : m.blk v2.values with
        | none => rfl
        | some n =>
          have := (h1.keep _ _ hb e1).1
          rw [e] at this
          simp at this

/-- A call that changes the members only, and neither the buffer address nor
the free store. -/
theorem frame_members {α : Type} {m : Mem α} {v v1 : Vector} (hm : MemOK m)
    (hv : VecFit m v) (e1 : v1.values = v.values) (e2 : v1.sz ≤ v.sz)
    (e3 : v1.sz ≤ v1.max_sz) : Frame m v m v1 := by
  refine ⟨hm, ⟨e3, ?_, ?_⟩, fun _ _ hb _ => ⟨hb, fun _ _ => rfl⟩, Or.inl e1⟩
  · intro h
    have := hv.null (e1 ▸ h)
    omega
  · intro h
    obtain ⟨cap, hcap, hle⟩ := hv.live (e1 ▸ h)
    exact ⟨cap, by rw [e1]; exact hcap, by omega⟩

/-- A call that only overwrites slots of the container's own live buffer. -/
theorem frame_inplace {α : Type} {m m1 : Mem α} {v v1 : Vector} {cap : Nat} (hm : MemOK m)
    (hl : m.blk v.values = some cap) (hs : SameShape m m1)
    (hc : ∀ q : Nat, ¬ (v.values ≤ q ∧ q < v.values + cap) → m1.cell q = m.cell q)
    (e1 : v1.values = v.values) (e3 : v1.sz ≤ v1.max_sz) (e4 : v1.sz ≤ cap) :
    Frame m v m1 v1 := by
  refine ⟨hs.memOK hm, ⟨e3, ?_, ?_⟩, ?_, Or.inl e1⟩
  · intro h
    rw [← e1, h, hm.null] at hl
    simp at hl
  · intro _
    exact ⟨cap, by rw [e1, hs.1]; exact hl, e4⟩
  · intro b n hb hne
    refine ⟨by rw [hs.1]; exact hb, fun i hi => ?_⟩
    apply hc
    intro hq
    have := hm.disj b n v.values cap i (b + i - v.values) hb hl hne hi (by omega)
    omega

/-- The capacity stays the length of the buffer across a call that keeps the
buffer and the capacity. -/
theorem vecOK_inplace {α : Type} {m m1 : Mem α} {v v1 : Vector} (hv : VecOK m v)
    (hs : SameShape m m1) (e1 : v1.values = v.values) (e2 : v1.max_sz = v.max_sz)
    (e3 : v1.sz ≤ v1.max_sz) : VecOK m1 v1 := by
  refine ⟨e3, ?_, ?_⟩
  · intro h
    rw [e2]
    exact hv.null (e1 ▸ h)
  · intro h
    rw [e1, e2, hs.1]
    exact hv.live (e1 ▸ h)

theorem realloc_bad {α : Type} [Inhabited α] {m : Mem α} {v : Vector} {a n : Nat}
    (hn : v.sz ≤ n) (h0 : n ≠ 0) (h : a = 0 ∨ ALLOC_MAX < n) :
    realloc a n v m = .bad_alloc (⟨v.sz, n, v.values⟩, m) := by
  have hlt : ¬ n < v.sz := by omega
  simp [realloc, DEFAULT_MAX_SZ, hlt, h0, alloc_bad m h]

theorem realloc_stuck {α : Type} [Inhabited α] {m : Mem α} {v : Vector} {a n : Nat}
    (hn : v.sz ≤ n) (h0 : n ≠ 0) (h : ¬ (a = 0 ∨ ALLOC_MAX < n)) (hf : m.fresh a n = false) :
    realloc a n v m = .ub := by
  have hlt : ¬ n < v.sz := by omega
  simp [realloc, DEFAULT_MAX_SZ, hlt, h0, alloc_stuck h hf]

theorem realloc_small {α : Type} [Inhabited α] {m : Mem α} {v : Vector} {a n : Nat}
    (hn : n < v.sz) : realloc a n v m = .throw .capacity_too_small (v, m) := by
  simp [realloc, DEFAULT_MAX_SZ, hn]

theorem realloc_frame {α : Type} [Inhabited α] {m : Mem α} {v : Vector} (a n : Nat)
    (hm : MemOK m) (hv : BufOK m v) (hle : v.sz ≤ n) :
    (realloc a n v m).Sat (fun s => Frame m v s.2 s.1) := by
  by_cases h0 : n = 0
  · obtain ⟨m1, h1, hfr, _⟩ := realloc_spec a n hm hv hle (fun h => absurd h0 h)
    rw [h1]
    exact hfr
  · rcases alloc_cases m a n with hf | hbad | ⟨hnb, hff⟩
    · obtain ⟨m1, h1, hfr, _⟩ := realloc_spec a n hm hv hle (fun _ => hf)
      rw [h1]
      exact hfr
    · rw [realloc_bad hle h0 hbad]
      exact ⟨hm, ⟨hle, hv.null, hv.live⟩, fun _ _ hb _ => ⟨hb, fun _ _ => rfl⟩, Or.inl rfl⟩
    · rw [realloc_stuck hle h0 hnb hff]
      trivial

theorem reserve_grow_spec {α : Type} [Inhabited α] {m : Mem α} {v : Vector} (a n : Nat)
    (hm : MemOK m) (hv : VecFit m v) (hn : v.max_sz < n) (hf : m.fresh a n = true) :
    ∃ m1, reserve a n v m = .ok () (⟨v.sz, n, a⟩, m1) ∧ Frame m v m1 ⟨v.sz, n, a⟩ ∧
      VecOK m1 ⟨v.sz, n, a⟩ ∧
      (∀ i, i < v.sz → m1.cell (a + i) = m.cell (v.values + i)) ∧ m.blk a = none ∧ a ≠ 0 ∧
      m1.blk v.values = none := by
  have h0 : n ≠ 0 := by omega
  have hb : BufOK m { v with max_sz := n } := ⟨hv.null, hv.live⟩
  obtain ⟨m1, h1, hfr, hok, hc, hx, hrel⟩ := realloc_spec (v := { v with max_sz := n }) a n hm hb
    (by have := hv.le; simp only; omega) (fun _ => hf)
  simp only [if_neg h0] at h1 hfr hc hok
  refine ⟨m1, ?_, ⟨hfr.mem, hfr.vec, hfr.keep, hfr.own⟩, hok, hc, (hx h0).1, (hx h0).2, hrel⟩
  simp only [reserve, if_pos hn]
  exact h1

theorem reserve_noop {α : Type} [Inhabited α] {m : Mem α} {v : Vector} (a n : Nat)
    (hn : ¬ v.max_sz < n) : reserve a n v m = .ok () (v, m) := by
  simp only [reserve, if_neg hn]

theorem reserve_bad {α : Type} [Inhabited α] {m : Mem α} {v : Vector} (a n : Nat)
    (hv : v.sz ≤ v.max_sz) (hn : v.max_sz < n) (h : a = 0 ∨ ALLOC_MAX < n) :
    reserve a n v m = .bad_alloc (⟨v.sz, n, v.values⟩, m) := by
  have := realloc_bad (v := { v with max_sz := n }) (m := m) (a := a) (n := n)
    (by simp only; omega) (by omega) h
  simp only [reserve, if_pos hn, this]

theorem reserve_stuck {α : Type} [Inhabited α] {m : Mem α} {v : Vector} (a n : Nat)
    (hv : v.sz ≤ v.max_sz) (hn : v.max_sz < n) (h : ¬ (a = 0 ∨ ALLOC_MAX < n))
    (hf : m.fresh a n = false) : reserve a n v m = .ub := by
  have := realloc_stuck (v := { v with max_sz := n }) (m := m) (a := a) (n := n)
    (by simp only; omega) (by omega) h hf
  simp only [reserve, if_pos hn, this]

theorem reserve_frame {α : Type} [Inhabited α] {m : Mem α} {v : Vector} (a n : Nat)
    (hm : MemOK m) (hv : VecFit m v) :
    (reserve a n v m).Sat (fun s => Frame m v s.2 s.1) := by
  by_cases hn : v.max_sz < n
  · have hb : BufOK m { v with max_sz := n } := ⟨hv.null, hv.live⟩
    have := realloc_frame (v := { v with max_sz := n }) a n hm hb
      (by have := hv.le; simp only; omega)
    simp only [reserve, if_pos hn]
    revert this
    cases realloc a n { v with max_sz := n } m with
    | ok r s => exact fun h => ⟨h.mem, h.vec, h.keep, h.own⟩
    | throw e s => exact fun h => ⟨h.mem, h.vec, h.keep, h.own⟩
    | bad_alloc s => exact fun h => ⟨h.mem, h.vec, h.keep, h.own⟩
    | ub => exact fun _ => trivial
  · rw [reserve_noop a n hn]
    exact frame_refl hm hv

theorem shrink_spec {α : Type} [Inhabited α] {m : Mem α} {v : Vector} (a : Nat)
    (hm : MemOK m) (hv : VecFit m v) (hn : v.sz < v.max_sz)
    (hf : v.sz ≠ 0 → m.fresh a v.sz = true) :
    ∃ m1, shrink_to_fit a v m = .ok () (⟨v.sz, v.sz, if v.sz = 0 then 0 else a⟩, m1) ∧
      Frame m v m1 ⟨v.sz, v.sz, if v.sz = 0 then 0 else a⟩ ∧
      VecOK m1 ⟨v.sz, v.sz, if v.sz = 0 then 0 else a⟩ ∧
      (∀ i, i < v.sz → m1.cell ((if v.sz = 0 then 0 else a) + i) = m.cell (v.values + i)) ∧
      (v.sz ≠ 0 → m.blk a = none ∧ a ≠ 0) ∧
      m1.blk v.values = none := by
  have hb : BufOK m { v with max_sz := v.sz } := ⟨hv.null, hv.live⟩
  obtain ⟨m1, h1, hfr, hok, hc, hx, hrel⟩ :=
    realloc_spec (v := { v with max_sz := v.sz }) a v.sz hm hb (Nat.le_refl _) hf
  refine ⟨m1, ?_, ⟨hfr.mem, hfr.vec, hfr.keep, hfr.own⟩, hok, hc, hx, hrel⟩
  simp only [shrink_to_fit, if_pos hn]
  exact h1

theorem shrink_noop {α : Type} [Inhabited α] {m : Mem α} {v : Vector} (a : Nat)
    (hn : ¬ v.sz < v.max_sz) : shrink_to_fit a v m = .ok () (v, m) := by
  simp only [shrink_to_fit, if_neg hn]

theorem shrink_bad {α : Type} [Inhabited α] {m : Mem α} {v : Vector} (a : Nat)
    (hn : v.sz < v.max_sz) (h0 : v.sz ≠ 0) (h : a = 0 ∨ ALLOC_MAX < v.sz) :
    shrink_to_fit a v m = .bad_alloc (⟨v.sz, v.sz, v.values⟩, m) := by
  have := realloc_bad (v := { v with max_sz := v.sz }) (m := m) (a := a) (n := v.sz)
    (Nat.le_refl _) h0 h
  simp only [shrink_to_fit, if_pos hn, this]

theorem shrink_frame {α : Type} [Inhabited α] {m : Mem α} {v : Vector} (a : Nat)
    (hm : MemOK m) (hv : VecFit m v) :
    (shrink_to_fit a v m).Sat (fun s => Frame m v s.2 s.1) := by
  by_cases hn : v.sz < v.max_sz
  · have hb : BufOK m { v with max_sz := v.sz } := ⟨hv.null, hv.live⟩
    have := realloc_frame (v := { v with max_sz := v.sz }) a v.sz hm hb (Nat.le_refl _)
    simp only [shrink_to_fit, if_pos hn]
    revert this
    cases realloc a v.sz { v with max_sz := v.sz } m with
    | ok r s => exact fun h => ⟨h.mem, h.vec, h.keep, h.own⟩
    | throw e s => exact fun h => ⟨h.mem, h.vec, h.keep, h.own⟩
    | bad_alloc s => exact fun h => ⟨h.mem, h.vec, h.keep, h.own⟩
    | ub => exact fun _ => trivial
  · rw [shrink_noop a hn]
    exact frame_refl hm hv

theorem clear_frame {α : Type} {m : Mem α} {v : Vector} (hm : MemOK m) (hv : VecFit m v) :
    (clear v m).Sat (fun s => Frame m v s.2 s.1) :=
  frame_members hm hv rfl (Nat.zero_le _) (Nat.zero_le _)

theorem pop_back_frame {α : Type} {m : Mem α} {v : Vector} (hm : MemOK m) (hv : VecFit m v) :
    (pop_back v m).Sat (fun s => Frame m v s.2 s.1) := by
  unfold pop_back
  split_ifs with h
  · exact frame_refl hm hv
  · exact frame_members hm hv rfl (by simp only; omega) (by have := hv.le; simp only; omega)

theorem store_back_spec {α : Type} {m : Mem α} {v : Vector} {cap : Nat} (x : α)
    (hm : MemOK m) (hl : m.blk v.values = some cap) (hc : v.sz < cap)
    (hlt : v.sz < v.max_sz) :
    ∃ m1, store_back x v m = .ok () (⟨v.sz + 1, v.max_sz, v.values⟩, m1) ∧
      Frame m v m1 ⟨v.sz + 1, v.max_sz, v.values⟩ ∧ SameShape m m1 ∧
      ∀ q : Nat, m1.cell q = if q = v.values + v.sz then some x else m.cell q := by
  obtain ⟨m1, hw⟩ := write_of_isSome x (hm.cells _ _ v.sz hl hc)
  obtain ⟨_, hcell, _⟩ := write_eq_some hw
  refine ⟨m1, by simp only [store_back, set_eq x hl hc, hw], ?_, write_shape hw, hcell⟩
  refine frame_inplace hm hl (write_shape hw) ?_ rfl hlt hc
  intro q hq
  rw [hcell]
  split_ifs with e
  · omega
  · rfl

/-- The statement `values[sz++] = x;` when the buffer has no slot at index
`sz`: the store is outside the buffer. -/
theorem store_back_overrun {α : Type} {m : Mem α} {v : Vector} (x : α)
    (h : ∀ n, m.blk v.values = some n → n ≤ v.sz) : store_back x v m = .ub := by
  simp only [store_back, set_outside x h]

theorem push_back_spec {α : Type} [Inhabited α] {m : Mem α} {v : Vector} (a : Nat) (x : α)
    (hm : MemOK m) (hv : VecFit m v) (hroom : HasRoom m v)
    (hf : v.max_sz ≤ v.sz → m.fresh a ((v.sz + 1) * 2) = true) :
    ∃ v1 m1, push_back a x v m = .ok () (v1, m1) ∧ Frame m v m1 v1 ∧
      v1.sz = v.sz + 1 ∧
      v1.max_sz = (if v.max_sz ≤ v.sz then (v.sz + 1) * 2 else v.max_sz) ∧
      v1.values = (if v.max_sz ≤ v.sz then a else v.values) ∧
      (∀ i, i < v.sz → m1.cell (v1.values + i) = m.cell (v.values + i)) ∧
      m1.cell (v1.values + v.sz) = some x ∧
      (v.max_sz ≤ v.sz ∨ VecOK m v → VecOK m1 v1) := by
  by_cases hg : v.max_sz ≤ v.sz
  · have hb : BufOK m { v with max_sz := (v.sz + 1) * 2 } := ⟨hv.null, hv.live⟩
    have h0 : (v.sz + 1) * 2 ≠ 0 := by omega
    obtain ⟨m1, h1, hfr, hok, hc, _⟩ := realloc_spec (v := { v with max_sz := (v.sz + 1) * 2 }) a
      ((v.sz + 1) * 2) hm hb (by simp only; omega) (fun _ => hf hg)
    simp only [if_neg h0] at h1 hfr hc hok
    have hz : a ≠ 0 := fun h => by
      have := hok.null h
      simp only at this
      omega
    obtain ⟨m2, h2, hfr2, hs2, hc2⟩ := store_back_spec (v := ⟨v.sz, (v.sz + 1) * 2, a⟩) x hfr.mem
      (hok.live hz) (by simp only; omega) (by simp only; omega)
    refine ⟨_, m2, ?_, frame_trans ⟨hfr.mem, hfr.vec, hfr.keep, hfr.own⟩ hfr2, rfl, ?_, ?_, ?_, ?_,
      fun _ => vecOK_inplace hok hs2 rfl rfl (by simp only; omega)⟩
    · simp only [push_back, ge_iff_le, if_pos hg, DEFAULT_RESERVATION_SHIFT,
        DEFAULT_RESERVATION_SCALE, h1]
      exact h2
    · simp only [if_pos hg]
    · simp only [if_pos hg]
    · intro i hi
      have hne : ¬ (a + i = a + v.sz) := by omega
      simp only at hc2
      rw [hc2, if_neg hne]
      exact hc i hi
    · simp only at hc2
      rw [hc2, if_pos rfl]
  · obtain ⟨cap, hl, hcap⟩ := hroom (by omega)
    obtain ⟨m2, h2, hfr2, hs2, hc2⟩ := store_back_spec x hm hl hcap (by omega)
    refine ⟨_, m2, ?_, hfr2, rfl, ?_, ?_, ?_, ?_, ?_⟩
    · simp only [push_back, ge_iff_le, if_neg hg]
      exact h2
    · simp only [if_neg hg]
    · simp only [if_neg hg]
    · intro i hi
      have hne : ¬ (v.values + i = v.values + v.sz) := by omega
      rw [hc2, if_neg hne]
    · rw [hc2, if_pos rfl]
    · intro h
      rcases h with h | h
      · exact absurd h hg
      · exact vecOK_inplace h hs2 rfl rfl (by simp only; omega)

/-- The growth of `push_back` when `new` throws: `max_sz` has been overwritten,
the buffer and the size are as they were. -/
theorem push_back_bad {α : Type} [Inhabited α] {m : Mem α} {v : Vector} (a : Nat) (x : α)
    (hg : v.max_sz ≤ v.sz) (h : a = 0 ∨ ALLOC_MAX < (v.sz + 1) * 2) :
    push_back a x v m = .bad_alloc (⟨v.sz, (v.sz + 1) * 2, v.values⟩, m) := by
  have := realloc_bad (v := { v with max_sz := (v.sz + 1) * 2 }) (m := m) (a := a)
    (n := (v.sz + 1) * 2) (by simp only; omega) (by omega) h
  simp only [push_back, ge_iff_le, if_pos hg, DEFAULT_RESERVATION_SHIFT,
    DEFAULT_RESERVATION_SCALE, this]

theorem push_back_stuck {α : Type} [Inhabited α] {m : Mem α} {v : Vector} (a : Nat) (x : α)
    (hg : v.max_sz ≤ v.sz) (h : ¬ (a = 0 ∨ ALLOC_MAX < (v.sz + 1) * 2))
    (hf : m.fresh a ((v.sz + 1) * 2) = false) :
    push_back a x v m = .ub := by
  have := realloc_stuck (v := { v with max_sz := (v.sz + 1) * 2 }) (m := m) (a := a)
    (n := (v.sz + 1) * 2) (by simp only; omega) (by omega) h hf
  simp only [push_back, ge_iff_le, if_pos hg, DEFAULT_RESERVATION_SHIFT,
    DEFAULT_RESERVATION_SCALE, this]

/-- A container that reports room it does not have: `push_back` stores past the
end of the buffer, whatever the allocator would answer. -/
theorem push_back_overrun {α : Type} [Inhabited α] {m : Mem α} {v : Vector} (a : Nat) (x : α)
    (hlt : v.sz < v.max_sz) (h : ∀ n, m.blk v.values = some n → n ≤ v.sz) :
    push_back a x v m = .ub := by
  have hg : ¬ v.sz ≥ v.max_sz := by omega
  simp only [push_back, if_neg hg, store_back_overrun x h]

/-- Either the buffer has the slot at index `sz`, or it does not. -/
theorem room_cases {α : Type} (m : Mem α) (v : Vector) :
    (∃ cap, m.blk v.values = some cap ∧ v.sz < cap) ∨
      (∀ n, m.blk v.values = some n → n ≤ v.sz) := by
  cases h : m.blk v.values with
  | none => exact Or.inr (fun n hn => by simp at hn)
  | some cap =>
    by_cases hc : v.sz < cap
    · exact Or.inl ⟨cap, rfl, hc⟩
    · refine Or.inr (fun n hn => ?_)
      simp only [Option.some.injEq] at hn
      omega

/-- What `push_back` does in each case, on a state that is reached. -/
theorem push_back_cases {α : Type} [Inhabited α] {m : Mem α} {v : Vector} (a : Nat) (x : α)
    (hm : MemOK m) (hv : VecFit m v) :
    push_back a x v m = .ub ∨
    (v.max_sz ≤ v.sz ∧
      push_back a x v m = .bad_alloc (⟨v.sz, (v.sz + 1) * 2, v.values⟩, m)) ∨
    (∃ v1 m1, push_back a x v m = .ok () (v1, m1) ∧ Frame m v m1 v1 ∧
      v1.sz = v.sz + 1 ∧
      (∀ i, i < v.sz → m1.cell (v1.values + i) = m.cell (v.values + i)) ∧
      m1.cell (v1.values + v.sz) = some x) := by
  by_cases hg : v.max_sz ≤ v.sz
  · rcases alloc_cases m a ((v.sz + 1) * 2) with hf | hbad | ⟨hnb, hff⟩
    · obtain ⟨v1, m1, h1, hfr, hs, _, _, hlo, hlast, _⟩ :=
        push_back_spec a x hm hv (fun h => absurd h (by omega)) (fun _ => hf)
      exact Or.inr (Or.inr ⟨v1, m1, h1, hfr, hs, hlo, hlast⟩)
    · exact Or.inr (Or.inl ⟨hg, push_back_bad a x hg hbad⟩)
    · exact Or.inl (push_back_stuck a x hg hnb hff)
  · rcases room_cases m v with hr | hr
    · obtain ⟨v1, m1, h1, hfr, hs, _, _, hlo, hlast, _⟩ :=
        push_back_spec a x hm hv (fun _ => hr) (fun h => absurd h hg)
      exact Or.inr (Or.inr ⟨v1, m1, h1, hfr, hs, hlo, hlast⟩)
    · exact Or.inl (push_back_overrun a x (by omega) hr)

theorem push_back_frame {α : Type} [Inhabited α] {m : Mem α} {v : Vector} (a : Nat) (x : α)
    (hm : MemOK m) (hv : VecFit m v) :
    (push_back a x v m).Sat (fun s => Frame m v s.2 s.1) := by
  rcases push_back_cases a x hm hv with h | ⟨hg, h⟩ | ⟨v1, m1, h, hfr, _⟩
  · rw [h]
    trivial
  · rw [h]
    exact frame_members hm hv rfl (Nat.le_refl _) (by simp only; omega)
  · rw [h]
    exact hfr

theorem diff_of_ptr {pos : ConstIterator} (this : Nat) {v : Vector} {k : Nat}
    (hk : pos.ptr = v.values + k) : pos.sub (begin this v).to_const = (k : Int) := by
  simp only [ConstIterator.sub, begin, Iterator.to_const, hk]
  push_cast
  omega

theorem ptr_of_diff {pos : ConstIterator} {this : Nat} {v : Vector}
    (h : ¬ pos.sub (begin this v).to_const < 0) :
    pos.ptr = v.values + (pos.sub (begin this v).to_const).toNat := by
  simp only [ConstIterator.sub, begin, Iterator.to_const] at h ⊢
  omega

theorem insert_throw {α : Type} [Inhabited α] {m : Mem α} {v : Vector} (a this : Nat)
    (pos : ConstIterator) (val : CRef α)
    (h : pos.sub (begin this v).to_const < 0 ∨ (pos.sub (begin this v).to_const).toNat > v.sz) :
    insert a this pos val v m = .throw .iterator_out_of_bounds (v, m) := by
  simp only [insert, if_pos h]

theorem erase_throw {α : Type} {m : Mem α} {v : Vector} (this : Nat) (pos : ConstIterator)
    (h : pos.sub (begin this v).to_const < 0 ∨ (pos.sub (begin this v).to_const).toNat ≥ v.sz) :
    erase this pos v m = .throw .iterator_out_of_bounds (v, m) := by
  simp only [erase, if_pos h]

/-- The part of `insert` after the growth: shift, then store. -/
theorem insert_tail {α : Type} {m : Mem α} {v : Vector} {cap : Nat} (k : Nat)
    (hm : MemOK m) (hl : m.blk v.values = some cap) (hcap : v.sz < cap)
    (hlt : v.sz < v.max_sz) (hk : k ≤ v.sz) :
    ∃ m2, shift_up v.values k (v.sz - k) m = some m2 ∧ SameShape m m2 ∧ Frame m v m2 v ∧
      (∀ q : Nat, m2.cell q =
        if v.values + k < q ∧ q ≤ v.values + v.sz then m.cell (q - 1) else m.cell q) ∧
      ∀ x : α, ∃ m3, m2.set v.values k x = some m3 ∧
        Frame m v m3 ⟨v.sz + 1, v.max_sz, v.values⟩ ∧ SameShape m m3 ∧
        (∀ i, i < k → m3.cell (v.values + i) = m.cell (v.values + i)) ∧
        m3.cell (v.values + k) = some x ∧
        (∀ i, k ≤ i → i < v.sz → m3.cell (v.values + (i + 1)) = m.cell (v.values + i)) := by
  obtain ⟨m2, h2, hb2, hc2⟩ := shift_up_spec v.values k (v.sz - k) m
    (fun j hj => ⟨cap, hl, by omega, hm.cells _ _ _ hl (by omega)⟩)
  have hc2' : ∀ q : Nat, m2.cell q =
      if v.values + k < q ∧ q ≤ v.values + v.sz then m.cell (q - 1) else m.cell q := by
    intro q
    rw [hc2]
    have e : v.values + k + (v.sz - k) = v.values + v.sz := by omega
    rw [e]
  have hs2 := shift_up_shape _ _ _ _ _ h2
  have hfr2 : Frame m v m2 v := by
    refine frame_inplace hm hl hs2 ?_ rfl (by omega) (by omega)
    intro q hq
    rw [hc2']
    split_ifs with e
    · omega
    · rfl
  refine ⟨m2, h2, hs2, hfr2, hc2', fun x => ?_⟩
  have hl2 : m2.blk v.values = some cap := by rw [hb2]; exact hl
  obtain ⟨m3, hw⟩ := write_of_isSome x ((hs2.memOK hm).cells _ _ k hl2 (by omega))
  obtain ⟨_, hc3, hb3⟩ := write_eq_some hw
  have hs3 : SameShape m m3 := sameShape_trans hs2 (write_shape hw)
  have hfr3 : Frame m v m3 ⟨v.sz + 1, v.max_sz, v.values⟩ := by
    refine frame_inplace hm hl hs3 ?_ rfl hlt hcap
    intro q hq
    rw [hc3, hc2']
    split_ifs with e1 e2
    · omega
    · omega
    · rfl
  refine ⟨m3, by rw [set_eq x hl2 (by omega)]; exact hw, hfr3, hs3, ?_, ?_, ?_⟩
  · intro i hi
    have h1 : ¬ (v.values + i = v.values + k) := by omega
    have h2 : ¬ (v.values + k < v.values + i ∧ v.values + i ≤ v.values + v.sz) := by omega
    rw [hc3, if_neg h1, hc2', if_neg h2]
  · rw [hc3, if_pos rfl]
  · intro i hi1 hi2
    have h1 : ¬ (v.values + (i + 1) = v.values + k) := by omega
    have h2 : v.values + k < v.values + (i + 1) ∧ v.values + (i + 1) ≤ v.values + v.sz := by
      omega
    rw [hc3, if_neg h1, hc2', if_pos h2]
    rfl

theorem insert_spec {α : Type} [Inhabited α] {m : Mem α} {v : Vector} (a this k : Nat)
    (pos : ConstIterator) (val : CRef α) (hm : MemOK m) (hv : VecFit m v)
    (hroom : HasRoom m v) (hpos : pos.ptr = v.values + k) (hk : k ≤ v.sz)
    (hf : v.max_sz ≤ v.sz → m.fresh a ((v.max_sz + 1) * 2) = true) :
    ∃ cap p m2, cap = (if v.max_sz ≤ v.sz then (v.max_sz + 1) * 2 else v.max_sz) ∧
      p = (if v.max_sz ≤ v.sz then a else v.values) ∧
      Frame m v m2 ⟨v.sz, cap, p⟩ ∧
      (val.get m2 = none → insert a this pos val v m = .ub) ∧
      ∀ x, val.get m2 = some x →
        ∃ m3, insert a this pos val v m = .ok ⟨p + k, k, this⟩ (⟨v.sz + 1, cap, p⟩, m3) ∧
          Frame m v m3 ⟨v.sz + 1, cap, p⟩ ∧
          (∀ i, i < k → m3.cell (p + i) = m.cell (v.values + i)) ∧
          m3.cell (p + k) = some x ∧
          (∀ i, k ≤ i → i < v.sz → m3.cell (p + (i + 1)) = m.cell (v.values + i)) ∧
          (v.max_sz ≤ v.sz ∨ VecOK m v → VecOK m3 ⟨v.sz + 1, cap, p⟩) := by
  have hd := diff_of_ptr this hpos
  have hchk : ¬ ((k : Int) < 0 ∨ k > v.sz) := by omega
  -- the state after the growth step
  have hgrow : ∃ v1 m1 bl,
      (if v.sz ≥ v.max_sz then
        reserve a ((v.max_sz + DEFAULT_RESERVATION_SHIFT) * DEFAULT_RESERVATION_SCALE) v m
      else Res.ok () (v, m)) = .ok () (v1, m1) ∧
      v1 = ⟨v.sz, if v.max_sz ≤ v.sz then (v.max_sz + 1) * 2 else v.max_sz,
        if v.max_sz ≤ v.sz then a else v.values⟩ ∧
      Frame m v m1 v1 ∧ v1.sz < v1.max_sz ∧ m1.blk v1.values = some bl ∧ v1.sz < bl ∧
      (∀ i, i < v.sz → m1.cell (v1.values + i) = m.cell (v.values + i)) ∧
      (v.max_sz ≤ v.sz ∨ VecOK m v → VecOK m1 v1) := by
    by_cases hg : v.max_sz ≤ v.sz
    · obtain ⟨m1, h1, hfr, hok, hc, _, ha, _⟩ :=
        reserve_grow_spec a ((v.max_sz + 1) * 2) hm hv (by omega) (hf hg)
      have hle := hv.le
      refine ⟨_, m1, (v.max_sz + 1) * 2, ?_, ?_, hfr, ?_, hok.live ha, ?_, hc, fun _ => hok⟩
      · simp only [ge_iff_le, if_pos hg, DEFAULT_RESERVATION_SHIFT, DEFAULT_RESERVATION_SCALE]
        exact h1
      · simp only [if_pos hg]
      · simp only
        omega
      · simp only
        omega
    · obtain ⟨bl, hl, hbl⟩ := hroom (by omega)
      refine ⟨v, m, bl, ?_, ?_, frame_refl hm hv, by omega, hl, hbl, fun _ _ => rfl, ?_⟩
      · simp only [ge_iff_le, if_neg hg]
      · simp only [if_neg hg]
      · intro h
        rcases h with h | h
        · exact absurd h hg
        · exact h
  obtain ⟨v1, m1, bl, hg1, hv1, hfr1, hlt1, hl1, hbl1, hc1, hok1⟩ := hgrow
  have hsz : v1.sz = v.sz := by rw [hv1]
  obtain ⟨m2, hsh, _, hfr2, hc2, hst⟩ := insert_tail k hfr1.mem hl1 hbl1 hlt1 (by omega)
  refine ⟨_, _, m2, rfl, rfl, ?_, ?_, ?_⟩
  · subst hv1
    exact frame_trans hfr1 hfr2
  · intro hnone
    simp only [insert, hd, Int.toNat_ofNat, if_neg hchk, hg1, hsh, hnone]
  · intro x hx
    obtain ⟨m3, hset, hfr3, hs3, hlo, hmid, hhi⟩ := hst x
    refine ⟨m3, ?_, ?_, ?_, ?_, ?_, ?_⟩
    · simp only [insert, hd, Int.toNat_ofNat, if_neg hchk, hg1, hsh, hx, hset]
      subst hv1
      rfl
    · subst hv1
      exact frame_trans hfr1 hfr3
    · intro i hi
      subst hv1
      rw [hlo i hi, hc1 i (by omega)]
    · subst hv1
      exact hmid
    · intro i hi1 hi2
      subst hv1
      rw [hhi i hi1 hi2, hc1 i hi2]
    · intro h
      have := hok1 h
      subst hv1
      exact vecOK_inplace this hs3 rfl rfl (by simp only at hlt1 ⊢; omega)

/-- The growth of `insert` when `new` throws: `max_sz` has been overwritten, the
buffer and the size are as they were. -/
theorem insert_bad {α : Type} [Inhabited α] {m : Mem α} {v : Vector} (a this : Nat)
    (pos : ConstIterator) (val : CRef α)
    (hchk : ¬ (pos.sub (begin this v).to_const < 0 ∨
      (pos.sub (begin this v).to_const).toNat > v.sz))
    (hle : v.sz ≤ v.max_sz) (hg : v.max_sz ≤ v.sz)
    (h : a = 0 ∨ ALLOC_MAX < (v.max_sz + 1) * 2) :
    insert a this pos val v m = .bad_alloc (⟨v.sz, (v.max_sz + 1) * 2, v.values⟩, m) := by
  have := reserve_bad (m := m) a ((v.max_sz + 1) * 2) hle (by omega) h
  simp only [insert, if_neg hchk, ge_iff_le, if_pos hg, DEFAULT_RESERVATION_SHIFT,
    DEFAULT_RESERVATION_SCALE, this]

theorem insert_stuck {α : Type} [Inhabited α] {m : Mem α} {v : Vector} (a this : Nat)
    (pos : ConstIterator) (val : CRef α)
    (hchk : ¬ (pos.sub (begin this v).to_const < 0 ∨
      (pos.sub (begin this v).to_const).toNat > v.sz))
    (hle : v.sz ≤ v.max_sz) (hg : v.max_sz ≤ v.sz)
    (h : ¬ (a = 0 ∨ ALLOC_MAX < (v.max_sz + 1) * 2))
    (hf : m.fresh a ((v.max_sz + 1) * 2) = false) :
    insert a this pos val v m = .ub := by
  have := reserve_stuck (m := m) a ((v.max_sz + 1) * 2) hle (by omega) h hf
  simp only [insert, if_neg hchk, ge_iff_le, if_pos hg, DEFAULT_RESERVATION_SHIFT,
    DEFAULT_RESERVATION_SCALE, this]

/-- The first store of the shift loop is at the highest index: outside the
buffer, the loop is undefined. -/
theorem shift_up_overrun {α : Type} {m : Mem α} (p c n : Nat)
    (h : ∀ k, m.blk p = some k → k ≤ c + n + 1) : shift_up p c (n + 1) m = none := by
  simp only [shift_up]
  cases m.get p (c + n) with
  | none => rfl
  | some x => simp only [set_outside x h]

/-- A container that reports room it does not have: `insert` stores past the
end of the buffer, whatever the allocator would answer. -/
theorem insert_overrun {α : Type} [Inhabited α] {m : Mem α} {v : Vector} (a this : Nat)
    (pos : ConstIterator) (val : CRef α)
    (hchk : ¬ (pos.sub (begin this v).to_const < 0 ∨
      (pos.sub (begin this v).to_const).toNat > v.sz))
    (hlt : v.sz < v.max_sz) (h : ∀ n, m.blk v.values = some n → n ≤ v.sz) :
    insert a this pos val v m = .ub := by
  have hg : ¬ v.sz ≥ v.max_sz := by omega
  have hk : (pos.sub (begin this v).to_const).toNat ≤ v.sz := by
    have := (not_or.mp hchk).2
    omega
  simp only [insert, if_neg hchk, if_neg hg]
  by_cases hz : v.sz - (pos.sub (begin this v).to_const).toNat = 0
  · rw [hz]
    simp only [shift_up]
    cases val.get m with
    | none => rfl
    | some x =>
      have : m.set v.values (pos.sub (begin this v).to_const).toNat x = none :=
        set_outside x (fun n hn => by have := h n hn; omega)
      simp only [this]
  · obtain ⟨n, hn⟩ : ∃ n, v.sz - (pos.sub (begin this v).to_const).toNat = n + 1 :=
      ⟨v.sz - (pos.sub (begin this v).to_const).toNat - 1, by omega⟩
    rw [hn, shift_up_overrun v.values _ n (fun k hk1 => by have := h k hk1; omega)]

/-- What `insert` does in each case, on a state that is reached. -/
theorem insert_cases {α : Type} [Inhabited α] {m : Mem α} {v : Vector} (a this : Nat)
    (pos : ConstIterator) (val : CRef α) (hm : MemOK m) (hv : VecFit m v) :
    insert a this pos val v m = .ub ∨
    ((pos.sub (begin this v).to_const < 0 ∨ (pos.sub (begin this v).to_const).toNat > v.sz) ∧
      insert a this pos val v m = .throw .iterator_out_of_bounds (v, m)) ∨
    (v.max_sz ≤ v.sz ∧
      insert a this pos val v m = .bad_alloc (⟨v.sz, (v.max_sz + 1) * 2, v.values⟩, m)) ∨
    (∃ it v1 m1, insert a this pos val v m = .ok it (v1, m1) ∧ Frame m v m1 v1) := by
  by_cases hchk : pos.sub (begin this v).to_const < 0 ∨
      (pos.sub (begin this v).to_const).toNat > v.sz
  · exact Or.inr (Or.inl ⟨hchk, insert_throw a this pos val hchk⟩)
  · have hpos := ptr_of_diff (not_or.mp hchk).1
    have hk : (pos.sub (begin this v).to_const).toNat ≤ v.sz := by
      have := (not_or.mp hchk).2
      omega
    have hspec : HasRoom m v → (v.max_sz ≤ v.sz → m.fresh a ((v.max_sz + 1) * 2) = true) →
        insert a this pos val v m = .ub ∨
        ∃ it v1 m1, insert a this pos val v m = .ok it (v1, m1) ∧ Frame m v m1 v1 := by
      intro hroom hf
      obtain ⟨cap, p, m2, _, _, _, hnone, hsome⟩ :=
        insert_spec a this _ pos val hm hv hroom hpos hk hf
      cases hx : val.get m2 with
      | none => exact Or.inl (hnone hx)
      | some x =>
        obtain ⟨m3, h3, hfr, _⟩ := hsome x hx
        exact Or.inr ⟨_, _, m3, h3, hfr⟩
    by_cases hg : v.max_sz ≤ v.sz
    · rcases alloc_cases m a ((v.max_sz + 1) * 2) with hf | hbad | ⟨hnb, hff⟩
      · rcases hspec (fun h => absurd h (by omega)) (fun _ => hf) with h | h
        · exact Or.inl h
        · exact Or.inr (Or.inr (Or.inr h))
      · exact Or.inr (Or.inr (Or.inl ⟨hg, insert_bad a this pos val hchk hv.le hg hbad⟩))
      · exact Or.inl (insert_stuck a this pos val hchk hv.le hg hnb hff)
    · rcases room_cases m v with hr | hr
      · rcases hspec (fun _ => hr) (fun h => absurd h hg) with h | h
        · exact Or.inl h
        · exact Or.inr (Or.inr (Or.inr h))
      · exact Or.inl (insert_overrun a this pos val hchk (by omega) hr)

theorem insert_frame {α : Type} [Inhabited α] {m : Mem α} {v : Vector} (a this : Nat)
    (pos : ConstIterator) (val : CRef α) (hm : MemOK m) (hv : VecFit m v) :
    (insert a this pos val v m).Sat (fun s => Frame m v s.2 s.1) := by
  rcases insert_cases a this pos val hm hv with h | ⟨_, h⟩ | ⟨hg, h⟩ | ⟨it, v1, m1, h, hfr⟩
  · rw [h]
    trivial
  · rw [h]
    exact frame_refl hm hv
  · rw [h]
    exact frame_members hm hv rfl (Nat.le_refl _) (by have := hv.le; simp only; omega)
  · rw [h]
    exact hfr

theorem erase_spec {α : Type} {m : Mem α} {v : Vector} (this k : Nat)
    (pos : ConstIterator) (hm : MemOK m) (hv : VecFit m v)
    (hpos : pos.ptr = v.values + k) (hk : k < v.sz) :
    ∃ m1, erase this pos v m = .ok ⟨v.values + k, k, this⟩ (⟨v.sz - 1, v.max_sz, v.values⟩, m1) ∧
      Frame m v m1 ⟨v.sz - 1, v.max_sz, v.values⟩ ∧ SameShape m m1 ∧
      (∀ i, i < k → m1.cell (v.values + i) = m.cell (v.values + i)) ∧
      (∀ i, k ≤ i → i + 1 < v.sz → m1.cell (v.values + i) = m.cell (v.values + (i + 1))) := by
  have hd := diff_of_ptr this hpos
  have hchk : ¬ ((k : Int) < 0 ∨ k ≥ v.sz) := by omega
  obtain ⟨cap, hl, hcap⟩ := hv.slots (by omega)
  have hle := hv.le
  obtain ⟨m1, h1, hb1, hc1⟩ := shift_down_spec v.values (v.sz - 1 - k) k m
    (fun j hj => ⟨cap, hl, by omega, hm.cells _ _ _ hl (by omega)⟩)
  have hs1 := shift_down_shape _ _ _ _ _ h1
  refine ⟨m1, ?_, ?_, hs1, ?_, ?_⟩
  · simp only [erase, hd, Int.toNat_ofNat, if_neg hchk, h1]
  · refine frame_inplace hm hl hs1 ?_ rfl (by simp only; omega) (by simp only; omega)
    intro q hq
    rw [hc1]
    split_ifs with e
    · omega
    · rfl
  · intro i hi
    have h2 : ¬ (v.values + k ≤ v.values + i ∧ v.values + i < v.values + k + (v.sz - 1 - k)) := by
      omega
    rw [hc1, if_neg h2]
  · intro i hi1 hi2
    have h2 : v.values + k ≤ v.values + i ∧ v.values + i < v.values + k + (v.sz - 1 - k) := by
      omega
    rw [hc1, if_pos h2]
    rfl

theorem erase_frame {α : Type} {m : Mem α} {v : Vector} (this : Nat)
    (pos : ConstIterator) (hm : MemOK m) (hv : VecFit m v) :
    (erase this pos v m).Sat (fun s => Frame m v s.2 s.1) := by
  by_cases hchk : pos.sub (begin this v).to_const < 0 ∨
      (pos.sub (begin this v).to_const).toNat ≥ v.sz
  · rw [erase_throw this pos hchk]
    exact frame_refl hm hv
  · have hpos := ptr_of_diff (not_or.mp hchk).1
    have hk : (pos.sub (begin this v).to_const).toNat < v.sz := by
      have := (not_or.mp hchk).2
      omega
    obtain ⟨m1, h1, hfr, _⟩ := erase_spec this _ pos hm hv hpos hk
    rw [h1]
    exact hfr

theorem index_mut_frame {α : Type} {m : Mem α} {v : Vector} (index : Nat)
    (hm : MemOK m) (hv : VecFit m v) :
    (index_mut index v m).Sat (fun s => Frame m v s.2 s.1) := by
  unfold index_mut
  split_ifs
  · exact frame_refl hm hv
  · exact frame_refl hm hv

/-- A store through a reference to an element of the container. -/
theorem write_own_frame {α : Type} {m m1 : Mem α} {v : Vector} {i : Nat} {x : α}
    (hm : MemOK m) (hv : VecFit m v) (hi : i < v.sz)
    (hw : m.write (v.values + i) x = some m1) : Frame m v m1 v := by
  obtain ⟨_, hc, _⟩ := write_eq_some hw
  obtain ⟨cap, hl, hcap⟩ := hv.slots (by omega)
  refine frame_inplace hm hl (write_shape hw) ?_ rfl hv.le hcap
  intro q hq
  rw [hc]
  split_ifs with e
  · omega
  · rfl

theorem ctor_sized_spec {α : Type} [Inhabited α] {m : Mem α} (a n : Nat) (hm : MemOK m)
    (hf : n ≠ 0 → m.fresh a n = true) :
    ∃ m1, ctor_sized a n m = .ok ⟨0, n, if n = 0 then 0 else a⟩ m1 ∧
      Frame m ⟨0, 0, 0⟩ m1 ⟨0, n, if n = 0 then 0 else a⟩ ∧
      VecOK m1 ⟨0, n, if n = 0 then 0 else a⟩ := by
  by_cases h0 : n = 0
  · subst h0
    have hok : VecOK m ⟨0, 0, if 0 = 0 then 0 else a⟩ :=
      ⟨Nat.le_refl _, fun _ => rfl, fun h => absurd rfl h⟩
    exact ⟨m, by simp [ctor_sized], ⟨hm, hok.fit, fun _ _ hb _ => ⟨hb, fun _ _ => rfl⟩,
      Or.inl rfl⟩, hok⟩
  · obtain ⟨m1, h1⟩ := alloc_of_fresh (α := α) (hf h0)
    obtain ⟨hfr, hc, hb⟩ := alloc_eq_ok h1
    obtain ⟨ha, hba, _⟩ := (fresh_iff m a n).mp hfr
    have hok : VecOK m1 ⟨0, n, if n = 0 then 0 else a⟩ := by
      refine ⟨Nat.zero_le _, ?_, ?_⟩
      · intro h
        rw [if_neg h0] at h
        exact absurd h ha
      · intro _
        simp only [if_neg h0]
        rw [hb, if_pos rfl]
    refine ⟨m1, by simp [ctor_sized, h0, h1], ⟨alloc_memOK hm h1, hok.fit, ?_, ?_⟩, hok⟩
    · intro b k hbk _
      have hne : b ≠ a := by
        intro e
        rw [e, hba] at hbk
        simp at hbk
      refine ⟨by rw [hb, if_neg hne]; exact hbk, fun i hi => ?_⟩
      rw [hc, if_neg (fresh_apart hm hfr hbk hi)]
    · right
      simp only [if_neg h0]
      exact hba

theorem ctor_sized_bad {α : Type} [Inhabited α] {m : Mem α} (a n : Nat) (h0 : n ≠ 0)
    (h : a = 0 ∨ ALLOC_MAX < n) : ctor_sized a n m = .bad_alloc := by
  simp [ctor_sized, h0, alloc_bad m h]

theorem ctor_sized_stuck {α : Type} [Inhabited α] {m : Mem α} (a n : Nat) (h0 : n ≠ 0)
    (h : ¬ (a = 0 ∨ ALLOC_MAX < n)) (hf : m.fresh a n = false) : ctor_sized a n m = .ub := by
  simp [ctor_sized, h0, alloc_stuck h hf]

theorem ctor_il_spec {α : Type} [Inhabited α] {m : Mem α} (a : Nat) (il : List α)
    (hm : MemOK m) (hf : il.length ≠ 0 → m.fresh a (il.length * 2) = true) :
    ∃ m1, ctor_il a il m =
        .ok ⟨il.length, il.length * 2, if il.length = 0 then 0 else a⟩ m1 ∧
      Frame m ⟨0, 0, 0⟩ m1 ⟨il.length, il.length * 2, if il.length = 0 then 0 else a⟩ ∧
      VecOK m1 ⟨il.length, il.length * 2, if il.length = 0 then 0 else a⟩ ∧
      ∀ i, i < il.length → m1.cell ((if il.length = 0 then 0 else a) + i) = il[i]? := by
  by_cases h0 : il.length = 0
  · have hnil : il = [] := List.length_eq_zero.mp h0
    subst hnil
    have hok : VecOK m ⟨0, 0, 0⟩ := ⟨Nat.le_refl _, fun _ => rfl, fun h => absurd rfl h⟩
    refine ⟨m, by simp [ctor_il, ctor_sized, fill_from, DEFAULT_RESERVATION_SCALE], ?_, hok, ?_⟩
    · exact ⟨hm, hok.fit, fun _ _ hb _ => ⟨hb, fun _ _ => rfl⟩, Or.inl rfl⟩
    · intro i hi
      simp at hi
  · have e0 : il.length * 2 ≠ 0 := by omega
    obtain ⟨m1, h1, hfr1, hok1⟩ := ctor_sized_spec a (il.length * 2) hm (fun _ => hf h0)
    simp only [if_neg e0] at h1 hfr1 hok1
    simp only [if_neg h0]
    have hz : a ≠ 0 := fun h => by
      have := hok1.null h
      simp only at this
      omega
    have hl := hok1.live hz
    simp only at hl
    obtain ⟨m2, h2, hb2, hc2⟩ := fill_from_spec il ⟨0, il.length * 2, a⟩ m1
      (fun j hj => ⟨_, hl, by simp only; omega, hfr1.mem.cells _ _ _ hl (by simp only; omega)⟩)
    simp only [Nat.zero_add, Nat.add_zero] at h2 hc2
    have hs2 := fill_from_shape _ _ _ _ _ h2
    refine ⟨m2, ?_, ?_, ?_, ?_⟩
    · simp only [ctor_il, DEFAULT_RESERVATION_SCALE, h1, h2]
    · refine frame_trans hfr1 ?_
      refine frame_inplace hfr1.mem hl hs2 ?_ rfl (by simp only; omega) (by simp only; omega)
      intro q hq
      simp only at hq
      have h5 : ¬ (a ≤ q ∧ q < a + il.length) := by omega
      rw [hc2, if_neg h5]
    · exact vecOK_inplace hok1 hs2 rfl rfl (by simp only; omega)
    · intro i hi
      have h5 : a ≤ a + i ∧ a + i < a + il.length := by omega
      rw [hc2, if_pos h5]
      congr 1
      omega

theorem ctor_il_bad {α : Type} [Inhabited α] {m : Mem α} (a : Nat) (il : List α)
    (h0 : il.length ≠ 0) (h : a = 0 ∨ ALLOC_MAX < il.length * 2) :
    ctor_il a il m = .bad_alloc := by
  simp only [ctor_il, DEFAULT_RESERVATION_SCALE, ctor_sized_bad a (il.length * 2) (by omega) h]

theorem ctor_il_stuck {α : Type} [Inhabited α] {m : Mem α} (a : Nat) (il : List α)
    (h0 : il.length ≠ 0) (h : ¬ (a = 0 ∨ ALLOC_MAX < il.length * 2))
    (hf : m.fresh a (il.length * 2) = false) : ctor_il a il m = .ub := by
  simp only [ctor_il, DEFAULT_RESERVATION_SCALE,
    ctor_sized_stuck a (il.length * 2) (by omega) h hf]

theorem ctor_copy_spec {α : Type} [Inhabited α] {m : Mem α} {rop : Vector} (a : Nat)
    (hm : MemOK m) (hv : VecFit m rop) (hf : m.fresh a rop.max_sz = true) :
    ∃ m1, ctor_copy a rop m = .ok ⟨rop.sz, rop.max_sz, a⟩ m1 ∧
      Frame m ⟨0, 0, 0⟩ m1 ⟨rop.sz, rop.max_sz, a⟩ ∧
      VecOK m1 ⟨rop.sz, rop.max_sz, a⟩ ∧
      (∀ i, i < rop.sz → m1.cell (a + i) = m.cell (rop.values + i)) ∧
      m.blk a = none ∧ a ≠ 0 := by
  obtain ⟨ha, hba, hca, _⟩ := (fresh_iff m a rop.max_sz).mp hf
  obtain ⟨m0, hal⟩ := alloc_of_fresh (α := α) hf
  obtain ⟨_, hc0, hb0⟩ := alloc_eq_ok hal
  have hm0 := alloc_memOK hm hal
  have hle := hv.le
  have hsrc : ∀ j, j < rop.sz → ∃ cap, m.blk rop.values = some cap ∧ rop.sz ≤ cap ∧
      (m.cell (rop.values + j)).isSome ∧
      ¬ (a ≤ rop.values + j ∧ rop.values + j < a + rop.max_sz) := by
    intro j hj
    obtain ⟨cap, hl, hcap⟩ := hv.slots (by omega)
    exact ⟨cap, hl, hcap, hm.cells _ _ j hl (by omega), fresh_apart hm hf hl (by omega)⟩
  obtain ⟨m2, hcp, hb2, hc2⟩ := copy_elems_spec rop.values a rop.sz 0 m0
    (fun j hj => by
      obtain ⟨cap, hl, hcap, hs, hap⟩ := hsrc j hj
      refine ⟨cap, ?_, by omega, ?_⟩
      · rw [hb0]
        split_ifs with e
        · have h9 : m.blk a = some cap := e ▸ hl
          simp [hba] at h9
        · exact hl
      · rw [hc0, Nat.zero_add, if_neg hap]
        exact hs)
    (fun j hj => by
      refine ⟨rop.max_sz, by rw [hb0, if_pos rfl], by omega, ?_⟩
      have h5 : a ≤ a + j ∧ a + j < a + rop.max_sz := by omega
      rw [hc0, Nat.zero_add, if_pos h5]
      rfl)
    (fun j k hj hk => by
      obtain ⟨_, _, _, _, this⟩ := hsrc j hj
      omega)
  have hm2 : MemOK m2 := (copy_elems_shape _ _ _ _ _ _ hcp).memOK hm0
  have hok : VecOK m2 ⟨rop.sz, rop.max_sz, a⟩ := by
    refine ⟨hle, fun h => absurd h ha, ?_⟩
    intro _
    simp only
    rw [hb2, hb0, if_pos rfl]
  refine ⟨m2, by simp only [ctor_copy, hal, hcp], ⟨hm2, hok.fit, ?_, ?_⟩, hok, ?_, hba, ha⟩
  · intro b k hb _
    have hne : b ≠ a := by
      intro e
      rw [e, hba] at hb
      simp at hb
    refine ⟨by rw [hb2, hb0, if_neg hne]; exact hb, fun i hi => ?_⟩
    have hfa := fresh_apart hm hf hb hi
    have hfa2 : ¬ (a + 0 ≤ b + i ∧ b + i < a + 0 + rop.sz) := by omega
    rw [hc2, if_neg hfa2, hc0, if_neg hfa]
  · right
    exact hba
  · intro i hi
    have e : a + i - a = i := by omega
    have h5 : a + 0 ≤ a + i ∧ a + i < a + 0 + rop.sz := by omega
    obtain ⟨_, _, _, _, hap⟩ := hsrc i hi
    rw [hc2, if_pos h5, e, hc0, if_neg hap]

theorem ctor_copy_bad {α : Type} [Inhabited α] {m : Mem α} {rop : Vector} (a : Nat)
    (h : a = 0 ∨ ALLOC_MAX < rop.max_sz) : ctor_copy a rop m = .bad_alloc := by
  simp [ctor_copy, alloc_bad m h]

theorem ctor_copy_stuck {α : Type} [Inhabited α] {m : Mem α} {rop : Vector} (a : Nat)
    (h : ¬ (a = 0 ∨ ALLOC_MAX < rop.max_sz)) (hf : m.fresh a rop.max_sz = false) :
    ctor_copy a rop m = .ub := by
  simp [ctor_copy, alloc_stuck h hf]

theorem dtor_spec {α : Type} {m : Mem α} {v : Vector} (hm : MemOK m) (hv : VecFit m v) :
    ∃ m1, dtor v m = some m1 ∧ MemOK m1 ∧
      (∀ b, m1.blk b = if b = v.values then none else m.blk b) ∧
      (∀ b n i, m.blk b = some n → b ≠ v.values → i < n → m1.cell (b + i) = m.cell (b + i)) := by
  obtain ⟨m1, h1, hm1, hb, hc⟩ := release_spec (p := v.values) hm
    (fun h => (hv.live h).imp fun _ h => h.1)
  exact ⟨m1, by simp only [dtor, h1], hm1, hb, hc⟩

theorem assign_spec {α : Type} [Inhabited α] {m : Mem α} {v src : Vector} (a : Nat)
    (hm : MemOK m) (hv : VecFit m v) (hs : VecFit m src) (hf : m.fresh a src.max_sz = true) :
    ∃ m1, assign a src v m = .ok () (⟨src.sz, src.max_sz, a⟩, m1) ∧
      Frame m v m1 ⟨src.sz, src.max_sz, a⟩ ∧
      VecOK m1 ⟨src.sz, src.max_sz, a⟩ ∧
      (∀ i, i < src.sz → m1.cell (a + i) = m.cell (src.values + i)) ∧
      m.blk a = none ∧ a ≠ 0 := by
  obtain ⟨m1, h1, hfr1, hok1, hc1, hba, ha⟩ := ctor_copy_spec a hm hs hf
  have hav : a ≠ v.values := by
    intro e
    by_cases hz : v.values = 0
    · omega
    · obtain ⟨cap, this, _⟩ := hv.live hz
      rw [← e, hba] at this
      simp at this
  have hv1 : VecFit m1 ⟨v.sz, v.max_sz, v.values⟩ := by
    refine ⟨hv.le, hv.null, fun h => ?_⟩
    obtain ⟨cap, hl, hcap⟩ := hv.live h
    exact ⟨cap, (hfr1.keep _ _ hl h).1, hcap⟩
  obtain ⟨m2, h2, hm2, hb2, hc2⟩ := dtor_spec hfr1.mem hv1
  simp only at hb2 hc2
  have hla : m1.blk a = some src.max_sz := hok1.live ha
  have hok : VecOK m2 ⟨src.sz, src.max_sz, a⟩ := by
    refine ⟨hs.le, fun h => absurd h ha, ?_⟩
    intro _
    simp only
    rw [hb2, if_neg hav]
    exact hla
  refine ⟨m2, by simp only [assign, h1, h2], ⟨hm2, hok.fit, ?_, ?_⟩, hok, ?_, hba, ha⟩
  · intro b k hb hne
    have hz : b ≠ 0 := by
      intro e
      rw [e, hm.null] at hb
      simp at hb
    obtain ⟨hb1, hk1⟩ := hfr1.keep b k hb hz
    refine ⟨by rw [hb2, if_neg hne]; exact hb1, fun i hi => ?_⟩
    rw [hc2 b k i hb1 hne hi, hk1 i hi]
  · right
    exact hba
  · intro i hi
    have := hs.le
    rw [hc2 a src.max_sz i hla hav (by omega)]
    exact hc1 i hi

/-- The copy of the argument is made before the body of `operator=` is entered:
when `new` throws there, the target is as it was. -/
theorem assign_bad {α : Type} [Inhabited α] {m : Mem α} {v src : Vector} (a : Nat)
    (h : a = 0 ∨ ALLOC_MAX < src.max_sz) : assign a src v m = .bad_alloc (v, m) := by
  simp only [assign, ctor_copy_bad a h]

theorem assign_stuck {α : Type} [Inhabited α] {m : Mem α} {v src : Vector} (a : Nat)
    (h : ¬ (a = 0 ∨ ALLOC_MAX < src.max_sz)) (hf : m.fresh a src.max_sz = false) :
    assign a src v m = .ub := by
  simp only [assign, ctor_copy_stuck a h hf]

theorem assign_frame {α : Type} [Inhabited α] {m : Mem α} {v src : Vector} (a : Nat)
    (hm : MemOK m) (hv : VecFit m v) (hs : VecFit m src) :
    (assign a src v m).Sat (fun s => Frame m v s.2 s.1) := by
  rcases alloc_cases m a src.max_sz with hf | hbad | ⟨hnb, hff⟩
  · obtain ⟨m1, h1, hfr, _⟩ := assign_spec a hm hv hs hf
    rw [h1]
    exact hfr
  · rw [assign_bad a hbad]
    exact frame_refl hm hv
  · rw [assign_stuck a hnb hff]
    trivial

theorem wf_put {α : Type} {w : World α} {this : Nat} {v v1 : Vector} {m1 : Mem α}
    (hw : WF w) (h0 : this ≠ 0)
    (hsep : ∀ t2 v2, t2 ≠ this → w.objs t2 = some v2 → v2.values ≠ 0 → v2.values ≠ v.values)
    (hfr : Frame w.mem v m1 v1) : WF (w.put this (v1, m1)) := by
  have hlive : ∀ t2 v2, t2 ≠ this → w.objs t2 = some v2 → v2.values ≠ 0 →
      (∃ cap, m1.blk v2.values = some cap ∧ v2.sz ≤ cap) ∧ v2.values ≠ v1.values := by
    intro t2 v2 hne h2 hz
    obtain ⟨cap, hl, hcap⟩ := (hw.vec t2 v2 h2).live hz
    refine ⟨⟨cap, (hfr.keep _ _ hl (hsep t2 v2 hne h2 hz)).1, hcap⟩, ?_⟩
    rcases hfr.own with e | e
    · rw [e]
      exact hsep t2 v2 hne h2 hz
    · intro e1
      rw [← e1, hl] at e
      simp at e
  refine ⟨hfr.mem, ?_, ?_, ?_⟩
  · intro t v2 h2
    simp only [World.put] at h2 ⊢
    split_ifs at h2 with e
    · simp only [Option.some.injEq] at h2
      subst h2
      exact hfr.vec
    · have hv2 := hw.vec t v2 h2
      exact ⟨hv2.le, hv2.null, fun hz => (hlive t v2 e h2 hz).1⟩
  · intro t1 u1 t2 u2 h1 h2 hne hz
    simp only [World.put] at h1 h2
    split_ifs at h1 with e1 <;> split_ifs at h2 with e2
    · omega
    · simp only [Option.some.injEq] at h1
      subst h1
      by_cases hz2 : u2.values = 0
      · rw [hz2]
        exact hz
      · exact fun e => (hlive t2 u2 e2 h2 hz2).2 e.symm
    · simp only [Option.some.injEq] at h2
      subst h2
      exact (hlive t1 u1 e1 h1 hz).2
    · exact hw.sep t1 u1 t2 u2 h1 h2 hne hz
  · simp only [World.put]
    rw [if_neg (Ne.symm h0)]
    exact hw.objnull

theorem this_ne_zero {α : Type} {w : World α} {this : Nat} {v : Vector} (hw : WF w)
    (h : w.objs this = some v) : this ≠ 0 := by
  intro e
  rw [e, hw.objnull] at h
  simp at h

theorem wf_call_put {α : Type} {w : World α} {this : Nat} {v v1 : Vector} {m1 : Mem α}
    (hw : WF w) (hthis : w.objs this = some v) (hfr : Frame w.mem v m1 v1) :
    WF (w.put this (v1, m1)) :=
  wf_put hw (this_ne_zero hw hthis)
    (fun t2 v2 hne h2 hz => hw.sep t2 v2 this v h2 hthis hne hz) hfr

theorem wf_new_put {α : Type} {w : World α} {this : Nat} {v1 : Vector} {m1 : Mem α}
    (hw : WF w) (h0 : this ≠ 0) (hfr : Frame w.mem ⟨0, 0, 0⟩ m1 v1) :
    WF (w.put this (v1, m1)) :=
  wf_put hw h0 (fun _ _ _ _ hz => hz) hfr

theorem put_same {α : Type} {w : World α} {this : Nat} {v : Vector} (m1 : Mem α)
    (hthis : w.objs this = some v) : w.put this (v, m1) = ⟨w.objs, m1⟩ := by
  simp only [World.put]
  congr 1
  funext t
  split_ifs with e
  · rw [e, hthis]
  · rfl

theorem call_wf {α ρ : Type} {w : World α} (this : Nat)
    (f : Vector → Mem α → Res (Vector × Mem α) ρ) (hw : WF w)
    (hf : ∀ v, w.objs this = some v → (f v w.mem).Sat (fun s => Frame w.mem v s.2 s.1)) :
    (w.call this f).Sat WF := by
  unfold World.call
  cases hthis : w.objs this with
  | none => trivial
  | some v =>
    have := hf v hthis
    revert this
    simp only
    cases f v w.mem with
    | ok r s => exact fun h => wf_call_put hw hthis h
    | throw e s => exact fun h => wf_call_put hw hthis h
    | bad_alloc s => exact fun h => wf_call_put hw hthis h
    | ub => exact fun _ => trivial

theorem construct_wf {α : Type} {w : World α} (this : Nat)
    (c : Mem α → Built α) (hw : WF w)
    (hc : ∀ v1 m1, c w.mem = .ok v1 m1 → Frame w.mem ⟨0, 0, 0⟩ m1 v1) :
    (w.construct this c).Sat WF := by
  unfold World.construct
  split_ifs with h0
  · trivial
  · cases hthis : w.objs this with
    | some _ => trivial
    | none =>
      simp only
      cases hs : c w.mem with
      | ub => trivial
      | bad_alloc => exact hw
      | ok v1 m1 => exact wf_new_put hw h0 (hc v1 m1 hs)

theorem destroy_wf {α : Type} {w : World α} (this : Nat) (hw : WF w) :
    (w.destroy this).Sat WF := by
  unfold World.destroy
  cases hthis : w.objs this with
  | none => trivial
  | some v =>
    obtain ⟨m1, h1, hm1, hb, hc⟩ := dtor_spec hw.mem (hw.vec this v hthis)
    simp only [h1]
    refine ⟨hm1, ?_, ?_, ?_⟩
    · intro t v2 h2
      simp only at h2 ⊢
      split_ifs at h2 with e
      have hv2 := hw.vec t v2 h2
      refine ⟨hv2.le, hv2.null, fun hz => ?_⟩
      obtain ⟨cap, hl, hcap⟩ := hv2.live hz
      refine ⟨cap, ?_, hcap⟩
      rw [hb, if_neg (hw.sep t v2 this v h2 hthis e hz)]
      exact hl
    · intro t1 u1 t2 u2 h1 h2 hne hz
      simp only at h1 h2
      split_ifs at h1 with e1
      split_ifs at h2 with e2
      exact hw.sep t1 u1 t2 u2 h1 h2 hne hz
    · simp only
      split_ifs
      · rfl
      · exact hw.objnull

theorem sat_forget {σ ρ : Type} {P : σ → Prop} {r : Res σ ρ} (h : r.Sat P) :
    r.forget.Sat P := by
  cases r with
  | ok _ _ => exact h
  | throw _ _ => exact h
  | bad_alloc _ => exact h
  | ub => trivial

theorem ctor_sized_frame {α : Type} [Inhabited α] {m : Mem α} (a n : Nat) (hm : MemOK m)
    (v1 : Vector) (m1 : Mem α) (h : ctor_sized a n m = .ok v1 m1) :
    Frame m ⟨0, 0, 0⟩ m1 v1 := by
  have key : (n ≠ 0 → m.fresh a n = true) → Frame m ⟨0, 0, 0⟩ m1 v1 := by
    intro hf
    obtain ⟨m2, h2, hfr, _⟩ := ctor_sized_spec a n hm hf
    rw [h2] at h
    simp only [Built.ok.injEq] at h
    rw [← h.1, ← h.2]
    exact hfr
  by_cases h0 : n = 0
  · exact key (fun h1 => absurd h0 h1)
  · rcases alloc_cases m a n with hf | hbad | ⟨hnb, hff⟩
    · exact key (fun _ => hf)
    · rw [ctor_sized_bad a n h0 hbad] at h
      exact Built.noConfusion h
    · rw [ctor_sized_stuck a n h0 hnb hff] at h
      exact Built.noConfusion h

theorem ctor_il_frame {α : Type} [Inhabited α] {m : Mem α} (a : Nat) (il : List α)
    (hm : MemOK m) (v1 : Vector) (m1 : Mem α) (h : ctor_il a il m = .ok v1 m1) :
    Frame m ⟨0, 0, 0⟩ m1 v1 := by
  have key : (il.length ≠ 0 → m.fresh a (il.length * 2) = true) →
      Frame m ⟨0, 0, 0⟩ m1 v1 := by
    intro hf
    obtain ⟨m2, h2, hfr, _⟩ := ctor_il_spec a il hm hf
    rw [h2] at h
    simp only [Built.ok.injEq] at h
    rw [← h.1, ← h.2]
    exact hfr
  by_cases h0 : il.length = 0
  · exact key (fun h1 => absurd h0 h1)
  · rcases alloc_cases m a (il.length * 2) with hf | hbad | ⟨hnb, hff⟩
    · exact key (fun _ => hf)
    · rw [ctor_il_bad a il h0 hbad] at h
      exact Built.noConfusion h
    · rw [ctor_il_stuck a il h0 hnb hff] at h
      exact Built.noConfusion h

theorem ctor_copy_frame {α : Type} [Inhabited α] {m : Mem α} {rop : Vector} (a : Nat)
    (hm : MemOK m) (hv : VecFit m rop) (v1 : Vector) (m1 : Mem α)
    (h : ctor_copy a rop m = .ok v1 m1) : Frame m ⟨0, 0, 0⟩ m1 v1 := by
  rcases alloc_cases m a rop.max_sz with hf | hbad | ⟨hnb, hff⟩
  · obtain ⟨m2, h2, hfr, _⟩ := ctor_copy_spec a hm hv hf
    rw [h2] at h
    simp only [Built.ok.injEq] at h
    rw [← h.1, ← h.2]
    exact hfr
  · rw [ctor_copy_bad a hbad] at h
    exact Built.noConfusion h
  · rw [ctor_copy_stuck a hnb hff] at h
    exact Built.noConfusion h

theorem check_validity_true {α : Type} {it : Iterator} {w : World α}
    (h : it.check_validity w = some true) :
    it.tied_vec ≠ 0 ∧ ∃ v, w.objs it.tied_vec = some v ∧ v.values ≠ 0 ∧ it.ptr ≠ 0 ∧
      it.shift < v.sz ∧ v.values + it.shift = it.ptr := by
  unfold Iterator.check_validity at h
  by_cases h0 : it.tied_vec = 0
  · simp [h0] at h
  · rw [if_neg h0] at h
    cases hv : w.objs it.tied_vec with
    | none => simp [hv] at h
    | some v =>
      simp only [hv, Option.some.injEq, Bool.and_eq_true, decide_eq_true_eq, size] at h
      exact ⟨h0, v, rfl, h.1.1.1, h.1.1.2, h.1.2, h.2⟩

theorem index_write_wf {α : Type} {w : World α} (this index : Nat) (x : α) (hw : WF w) :
    (write_through x (w.call this (index_mut index))).Sat WF := by
  unfold World.call
  cases hthis : w.objs this with
  | none => trivial
  | some v =>
    simp only [index_mut]
    split_ifs with hi
    · exact wf_call_put hw hthis (frame_refl hw.mem (hw.vec this v hthis))
    · simp only [write_through, World.put]
      cases hwr : w.mem.write (v.values + index) x with
      | none => trivial
      | some m1 =>
        have hv := hw.vec this v hthis
        exact wf_call_put hw hthis (write_own_frame hw.mem hv (by omega) hwr)

theorem deref_write_wf {α : Type} {w : World α} (it : Iterator) (x : α) (hw : WF w) :
    (write_through x (it.deref w)).Sat WF := by
  unfold Iterator.deref
  cases hc : it.check_validity w with
  | none => trivial
  | some b =>
    cases b with
    | false => exact hw
    | true =>
      obtain ⟨_, v, hv, _, _, hlt, hp⟩ := check_validity_true hc
      simp only [write_through]
      cases hwr : w.mem.write it.ptr x with
      | none => trivial
      | some m1 =>
        simp only [Res.Sat]
        rw [← put_same m1 hv]
        have hvo := hw.vec _ v hv
        rw [← hp] at hwr
        exact wf_call_put hw hv (write_own_frame hw.mem hvo hlt hwr)

theorem exec_wf {α : Type} [Inhabited α] {w : World α} (op : Op α) (hw : WF w) :
    (exec w op).Sat WF := by
  cases op with
  | ctor_default this a =>
    exact construct_wf this (ctor_default a) hw
      (fun v1 m1 h => ctor_sized_frame a DEFAULT_MAX_SZ hw.mem v1 m1 h)
  | ctor_sized this a n =>
    exact construct_wf this _ hw (fun v1 m1 h => ctor_sized_frame a n hw.mem v1 m1 h)
  | ctor_il this a il =>
    exact construct_wf this _ hw (fun v1 m1 h => ctor_il_frame a il hw.mem v1 m1 h)
  | ctor_copy this a src =>
    simp only [exec]
    cases hs : w.objs src with
    | none => trivial
    | some rop =>
      exact construct_wf this _ hw
        (fun v1 m1 h => ctor_copy_frame a hw.mem (hw.vec src rop hs) v1 m1 h)
  | dtor this => exact destroy_wf this hw
  | assign this a src =>
    simp only [exec, World.assign]
    cases hs : w.objs src with
    | none => trivial
    | some s =>
      exact call_wf this _ hw
        (fun v hv => assign_frame a hw.mem (hw.vec this v hv) (hw.vec src s hs))
  | clear this =>
    exact call_wf this _ hw (fun v hv => clear_frame hw.mem (hw.vec this v hv))
  | reserve this a n =>
    exact call_wf this _ hw (fun v hv => reserve_frame a n hw.mem (hw.vec this v hv))
  | shrink_to_fit this a =>
    exact call_wf this _ hw (fun v hv => shrink_frame a hw.mem (hw.vec this v hv))
  | push_back this a x =>
    exact call_wf this _ hw (fun v hv => push_back_frame a x hw.mem (hw.vec this v hv))
  | pop_back this =>
    exact call_wf this _ hw (fun v hv => pop_back_frame hw.mem (hw.vec this v hv))
  | insert this a pos val =>
    exact sat_forget (call_wf this _ hw
      (fun v hv => insert_frame a this pos val hw.mem (hw.vec this v hv)))
  | erase this pos =>
    exact sat_forget (call_wf this _ hw
      (fun v hv => erase_frame this pos hw.mem (hw.vec this v hv)))
  | index_write this index x => exact index_write_wf this index x hw
  | deref_write it x => exact deref_write_wf it x hw

theorem empty_wf {α : Type} : WF (World.empty : World α) := by
  refine ⟨⟨rfl, ?_, ?_, ?_⟩, ?_, ?_, rfl⟩
  · intro b n i h
    simp [World.empty, Mem.empty] at h
  · intro b1 n1 b2 n2 i j h
    simp [World.empty, Mem.empty] at h
  · intro b n h
    simp [World.empty, Mem.empty] at h
  · intro t v h
    simp [World.empty] at h
  · intro t1 v1 t2 v2 h
    simp [World.empty] at h

/-- Every state that is reached is well-formed, also after calls that were left
through an exception of `new`. -/
theorem reachable_wf {α : Type} [Inhabited α] {w : World α} (h : Reachable w) : WF w := by
  induction h with
  | init => exact empty_wf
  | ok w w1 op _ hex ih =>
    have := exec_wf op ih
    rw [hex] at this
    exact this
  | throw w w1 op e _ hex ih =>
    have := exec_wf op ih
    rw [hex] at this
    exact this
  | bad_alloc w w1 op _ hex ih =>
    have := exec_wf op ih
    rw [hex] at this
    exact this

theorem put_keep {α : Type} {w : World α} {this : Nat} {v v1 : Vector} {m1 : Mem α}
    (hw : WF w)
    (hsep : ∀ t2 v2, t2 ≠ this → w.objs t2 = some v2 → v2.values ≠ 0 → v2.values ≠ v.values)
    (hfr : Frame w.mem v m1 v1) : Keeps w this (w.put this (v1, m1)) := by
  intro t u hne hu
  refine ⟨by simp only [World.put, if_neg hne]; exact hu, fun i hi => ?_⟩
  have hvu := hw.vec t u hu
  have hz : u.values ≠ 0 := hvu.values_ne_zero (by omega)
  obtain ⟨cap, hl, hcap⟩ := hvu.live hz
  exact (hfr.keep _ _ hl (hsep t u hne hu hz)).2 i (by omega)

theorem keeps_refl {α : Type} (w : World α) (this : Nat) : Keeps w this w :=
  fun _ _ _ hu => ⟨hu, fun _ _ => rfl⟩

theorem call_keep {α ρ : Type} {w : World α} (this : Nat)
    (f : Vector → Mem α → Res (Vector × Mem α) ρ) (hw : WF w)
    (hf : ∀ v, w.objs this = some v → (f v w.mem).Sat (fun s => Frame w.mem v s.2 s.1)) :
    (w.call this f).Sat (Keeps w this) := by
  unfold World.call
  cases hthis : w.objs this with
  | none => trivial
  | some v =>
    have := hf v hthis
    revert this
    simp only
    have hsep : ∀ t2 v2, t2 ≠ this → w.objs t2 = some v2 → v2.values ≠ 0 →
        v2.values ≠ v.values := fun t2 v2 hne h2 hz => hw.sep t2 v2 this v h2 hthis hne hz
    cases f v w.mem with
    | ok r s => exact fun h => put_keep hw hsep h
    | throw e s => exact fun h => put_keep hw hsep h
    | bad_alloc s => exact fun h => put_keep hw hsep h
    | ub => exact fun _ => trivial

theorem construct_keep {α : Type} {w : World α} (this : Nat)
    (c : Mem α → Built α) (hw : WF w)
    (hc : ∀ v1 m1, c w.mem = .ok v1 m1 → Frame w.mem ⟨0, 0, 0⟩ m1 v1) :
    (w.construct this c).Sat (Keeps w this) := by
  unfold World.construct
  split_ifs with h0
  · trivial
  · cases hthis : w.objs this with
    | some _ => trivial
    | none =>
      simp only
      cases hs : c w.mem with
      | ub => trivial
      | bad_alloc => exact keeps_refl w this
      | ok v1 m1 => exact put_keep hw (fun _ _ _ _ hz => hz) (hc v1 m1 hs)

theorem destroy_keep {α : Type} {w : World α} (this : Nat) (hw : WF w) :
    (w.destroy this).Sat (Keeps w this) := by
  unfold World.destroy
  cases hthis : w.objs this with
  | none => trivial
  | some v =>
    obtain ⟨m1, h1, hm1, hb, hc⟩ := dtor_spec hw.mem (hw.vec this v hthis)
    simp only [h1]
    intro t u hne hu
    refine ⟨by simp only [if_neg hne]; exact hu, fun i hi => ?_⟩
    have hvu := hw.vec t u hu
    have hz : u.values ≠ 0 := hvu.values_ne_zero (by omega)
    obtain ⟨cap, hl, hcap⟩ := hvu.live hz
    exact hc _ _ i hl (hw.sep t u this v hu hthis hne hz) (by omega)

theorem index_write_keep {α : Type} {w : World α} (this index : Nat) (x : α) (hw : WF w) :
    (write_through x (w.call this (index_mut index))).Sat (Keeps w this) := by
  unfold World.call
  cases hthis : w.objs this with
  | none => trivial
  | some v =>
    have hsep : ∀ t2 v2, t2 ≠ this → w.objs t2 = some v2 → v2.values ≠ 0 →
        v2.values ≠ v.values := fun t2 v2 hne h2 hz => hw.sep t2 v2 this v h2 hthis hne hz
    simp only [index_mut]
    split_ifs with hi
    · exact put_keep hw hsep (frame_refl hw.mem (hw.vec this v hthis))
    · simp only [write_through, World.put]
      cases hwr : w.mem.write (v.values + index) x with
      | none => trivial
      | some m1 =>
        have hv := hw.vec this v hthis
        exact put_keep hw hsep (write_own_frame hw.mem hv (by omega) hwr)

theorem deref_write_keep {α : Type} {w : World α} (it : Iterator) (x : α) (hw : WF w) :
    (write_through x (it.deref w)).Sat (Keeps w it.tied_vec) := by
  unfold Iterator.deref
  cases hc : it.check_validity w with
  | none => trivial
  | some b =>
    cases b with
    | false => exact keeps_refl w _
    | true =>
      obtain ⟨_, v, hv, _, _, hlt, hp⟩ := check_validity_true hc
      simp only [write_through]
      cases hwr : w.mem.write it.ptr x with
      | none => trivial
      | some m1 =>
        simp only [Res.Sat]
        rw [← put_same m1 hv]
        have hvo := hw.vec _ v hv
        rw [← hp] at hwr
        exact put_keep hw (fun t2 v2 hne h2 hz => hw.sep t2 v2 _ v h2 hv hne hz)
          (write_own_frame hw.mem hvo hlt hwr)

theorem exec_keep {α : Type} [Inhabited α] {w : World α} (op : Op α) (hw : WF w) :
    (exec w op).Sat (Keeps w op.this) := by
  cases op with
  | ctor_default this a =>
    exact construct_keep this (ctor_default a) hw
      (fun v1 m1 h => ctor_sized_frame a DEFAULT_MAX_SZ hw.mem v1 m1 h)
  | ctor_sized this a n =>
    exact construct_keep this _ hw (fun v1 m1 h => ctor_sized_frame a n hw.mem v1 m1 h)
  | ctor_il this a il =>
    exact construct_keep this _ hw (fun v1 m1 h => ctor_il_frame a il hw.mem v1 m1 h)
  | ctor_copy this a src =>
    simp only [exec]
    cases hs : w.objs src with
    | none => trivial
    | some rop =>
      exact construct_keep this _ hw
        (fun v1 m1 h => ctor_copy_frame a hw.mem (hw.vec src rop hs) v1 m1 h)
  | dtor this => exact destroy_keep this hw
  | assign this a src =>
    simp only [exec, World.assign]
    cases hs : w.objs src with
    | none => trivial
    | some s =>
      exact call_keep this _ hw
        (fun v hv => assign_frame a hw.mem (hw.vec this v hv) (hw.vec src s hs))
  | clear this =>
    exact call_keep this _ hw (fun v hv => clear_frame hw.mem (hw.vec this v hv))
  | reserve this a n =>
    exact call_keep this _ hw (fun v hv => reserve_frame a n hw.mem (hw.vec this v hv))
  | shrink_to_fit this a =>
    exact call_keep this _ hw (fun v hv => shrink_frame a hw.mem (hw.vec this v hv))
  | push_back this a x =>
    exact call_keep this _ hw (fun v hv => push_back_frame a x hw.mem (hw.vec this v hv))
  | pop_back this =>
    exact call_keep this _ hw (fun v hv => pop_back_frame hw.mem (hw.vec this v hv))
  | insert this a pos val =>
    exact sat_forget (call_keep this _ hw
      (fun v hv => insert_frame a this pos val hw.mem (hw.vec this v hv)))
  | erase this pos =>
    exact sat_forget (call_keep this _ hw
      (fun v hv => erase_frame this pos hw.mem (hw.vec this v hv)))
  | index_write this index x => exact index_write_keep this index x hw
  | deref_write it x => exact deref_write_keep it x hw

theorem step_reachable {α : Type} [Inhabited α] {w w1 : World α} {op : Op α}
    (hw : Reachable w) (h : step w op = some w1) : Reachable w1 := by
  unfold step at h
  cases hex : exec w op with
  | ok r w2 =>
    rw [hex] at h
    simp only [Option.some.injEq] at h
    subst h
    exact Reachable.ok w w2 op hw hex
  | throw e w2 =>
    rw [hex] at h
    simp only [Option.some.injEq] at h
    subst h
    exact Reachable.throw w w2 op e hw hex
  | bad_alloc w2 =>
    rw [hex] at h
    simp only [Option.some.injEq] at h
    subst h
    exact Reachable.bad_alloc w w2 op hw hex
  | ub =>
    rw [hex] at h
    simp at h

theorem run_reachable {α : Type} [Inhabited α] (ops : List (Op α)) :
    ∀ (w w1 : World α), Reachable w → run w ops = some w1 → Reachable w1 := by
  induction ops with
  | nil =>
    intro w w1 hw h
    simp only [run, Option.some.injEq] at h
    subst h
    exact hw
  | cons op ops ih =>
    intro w w1 hw h
    simp only [run] at h
    cases hs : step w op with
    | none => simp [hs] at h
    | some w2 =>
      rw [hs] at h
      exact ih w2 w1 (step_reachable hw hs) h

theorem after_reachable {α : Type} [Inhabited α] (ops : List (Op α)) :
    Reachable (after ops) := by
  unfold after
  cases h : run World.empty ops with
  | none => exact Reachable.init
  | some w => exact run_reachable ops _ _ Reachable.init h

theorem contents_getElem? {α : Type} (m : Mem α) (v : Vector) (i : Nat) :
    (contents m v)[i]? = if i < v.sz then some (m.cell (v.values + i)) else none := by
  simp only [contents, Mem.read, List.getElem?_map]
  split_ifs with h
  · rw [List.getElem?_range h]
    rfl
  · rw [List.getElem?_eq_none (by simpa using h)]
    rfl

theorem contents_length {α : Type} (m : Mem α) (v : Vector) : (contents m v).length = v.sz := by
  simp [contents]

/-- Two containers whose slots agree below the size hold the same elements. -/
theorem contents_congr {α : Type} {m m1 : Mem α} {v v1 : Vector} (hs : v1.sz = v.sz)
    (hc : ∀ i, i < v.sz → m1.cell (v1.values + i) = m.cell (v.values + i)) :
    contents m1 v1 = contents m v := by
  apply List.ext_getElem?
  intro i
  rw [contents_getElem?, contents_getElem?, hs]
  split_ifs with h
  · rw [hc i h]
  · rfl

theorem contents_insert {α : Type} {m m1 : Mem α} {v v1 : Vector} {k : Nat} {x : α}
    (hk : k ≤ v.sz) (hs : v1.sz = v.sz + 1)
    (hlo : ∀ i, i < k → m1.cell (v1.values + i) = m.cell (v.values + i))
    (hmid : m1.cell (v1.values + k) = some x)
    (hhi : ∀ i, k ≤ i → i < v.sz → m1.cell (v1.values + (i + 1)) = m.cell (v.values + i)) :
    contents m1 v1 = (contents m v).take k ++ some x :: (contents m v).drop k := by
  apply List.ext_getElem?
  intro i
  have hlen : ((contents m v).take k).length = k := by
    rw [List.length_take, contents_length]
    omega
  rw [contents_getElem?, hs]
  by_cases h1 : i < k
  · rw [List.getElem?_append_left (by omega), List.getElem?_take_of_lt h1, contents_getElem?,
      if_pos (by omega), if_pos (by omega), hlo i h1]
  · rw [List.getElem?_append_right (by omega), hlen]
    by_cases h2 : i = k
    · subst h2
      rw [if_pos (by omega), Nat.sub_self, List.getElem?_cons_zero, hmid]
    · obtain ⟨j, hj⟩ : ∃ j, i - k = j + 1 := ⟨i - k - 1, by omega⟩
      rw [hj, List.getElem?_cons_succ, List.getElem?_drop, contents_getElem?]
      have e : i = (k + j) + 1 := by omega
      by_cases h3 : i < v.sz + 1
      · rw [if_pos h3, if_pos (by omega), e, hhi (k + j) (by omega) (by omega)]
      · rw [if_neg h3, if_neg (by omega)]

theorem contents_erase {α : Type} {m m1 : Mem α} {v v1 : Vector} {k : Nat}
    (hk : k < v.sz) (hs : v1.sz = v.sz - 1)
    (hlo : ∀ i, i < k → m1.cell (v1.values + i) = m.cell (v.values + i))
    (hhi : ∀ i, k ≤ i → i + 1 < v.sz → m1.cell (v1.values + i) = m.cell (v.values + (i + 1))) :
    contents m1 v1 = (contents m v).take k ++ (contents m v).drop (k + 1) := by
  apply List.ext_getElem?
  intro i
  have hlen : ((contents m v).take k).length = k := by
    rw [List.length_take, contents_length]
    omega
  rw [contents_getElem?, hs]
  by_cases h1 : i < k
  · rw [List.getElem?_append_left (by omega), List.getElem?_take_of_lt h1, contents_getElem?,
      if_pos (by omega), if_pos (by omega), hlo i h1]
  · rw [List.getElem?_append_right (by omega), hlen, List.getElem?_drop, contents_getElem?]
    have e : k + 1 + (i - k) = i + 1 := by omega
    rw [e]
    by_cases h3 : i < v.sz - 1
    · rw [if_pos h3, if_pos (by omega), hhi i (by omega) (by omega)]
    · rw [if_neg h3, if_neg (by omega)]

theorem contents_push {α : Type} {m m1 : Mem α} {v v1 : Vector} {x : α}
    (hs : v1.sz = v.sz + 1)
    (hlo : ∀ i, i < v.sz → m1.cell (v1.values + i) = m.cell (v.values + i))
    (hlast : m1.cell (v1.values + v.sz) = some x) :
    contents m1 v1 = contents m v ++ [some x] := by
  have := contents_insert (Nat.le_refl v.sz) hs hlo hlast (fun i h1 h2 => by omega)
  rw [this]
  have hl := contents_length m v
  rw [List.take_of_length_le (by omega), List.drop_of_length_le (by omega)]

theorem call_ok {α ρ : Type} {w : World α} {this : Nat} {v : Vector}
    {f : Vector → Mem α → Res (Vector × Mem α) ρ} {r : ρ} {s : Vector × Mem α}
    (hthis : w.objs this = some v) (h : f v w.mem = .ok r s) :
    w.call this f = .ok r (w.put this s) := by
  simp only [World.call, hthis, h]

theorem call_throw {α ρ : Type} {w : World α} {this : Nat} {v : Vector}
    {f : Vector → Mem α → Res (Vector × Mem α) ρ} {e : Exn} {s : Vector × Mem α}
    (hthis : w.objs this = some v) (h : f v w.mem = .throw e s) :
    w.call this f = .throw e (w.put this s) := by
  simp only [World.call, hthis, h]

theorem call_bad {α ρ : Type} {w : World α} {this : Nat} {v : Vector}
    {f : Vector → Mem α → Res (Vector × Mem α) ρ} {s : Vector × Mem α}
    (hthis : w.objs this = some v) (h : f v w.mem = .bad_alloc s) :
    w.call this f = .bad_alloc (w.put this s) := by
  simp only [World.call, hthis, h]

theorem call_ub {α ρ : Type} {w : World α} {this : Nat} {v : Vector}
    {f : Vector → Mem α → Res (Vector × Mem α) ρ}
    (hthis : w.objs this = some v) (h : f v w.mem = .ub) :
    w.call this f = .ub := by
  simp only [World.call, hthis, h]

theorem put_objs {α : Type} (w : World α) (this : Nat) (s : Vector × Mem α) :
    (w.put this s).objs this = some s.1 := by
  simp only [World.put, if_pos]

theorem put_self {α : Type} {w : World α} {this : Nat} {v : Vector}
    (hthis : w.objs this = some v) : w.put this (v, w.mem) = w := by
  rw [put_same w.mem hthis]

theorem check_validity_of {α : Type} {w : World α} {it : Iterator} {v : Vector}
    (h0 : it.tied_vec ≠ 0) (hv : w.objs it.tied_vec = some v) (hz : v.values ≠ 0)
    (hlt : it.shift < v.sz) (hp : v.values + it.shift = it.ptr) :
    it.check_validity w = some true := by
  have hpz : it.ptr ≠ 0 := by omega
  simp [Iterator.check_validity, h0, hv, hz, hpz, size, hlt, hp]

theorem check_validity_false_of_shift {α : Type} {w : World α} {it : Iterator} {v : Vector}
    (hv : w.objs it.tied_vec = some v) (hge : v.sz ≤ it.shift) :
    it.check_validity w = some false := by
  unfold Iterator.check_validity
  split_ifs with h0
  · rfl
  · have : ¬ it.shift < v.sz := by omega
    simp [hv, size, this]

theorem construct_ok {α : Type} {w : World α} {this : Nat}
    {c : Mem α → Built α} {v1 : Vector} {m1 : Mem α}
    (h0 : this ≠ 0) (hnone : w.objs this = none) (hc : c w.mem = .ok v1 m1) :
    w.construct this c = .ok () (w.put this (v1, m1)) := by
  simp only [World.construct, if_neg h0, hnone, hc]

theorem construct_bad {α : Type} {w : World α} {this : Nat}
    {c : Mem α → Built α} (h0 : this ≠ 0) (hnone : w.objs this = none)
    (hc : c w.mem = .bad_alloc) : w.construct this c = .bad_alloc w := by
  simp only [World.construct, if_neg h0, hnone, hc]

theorem step_sat {α : Type} [Inhabited α] {P : World α → Prop} {w w1 : World α} {op : Op α}
    (h : (exec w op).Sat P) (hs : step w op = some w1) : P w1 := by
  unfold step at hs
  cases hex : exec w op with
  | ok r w2 =>
    rw [hex] at h hs
    simp only [Option.some.injEq] at hs
    exact hs ▸ h
  | throw e w2 =>
    rw [hex] at h hs
    simp only [Option.some.injEq] at hs
    exact hs ▸ h
  | bad_alloc w2 =>
    rw [hex] at h hs
    simp only [Option.some.injEq] at hs
    exact hs ▸ h
  | ub =>
    rw [hex] at hs
    simp at hs

theorem keeps_trans {α : Type} {w w1 w2 : World α} {d : Nat} (h1 : Keeps w d w1)
    (h2 : Keeps w1 d w2) : Keeps w d w2 := by
  intro t u hne hu
  obtain ⟨ho1, hc1⟩ := h1 t u hne hu
  obtain ⟨ho2, hc2⟩ := h2 t u hne ho1
  exact ⟨ho2, fun i hi => by rw [hc2 i hi, hc1 i hi]⟩

theorem run_keep {α : Type} [Inhabited α] (d : Nat) (ops : List (Op α)) :
    ∀ (w w1 : World α), WF w → (∀ op, op ∈ ops → op.this = d) → run w ops = some w1 →
      Keeps w d w1 := by
  induction ops with
  | nil =>
    intro w w1 _ _ h
    simp only [run, Option.some.injEq] at h
    subst h
    exact keeps_refl w d
  | cons op ops ih =>
    intro w w1 hw hall h
    simp only [run] at h
    cases hs : step w op with
    | none => simp [hs] at h
    | some w2 =>
      rw [hs] at h
      have hk : Keeps w d w2 := by
        have := step_sat (exec_keep op hw) hs
        rw [hall op (List.mem_cons_self op ops)] at this
        exact this
      have hw2 : WF w2 := step_sat (exec_wf op hw) hs
      exact keeps_trans hk (ih w2 w1 hw2 (fun o ho => hall o (List.mem_cons_of_mem op ho)) h)

theorem keeps_contents {α : Type} {w w1 : World α} {d t : Nat} {u : Vector}
    (hk : Keeps w d w1) (hne : t ≠ d) (hu : w.objs t = some u) :
    w1.objs t = some u ∧ contents w1.mem u = contents w.mem u := by
  obtain ⟨ho, hc⟩ := hk t u hne hu
  exact ⟨ho, contents_congr rfl (fun i hi => hc i hi)⟩

theorem const_check_validity_eq {α : Type} {w : World α} (hw : WF w) (it : Iterator) :
    it.check_validity w = it.to_const.check_validity w := by
  unfold Iterator.check_validity ConstIterator.check_validity
  simp only [Iterator.to_const]
  split_ifs with h0
  · rfl
  · cases hv : w.objs it.tied_vec with
    | none => rfl
    | some v =>
      simp only [Option.some.injEq, size]
      have hvo := hw.vec _ v hv
      by_cases hz : v.values = 0
      · have h1 := hvo.null hz
        have h3 : ¬ it.shift < v.sz := by omega
        simp [h3]
      · simp [hz]

theorem const_check_validity_cases {α : Type} {w : World α} (ptr shift tied : Nat)
    (hlive : tied = 0 ∨ (w.objs tied).isSome) :
    (StructurallyValid w ptr shift tied →
      (ConstIterator.mk ptr shift tied).check_validity w = some true) ∧
    (¬ StructurallyValid w ptr shift tied →
      (ConstIterator.mk ptr shift tied).check_validity w = some false) := by
  unfold ConstIterator.check_validity StructurallyValid
  simp only [size]
  constructor
  · rintro ⟨v, h0, hv, h1, h2, h3⟩
    simp only [if_neg h0, hv, Option.some.injEq, Bool.and_eq_true, decide_eq_true_eq]
    exact ⟨⟨h1, h2⟩, h3.symm⟩
  · intro hn
    split_ifs with h0
    · rfl
    · rcases hlive with h | h
      · exact absurd h h0
      · obtain ⟨v, hv⟩ := Option.isSome_iff_exists.mp h
        simp only [hv, Option.some.injEq]
        by_cases h1 : ptr ≠ 0
        · by_cases h2 : shift < v.sz
          · have h3 : ¬ v.values + shift = ptr := fun h3 => hn ⟨v, h0, hv, h1, h2, h3.symm⟩
            simp [h3]
          · simp [h2]
        · simp [h1]

/-- An iterator whose position is not the buffer start plus its offset, or
whose offset is not below the size, fails both validity checks. -/
theorem deref_throw_of_stale {α : Type} {w : World α} {this ptr shift : Nat} {v : Vector}
    (hv : w.objs this = some v) (h : v.values + shift ≠ ptr ∨ v.sz ≤ shift) :
    (Iterator.mk ptr shift this).deref w = .throw .bad_iterator_access w ∧
    (ConstIterator.mk ptr shift this).deref w = .throw .bad_const_iterator_access w := by
  have h1 : (Iterator.mk ptr shift this).check_validity w = some false := by
    unfold Iterator.check_validity
    simp only [hv, size]
    split_ifs
    · rfl
    · rcases h with h | h
      · simp [h]
      · have : ¬ shift < v.sz := by omega
        simp [this]
  have h2 : (ConstIterator.mk ptr shift this).check_validity w = some false := by
    unfold ConstIterator.check_validity
    simp only [hv, size]
    split_ifs
    · rfl
    · rcases h with h | h
      · simp [h]
      · have : ¬ shift < v.sz := by omega
        simp [this]
  simp only [Iterator.deref, ConstIterator.deref, h1, h2, and_self]

/-- The address of a new allocation is not the address of the buffer in use. -/
theorem fresh_ne_values {α : Type} {m : Mem α} {v : Vector} {a n : Nat} (hv : VecFit m v)
    (hf : m.fresh a n = true) : v.values ≠ a := by
  obtain ⟨ha, hba, _⟩ := (fresh_iff m a n).mp hf
  intro e
  by_cases hz : v.values = 0
  · omega
  · obtain ⟨cap, this, _⟩ := hv.live hz
    rw [e, hba] at this
    simp at this

theorem check_validity_cases {α : Type} {w : World α} (hw : WF w) (ptr shift tied : Nat)
    (hlive : tied = 0 ∨ (w.objs tied).isSome) :
    (StructurallyValid w ptr shift tied →
      (Iterator.mk ptr shift tied).check_validity w = some true ∧
      (ConstIterator.mk ptr shift tied).check_validity w = some true) ∧
    (¬ StructurallyValid w ptr shift tied →
      (Iterator.mk ptr shift tied).check_validity w = some false ∧
      (ConstIterator.mk ptr shift tied).check_validity w = some false) := by
  have heq := const_check_validity_eq hw ⟨ptr, shift, tied⟩
  obtain ⟨hyes, hno⟩ := const_check_validity_cases (w := w) ptr shift tied hlive
  simp only [Iterator.to_const] at heq
  exact ⟨fun h => ⟨by rw [heq]; exact hyes h, hyes h⟩, fun h => ⟨by rw [heq]; exact hno h, hno h⟩⟩

theorem valid_at_offset {α : Type} {w : World α} (hw : WF w) {this j : Nat} {v : Vector}
    (hthis : w.objs this = some v) (hj : j < v.sz) :
    StructurallyValid w (v.values + j) j this := by
  have hv := hw.vec this v hthis
  have hz := hv.values_ne_zero (by omega)
  exact ⟨v, this_ne_zero hw hthis, hthis, by omega, hj, rfl⟩

theorem not_valid_at_end {α : Type} {w : World α} {this ptr j : Nat} {v : Vector}
    (hthis : w.objs this = some v) (hj : v.sz ≤ j) :
    ¬ StructurallyValid w ptr j this := by
  rintro ⟨v1, _, h1, _, hlt, _⟩
  rw [hthis] at h1
  simp only [Option.some.injEq] at h1
  subst h1
  simp only [size] at hlt
  omega

theorem inc_times_from {α : Type} {w : World α} (hw : WF w) {this : Nat} {v : Vector}
    (hthis : w.objs this = some v) :
    ∀ k j, j ≤ v.sz →
      Iterator.inc_times w k ⟨v.values + j, j, this⟩ =
        some ⟨v.values + min (j + k) v.sz, min (j + k) v.sz, this⟩ ∧
      ConstIterator.inc_times w k ⟨v.values + j, j, this⟩ =
        some ⟨v.values + min (j + k) v.sz, min (j + k) v.sz, this⟩ := by
  have hlive : this = 0 ∨ (w.objs this).isSome := Or.inr (by rw [hthis]; rfl)
  intro k
  induction k with
  | zero =>
    intro j hj
    have e : min (j + 0) v.sz = j := by omega
    rw [e]
    exact ⟨rfl, rfl⟩
  | succ k ih =>
    intro j hj
    obtain ⟨hyes, hno⟩ := check_validity_cases hw (v.values + j) j this hlive
    by_cases hlt : j < v.sz
    · obtain ⟨h1, h2⟩ := hyes (valid_at_offset hw hthis hlt)
      obtain ⟨i1, i2⟩ := ih (j + 1) (by omega)
      have e : min (j + (k + 1)) v.sz = min (j + 1 + k) v.sz := by omega
      rw [e]
      constructor
      · simp only [Iterator.inc_times, Iterator.pre_inc, Iterator.advance, h1]
        exact i1
      · simp only [ConstIterator.inc_times, ConstIterator.pre_inc, ConstIterator.advance, h2]
        exact i2
    · obtain ⟨h1, h2⟩ := hno (not_valid_at_end hthis (by omega))
      obtain ⟨i1, i2⟩ := ih j hj
      have e : min (j + (k + 1)) v.sz = min (j + k) v.sz := by omega
      rw [e]
      constructor
      · simp only [Iterator.inc_times, Iterator.pre_inc, Iterator.advance, h1]
        exact i1
      · simp only [ConstIterator.inc_times, ConstIterator.pre_inc, ConstIterator.advance, h2]
        exact i2

theorem intercalate_go_append (s a b : String) :
    ∀ l : List String, String.intercalate.go (a ++ b) s l = a ++ String.intercalate.go b s l := by
  intro l
  induction l generalizing b with
  | nil => rfl
  | cons c l ih =>
    simp only [String.intercalate.go]
    rw [String.append_assoc, String.append_assoc, ← String.append_assoc b, ih]

/-- The loop of `operator<<` from an index that is not the first. -/
theorem print_elems_tail {α : Type} (render : α → String) (p : Nat) (m : Mem α) :
    ∀ (es : List α) (i : Nat) (o : String), i ≠ 0 →
      (∀ j, j < es.length → m.get p (i + j) = es[j]?) →
      print_elems render p es.length i m o =
        some (String.intercalate.go o ", " (es.map render)) := by
  intro es
  induction es with
  | nil =>
    intro i o _ _
    rfl
  | cons e es ih =>
    intro i o hi h
    have h0 := h 0 (by simp)
    simp only [Nat.add_zero, List.getElem?_cons_zero] at h0
    simp only [List.length_cons, print_elems, h0, if_pos hi, List.map_cons, String.intercalate.go]
    apply ih (i + 1) _ (by omega)
    intro j hj
    have := h (j + 1) (by simp; omega)
    rw [List.getElem?_cons_succ] at this
    rw [← this]
    congr 1
    omega

theorem print_spec {α : Type} (render : α → String) (o : String) {m : Mem α} {v : Vector}
    (es : List α) (hlen : es.length = v.sz)
    (h : ∀ j, j < es.length → m.get v.values j = es[j]?) :
    print render o v m = some (o ++ "[" ++ ", ".intercalate (es.map render) ++ "]") := by
  unfold print
  simp only [size, ← hlen]
  cases es with
  | nil =>
    simp [print_elems, String.intercalate]
  | cons e es =>
    have h0 := h 0 (by simp)
    simp only [List.getElem?_cons_zero] at h0
    have ht := print_elems_tail render v.values m es 1 (o ++ "[" ++ render e) (by omega)
      (fun j hj => by
        have := h (j + 1) (by simp; omega)
        rw [List.getElem?_cons_succ] at this
        rw [← this]
        congr 1
        omega)
    have hne : ¬ (0 ≠ 0) := fun h => h rfl
    simp only [List.length_cons, print_elems, h0, if_neg hne, Nat.zero_add, List.map_cons,
      String.intercalate]
    rw [ht, intercalate_go_append]

theorem get_of_contents {α : Type} {m : Mem α} {v : Vector} (hv : VecFit m v) (es : List α)
    (hc : contents m v = es.map some) :
    es.length = v.sz ∧ ∀ j, j < es.length → m.get v.values j = es[j]? := by
  have hlen : es.length = v.sz := by
    have := congrArg List.length hc
    rw [contents_length, List.length_map] at this
    exact this.symm
  refine ⟨hlen, fun j hj => ?_⟩
  obtain ⟨cap, hl, hcap⟩ := hv.slots (by omega)
  rw [get_eq hl (by omega)]
  have h1 := contents_getElem? m v j
  rw [hc, List.getElem?_map, if_pos (by omega), List.getElem?_eq_getElem hj] at h1
  simp only [Option.map_some', Option.some.injEq] at h1
  rw [← h1, List.getElem?_eq_getElem hj]

theorem sat_satOk {σ ρ : Type} {P Q : σ → Prop} {r : Res σ ρ} (h1 : r.Sat P) (h2 : r.SatOk Q) :
    r.SatOk (fun s => P s ∧ Q s) := by
  cases r with
  | ok _ _ => exact ⟨h1, h2⟩
  | throw _ _ => exact ⟨h1, h2⟩
  | bad_alloc _ => trivial
  | ub => trivial

theorem satOk_forget {σ ρ : Type} {P : σ → Prop} {r : Res σ ρ} (h : r.SatOk P) :
    r.forget.SatOk P := by
  cases r with
  | ok _ _ => exact h
  | throw _ _ => exact h
  | bad_alloc _ => trivial
  | ub => trivial

theorem clear_tight {α : Type} {m : Mem α} {v : Vector} (hv : VecOK m v) :
    (clear v m).SatOk (fun s => VecOK s.2 s.1) :=
  vecOK_inplace hv (sameShape_refl m) rfl rfl (Nat.zero_le _)

theorem pop_back_tight {α : Type} {m : Mem α} {v : Vector} (hv : VecOK m v) :
    (pop_back v m).SatOk (fun s => VecOK s.2 s.1) := by
  unfold pop_back
  split_ifs with h
  · exact hv
  · exact vecOK_inplace hv (sameShape_refl m) rfl rfl (by have := hv.le; simp only; omega)

theorem reserve_tight {α : Type} [Inhabited α] {m : Mem α} {v : Vector} (a n : Nat)
    (hm : MemOK m) (hv : VecOK m v) :
    (reserve a n v m).SatOk (fun s => VecOK s.2 s.1) := by
  by_cases hn : v.max_sz < n
  · rcases alloc_cases m a n with hf | hbad | ⟨hnb, hff⟩
    · obtain ⟨m1, h1, _, hok, _⟩ := reserve_grow_spec a n hm hv.fit hn hf
      rw [h1]
      exact hok
    · rw [reserve_bad a n hv.le hn hbad]
      trivial
    · rw [reserve_stuck a n hv.le hn hnb hff]
      trivial
  · rw [reserve_noop a n hn]
    exact hv

theorem shrink_tight {α : Type} [Inhabited α] {m : Mem α} {v : Vector} (a : Nat)
    (hm : MemOK m) (hv : VecOK m v) :
    (shrink_to_fit a v m).SatOk (fun s => VecOK s.2 s.1) := by
  by_cases hn : v.sz < v.max_sz
  · have key : (v.sz ≠ 0 → m.fresh a v.sz = true) →
        (shrink_to_fit a v m).SatOk (fun s => VecOK s.2 s.1) := by
      intro hf
      obtain ⟨m1, h1, _, hok, _⟩ := shrink_spec a hm hv.fit hn hf
      rw [h1]
      exact hok
    by_cases h0 : v.sz = 0
    · exact key (fun h => absurd h0 h)
    · rcases alloc_cases m a v.sz with hf | hbad | ⟨hnb, hff⟩
      · exact key (fun _ => hf)
      · rw [shrink_bad a hn h0 hbad]
        trivial
      · have := realloc_stuck (v := { v with max_sz := v.sz }) (m := m) (a := a) (n := v.sz)
          (Nat.le_refl _) h0 hnb hff
        simp only [shrink_to_fit, if_pos hn, this]
        trivial
  · rw [shrink_noop a hn]
    exact hv

theorem push_back_tight {α : Type} [Inhabited α] {m : Mem α} {v : Vector} (a : Nat) (x : α)
    (hm : MemOK m) (hv : VecOK m v) :
    (push_back a x v m).SatOk (fun s => VecOK s.2 s.1) := by
  have key : (v.max_sz ≤ v.sz → m.fresh a ((v.sz + 1) * 2) = true) →
      (push_back a x v m).SatOk (fun s => VecOK s.2 s.1) := by
    intro hf
    obtain ⟨v1, m1, h1, _, _, _, _, _, _, hok⟩ := push_back_spec a x hm hv.fit hv.hasRoom hf
    rw [h1]
    exact hok (Or.inr hv)
  by_cases hg : v.max_sz ≤ v.sz
  · rcases alloc_cases m a ((v.sz + 1) * 2) with hf | hbad | ⟨hnb, hff⟩
    · exact key (fun _ => hf)
    · rw [push_back_bad a x hg hbad]
      trivial
    · rw [push_back_stuck a x hg hnb hff]
      trivial
  · exact key (fun h => absurd h hg)

theorem insert_tight {α : Type} [Inhabited α] {m : Mem α} {v : Vector} (a this : Nat)
    (pos : ConstIterator) (val : CRef α) (hm : MemOK m) (hv : VecOK m v) :
    (insert a this pos val v m).SatOk (fun s => VecOK s.2 s.1) := by
  by_cases hchk : pos.sub (begin this v).to_const < 0 ∨
      (pos.sub (begin this v).to_const).toNat > v.sz
  · rw [insert_throw a this pos val hchk]
    exact hv
  · have hpos := ptr_of_diff (not_or.mp hchk).1
    have hk : (pos.sub (begin this v).to_const).toNat ≤ v.sz := by
      have := (not_or.mp hchk).2
      omega
    have key : (v.max_sz ≤ v.sz → m.fresh a ((v.max_sz + 1) * 2) = true) →
        (insert a this pos val v m).SatOk (fun s => VecOK s.2 s.1) := by
      intro hf
      obtain ⟨cap, p, m2, _, _, _, hnone, hsome⟩ :=
        insert_spec a this _ pos val hm hv.fit hv.hasRoom hpos hk hf
      cases hx : val.get m2 with
      | none =>
        rw [hnone hx]
        trivial
      | some x =>
        obtain ⟨m3, h3, _, _, _, _, hok⟩ := hsome x hx
        rw [h3]
        exact hok (Or.inr hv)
    by_cases hg : v.max_sz ≤ v.sz
    · rcases alloc_cases m a ((v.max_sz + 1) * 2) with hf | hbad | ⟨hnb, hff⟩
      · exact key (fun _ => hf)
      · rw [insert_bad a this pos val hchk hv.le hg hbad]
        trivial
      · rw [insert_stuck a this pos val hchk hv.le hg hnb hff]
        trivial
    · exact key (fun h => absurd h hg)

theorem erase_tight {α : Type} {m : Mem α} {v : Vector} (this : Nat)
    (pos : ConstIterator) (hm : MemOK m) (hv : VecOK m v) :
    (erase this pos v m).SatOk (fun s => VecOK s.2 s.1) := by
  by_cases hchk : pos.sub (begin this v).to_const < 0 ∨
      (pos.sub (begin this v).to_const).toNat ≥ v.sz
  · rw [erase_throw this pos hchk]
    exact hv
  · have hpos := ptr_of_diff (not_or.mp hchk).1
    have hk : (pos.sub (begin this v).to_const).toNat < v.sz := by
      have := (not_or.mp hchk).2
      omega
    obtain ⟨m1, h1, _, hs, _⟩ := erase_spec this _ pos hm hv.fit hpos hk
    rw [h1]
    exact vecOK_inplace hv hs rfl rfl (by have := hv.le; simp only; omega)

theorem assign_tight {α : Type} [Inhabited α] {m : Mem α} {v src : Vector} (a : Nat)
    (hm : MemOK m) (hv : VecFit m v) (hs : VecFit m src) :
    (assign a src v m).SatOk (fun s => VecOK s.2 s.1) := by
  rcases alloc_cases m a src.max_sz with hf | hbad | ⟨hnb, hff⟩
  · obtain ⟨m1, h1, _, hok, _⟩ := assign_spec a hm hv hs hf
    rw [h1]
    exact hok
  · rw [assign_bad a hbad]
    trivial
  · rw [assign_stuck a hnb hff]
    trivial

/-- The other containers keep a capacity that is the length of their buffer
across a call on one of them. -/
theorem tight_put {α : Type} {w : World α} {this : Nat} {v v1 : Vector} {m1 : Mem α}
    (hw : Tight w) (h0 : this ≠ 0)
    (hsep : ∀ t2 v2, t2 ≠ this → w.objs t2 = some v2 → v2.values ≠ 0 → v2.values ≠ v.values)
    (hfr : Frame w.mem v m1 v1) (hok : VecOK m1 v1) : Tight (w.put this (v1, m1)) := by
  refine ⟨wf_put hw.wf h0 hsep hfr, ?_⟩
  intro t u hu
  simp only [World.put] at hu ⊢
  split_ifs at hu with e
  · simp only [Option.some.injEq] at hu
    subst hu
    exact hok
  · have hvu := hw.vec t u hu
    refine ⟨hvu.le, hvu.null, fun hz => ?_⟩
    exact (hfr.keep _ _ (hvu.live hz) (hsep t u e hu hz)).1

theorem call_tight {α ρ : Type} {w : World α} (this : Nat)
    (f : Vector → Mem α → Res (Vector × Mem α) ρ) (hw : Tight w)
    (hf : ∀ v, w.objs this = some v →
      (f v w.mem).SatOk (fun s => Frame w.mem v s.2 s.1 ∧ VecOK s.2 s.1)) :
    (w.call this f).SatOk Tight := by
  unfold World.call
  cases hthis : w.objs this with
  | none => trivial
  | some v =>
    have := hf v hthis
    revert this
    simp only
    have h0 := this_ne_zero hw.wf hthis
    have hsep : ∀ t2 v2, t2 ≠ this → w.objs t2 = some v2 → v2.values ≠ 0 →
        v2.values ≠ v.values := fun t2 v2 hne h2 hz => hw.wf.sep t2 v2 this v h2 hthis hne hz
    cases f v w.mem with
    | ok r s => exact fun h => tight_put hw h0 hsep h.1 h.2
    | throw e s => exact fun h => tight_put hw h0 hsep h.1 h.2
    | bad_alloc s => exact fun _ => trivial
    | ub => exact fun _ => trivial

theorem construct_tight {α : Type} {w : World α} (this : Nat)
    (c : Mem α → Built α) (hw : Tight w)
    (hc : ∀ v1 m1, c w.mem = .ok v1 m1 → Frame w.mem ⟨0, 0, 0⟩ m1 v1 ∧ VecOK m1 v1) :
    (w.construct this c).SatOk Tight := by
  unfold World.construct
  split_ifs with h0
  · trivial
  · cases hthis : w.objs this with
    | some _ => trivial
    | none =>
      simp only
      cases hs : c w.mem with
      | ub => trivial
      | bad_alloc => trivial
      | ok v1 m1 =>
        exact tight_put hw h0 (fun _ _ _ _ hz => hz) (hc v1 m1 hs).1 (hc v1 m1 hs).2

theorem destroy_tight {α : Type} {w : World α} (this : Nat) (hw : Tight w) :
    (w.destroy this).SatOk Tight := by
  have hwf := destroy_wf this hw.wf
  revert hwf
  unfold World.destroy
  cases hthis : w.objs this with
  | none => exact fun _ => trivial
  | some v =>
    obtain ⟨m1, h1, hm1, hb, hc⟩ := dtor_spec hw.wf.mem (hw.wf.vec this v hthis)
    simp only [h1]
    intro hwf
    refine ⟨hwf, ?_⟩
    intro t u hu
    simp only at hu ⊢
    split_ifs at hu with e
    have hvu := hw.vec t u hu
    refine ⟨hvu.le, hvu.null, fun hz => ?_⟩
    rw [hb, if_neg (hw.wf.sep t u this v hu hthis e hz)]
    exact hvu.live hz

theorem ctor_sized_tight {α : Type} [Inhabited α] {m : Mem α} (a n : Nat) (hm : MemOK m)
    (v1 : Vector) (m1 : Mem α) (h : ctor_sized a n m = .ok v1 m1) :
    Frame m ⟨0, 0, 0⟩ m1 v1 ∧ VecOK m1 v1 := by
  refine ⟨ctor_sized_frame a n hm v1 m1 h, ?_⟩
  have key : (n ≠ 0 → m.fresh a n = true) → VecOK m1 v1 := by
    intro hf
    obtain ⟨m2, h2, _, hok⟩ := ctor_sized_spec a n hm hf
    rw [h2] at h
    simp only [Built.ok.injEq] at h
    rw [← h.1, ← h.2]
    exact hok
  by_cases h0 : n = 0
  · exact key (fun h1 => absurd h0 h1)
  · rcases alloc_cases m a n with hf | hbad | ⟨hnb, hff⟩
    · exact key (fun _ => hf)
    · rw [ctor_sized_bad a n h0 hbad] at h
      exact Built.noConfusion h
    · rw [ctor_sized_stuck a n h0 hnb hff] at h
      exact Built.noConfusion h

theorem ctor_il_tight {α : Type} [Inhabited α] {m : Mem α} (a : Nat) (il : List α)
    (hm : MemOK m) (v1 : Vector) (m1 : Mem α) (h : ctor_il a il m = .ok v1 m1) :
    Frame m ⟨0, 0, 0⟩ m1 v1 ∧ VecOK m1 v1 := by
  refine ⟨ctor_il_frame a il hm v1 m1 h, ?_⟩
  have key : (il.length ≠ 0 → m.fresh a (il.length * 2) = true) → VecOK m1 v1 := by
    intro hf
    obtain ⟨m2, h2, _, hok, _⟩ := ctor_il_spec a il hm hf
    rw [h2] at h
    simp only [Built.ok.injEq] at h
    rw [← h.1, ← h.2]
    exact hok
  by_cases h0 : il.length = 0
  · exact key (fun h1 => absurd h0 h1)
  · rcases alloc_cases m a (il.length * 2) with hf | hbad | ⟨hnb, hff⟩
    · exact key (fun _ => hf)
    · rw [ctor_il_bad a il h0 hbad] at h
      exact Built.noConfusion h
    · rw [ctor_il_stuck a il h0 hnb hff] at h
      exact Built.noConfusion h

theorem ctor_copy_tight {α : Type} [Inhabited α] {m : Mem α} {rop : Vector} (a : Nat)
    (hm : MemOK m) (hv : VecFit m rop) (v1 : Vector) (m1 : Mem α)
    (h : ctor_copy a rop m = .ok v1 m1) : Frame m ⟨0, 0, 0⟩ m1 v1 ∧ VecOK m1 v1 := by
  refine ⟨ctor_copy_frame a hm hv v1 m1 h, ?_⟩
  rcases alloc_cases m a rop.max_sz with hf | hbad | ⟨hnb, hff⟩
  · obtain ⟨m2, h2, _, hok, _⟩ := ctor_copy_spec a hm hv hf
    rw [h2] at h
    simp only [Built.ok.injEq] at h
    rw [← h.1, ← h.2]
    exact hok
  · rw [ctor_copy_bad a hbad] at h
    exact Built.noConfusion h
  · rw [ctor_copy_stuck a hnb hff] at h
    exact Built.noConfusion h

theorem write_tight {α : Type} {w : World α} {this i : Nat} {v : Vector} {x : α} {m1 : Mem α}
    (hw : Tight w) (hthis : w.objs this = some v) (hi : i < v.sz)
    (hwr : w.mem.write (v.values + i) x = some m1) : Tight (w.put this (v, m1)) :=
  tight_put hw (this_ne_zero hw.wf hthis)
    (fun t2 v2 hne h2 hz => hw.wf.sep t2 v2 this v h2 hthis hne hz)
    (write_own_frame hw.wf.mem (hw.wf.vec this v hthis) hi hwr)
    (vecOK_inplace (hw.vec this v hthis) (write_shape hwr) rfl rfl (hw.vec this v hthis).le)

theorem put_tight_self {α : Type} {w : World α} {this : Nat} {v : Vector} (hw : Tight w)
    (hthis : w.objs this = some v) : Tight (w.put this (v, w.mem)) := by
  rw [put_same w.mem hthis]
  exact hw

theorem index_write_tight {α : Type} {w : World α} (this index : Nat) (x : α) (hw : Tight w) :
    (write_through x (w.call this (index_mut index))).SatOk Tight := by
  unfold World.call
  cases hthis : w.objs this with
  | none => trivial
  | some v =>
    simp only [index_mut]
    split_ifs with hi
    · exact put_tight_self hw hthis
    · simp only [write_through, World.put]
      cases hwr : w.mem.write (v.values + index) x with
      | none => trivial
      | some m1 => exact write_tight hw hthis (by omega) hwr

theorem deref_write_tight {α : Type} {w : World α} (it : Iterator) (x : α) (hw : Tight w) :
    (write_through x (it.deref w)).SatOk Tight := by
  unfold Iterator.deref
  cases hc : it.check_validity w with
  | none => trivial
  | some b =>
    cases b with
    | false => exact hw
    | true =>
      obtain ⟨_, v, hv, _, _, hlt, hp⟩ := check_validity_true hc
      simp only [write_through]
      cases hwr : w.mem.write it.ptr x with
      | none => trivial
      | some m1 =>
        simp only [Res.SatOk]
        rw [← put_same m1 hv]
        rw [← hp] at hwr
        exact write_tight hw hv hlt hwr

/-- A call that returns normally or throws an error of the class keeps the
capacity of every container equal to the length of its buffer. -/
theorem exec_tight {α : Type} [Inhabited α] {w : World α} (op : Op α) (hw : Tight w) :
    (exec w op).SatOk Tight := by
  have hm := hw.wf.mem
  cases op with
  | ctor_default this a =>
    exact construct_tight this (ctor_default a) hw
      (fun v1 m1 h => ctor_sized_tight a DEFAULT_MAX_SZ hm v1 m1 h)
  | ctor_sized this a n =>
    exact construct_tight this _ hw (fun v1 m1 h => ctor_sized_tight a n hm v1 m1 h)
  | ctor_il this a il =>
    exact construct_tight this _ hw (fun v1 m1 h => ctor_il_tight a il hm v1 m1 h)
  | ctor_copy this a src =>
    simp only [exec]
    cases hs : w.objs src with
    | none => trivial
    | some rop =>
      exact construct_tight this _ hw
        (fun v1 m1 h => ctor_copy_tight a hm (hw.wf.vec src rop hs) v1 m1 h)
  | dtor this => exact destroy_tight this hw
  | assign this a src =>
    simp only [exec, World.assign]
    cases hs : w.objs src with
    | none => trivial
    | some s =>
      exact call_tight this _ hw (fun v hv =>
        sat_satOk (assign_frame a hm (hw.wf.vec this v hv) (hw.wf.vec src s hs))
          (assign_tight a hm (hw.wf.vec this v hv) (hw.wf.vec src s hs)))
  | clear this =>
    exact call_tight this _ hw (fun v hv =>
      sat_satOk (clear_frame hm (hw.wf.vec this v hv)) (clear_tight (hw.vec this v hv)))
  | reserve this a n =>
    exact call_tight this _ hw (fun v hv =>
      sat_satOk (reserve_frame a n hm (hw.wf.vec this v hv))
        (reserve_tight a n hm (hw.vec this v hv)))
  | shrink_to_fit this a =>
    exact call_tight this _ hw (fun v hv =>
      sat_satOk (shrink_frame a hm (hw.wf.vec this v hv)) (shrink_tight a hm (hw.vec this v hv)))
  | push_back this a x =>
    exact call_tight this _ hw (fun v hv =>
      sat_satOk (push_back_frame a x hm (hw.wf.vec this v hv))
        (push_back_tight a x hm (hw.vec this v hv)))
  | pop_back this =>
    exact call_tight this _ hw (fun v hv =>
      sat_satOk (pop_back_frame hm (hw.wf.vec this v hv)) (pop_back_tight (hw.vec this v hv)))
  | insert this a pos val =>
    exact satOk_forget (call_tight this _ hw (fun v hv =>
      sat_satOk (insert_frame a this pos val hm (hw.wf.vec this v hv))
        (insert_tight a this pos val hm (hw.vec this v hv))))
  | erase this pos =>
    exact satOk_forget (call_tight this _ hw (fun v hv =>
      sat_satOk (erase_frame this pos hm (hw.wf.vec this v hv))
        (erase_tight this pos hm (hw.vec this v hv))))
  | index_write this index x => exact index_write_tight this index x hw
  | deref_write it x => exact deref_write_tight it x hw

theorem steady_reachable {α : Type} [Inhabited α] {w : World α} (h : Steady w) :
    Reachable w := by
  induction h with
  | init => exact Reachable.init
  | ok w w1 op _ hex ih => exact Reachable.ok w w1 op ih hex
  | throw w w1 op e _ hex ih => exact Reachable.throw w w1 op e ih hex

/-- As long as no call was left through an exception of `new`, the capacity of
every container is the length of its buffer: a null buffer goes with capacity 0
and a buffer that is not null is a live allocation of exactly `capacity`
slots. -/
theorem steady_tight {α : Type} [Inhabited α] {w : World α} (h : Steady w) : Tight w := by
  induction h with
  | init =>
    refine ⟨empty_wf, ?_⟩
    intro t v hv
    simp [World.empty] at hv
  | ok w w1 op _ hex ih =>
    have := exec_tight op ih
    rw [hex] at this
    exact this
  | throw w w1 op e _ hex ih =>
    have := exec_tight op ih
    rw [hex] at this
    exact this

/-- On such a state every container has the slot at index `size` whenever its
size is below its capacity. -/
theorem steady_hasRoom {α : Type} [Inhabited α] {w : World α} (h : Steady w) {t : Nat}
    {v : Vector} (hv : w.objs t = some v) : HasRoom w.mem v :=
  ((steady_tight h).vec t v hv).hasRoom

/-- No arithmetic of the code on sizes wraps on a state that is reached: the
size is within `ALLOC_MAX`, so `(sz + 1) * 2` is below `2^64`, and so is
`(max_sz + 1) * 2` where `insert` computes it, that is when `sz >= max_sz`. -/
theorem sizes_do_not_wrap {α : Type} [Inhabited α] {w : World α} {this : Nat} {v : Vector}
    (hw : Reachable w) (hthis : w.objs this = some v) :
    v.sz ≤ ALLOC_MAX ∧ (v.sz + 1) * 2 < 2 ^ 64 ∧
      (v.sz ≥ v.max_sz → (v.max_sz + 1) * 2 < 2 ^ 64) := by
  have hwf := reachable_wf hw
  have hv := hwf.vec this v hthis
  have h1 : v.sz ≤ ALLOC_MAX := by
    by_cases h0 : v.sz = 0
    · omega
    · obtain ⟨cap, hl, hcap⟩ := hv.slots (by omega)
      have := hwf.mem.small _ _ hl
      omega
  have h2 : ALLOC_MAX = 2305843009213693951 := by norm_num [ALLOC_MAX]
  refine ⟨h1, ?_, ?_⟩
  · norm_num
    omega
  · intro h
    norm_num
    omega

/-- C2: on a reachable state, `erase(pos)` at the container's iterator of
offset `k < size` returns normally; the container then holds the former
elements without the one at `k`, its size is one less and its capacity is the
same; the iterator returned has offset `k`; when `k` was not the last index it
dereferences to the slot that now holds the former element `k + 1`, and when
`k` was the last index it compares equal to `end()` and dereferencing it
throws. -/
theorem erase_at_offset {α : Type} [Inhabited α] (w : World α) (this k : Nat) (v : Vector)
    (hw : Reachable w) (hthis : w.objs this = some v) (hk : k < size v) :
    ∃ it w1 v1,
      w.call this (erase this ⟨v.values + k, k, this⟩) = .ok it w1 ∧
      w1.objs this = some v1 ∧
      contents w1.mem v1 = (contents w.mem v).take k ++ (contents w.mem v).drop (k + 1) ∧
      size v1 = size v - 1 ∧ capacity v1 = capacity v ∧
      it.shift = k ∧ it.tied_vec = this ∧
      (k + 1 < size v →
        ∃ r, it.deref w1 = .ok r w1 ∧ (contents w.mem v)[k + 1]? = some (w1.mem.read r)) ∧
      (k + 1 = size v →
        it.eq (end_ this v1).to_const = true ∧
        it.deref w1 = .throw .bad_iterator_access w1) := by
  have hwf := reachable_wf hw
  have hv := hwf.vec this v hthis
  simp only [size, capacity] at hk ⊢
  obtain ⟨m1, h1, hfr, _, hlo, hhi⟩ :=
    erase_spec this k ⟨v.values + k, k, this⟩ hwf.mem hv rfl hk
  refine ⟨_, _, ⟨v.sz - 1, v.max_sz, v.values⟩, call_ok hthis h1, put_objs _ _ _, ?_, rfl, rfl,
    rfl, rfl, ?_, ?_⟩
  · exact contents_erase hk rfl hlo hhi
  · intro hlt
    have hchk : Iterator.check_validity ⟨v.values + k, k, this⟩
        (w.put this (⟨v.sz - 1, v.max_sz, v.values⟩, m1)) = some true := by
      refine check_validity_of (this_ne_zero hwf hthis) (put_objs _ _ _) ?_ ?_ rfl
      · exact hv.values_ne_zero (by omega)
      · simp only
        omega
    refine ⟨v.values + k, by simp only [Iterator.deref, hchk], ?_⟩
    rw [contents_getElem?, if_pos hlt]
    exact congrArg some (hhi k (Nat.le_refl k) hlt).symm
  · intro heq
    refine ⟨?_, ?_⟩
    · simp only [Iterator.eq, ConstIterator.eq, Iterator.to_const, end_, beq_iff_eq]
      omega
    · have hchk : Iterator.check_validity ⟨v.values + k, k, this⟩
          (w.put this (⟨v.sz - 1, v.max_sz, v.values⟩, m1)) = some false := by
        refine check_validity_false_of_shift (put_objs _ _ _) ?_
        simp only
        omega
      simp only [Iterator.deref, hchk]

theorem erase_at_offset_witness :
    Reachable world123 ∧ world123.objs 1 = some ⟨3, 6, 10⟩ ∧
    ∃ it w1 v1,
      world123.call 1 (erase 1 ⟨10 + 1, 1, 1⟩) = .ok it w1 ∧
      w1.objs 1 = some v1 ∧
      contents w1.mem v1 = [some 1, some 3] ∧
      size v1 = 2 ∧ capacity v1 = 6 ∧ it.shift = 1 ∧
      ∃ r, it.deref w1 = .ok r w1 ∧ some (w1.mem.read r) = some (some 3) := by
  refine ⟨after_reachable _, by decide, ?_⟩
  obtain ⟨it, w1, v1, h1, h2, h3, h4, h5, h6, _, h8, _⟩ :=
    erase_at_offset world123 1 1 ⟨3, 6, 10⟩ (after_reachable _) (by decide) (by decide)
  obtain ⟨r, hr1, hr2⟩ := h8 (by decide)
  exact ⟨it, w1, v1, h1, h2, by rw [h3]; decide, h4, h5, h6, r, hr1, by rw [← hr2]; decide⟩

/-- C4, amended: on a reachable state, take a container whose buffer has a slot
at index `size` whenever `size < capacity` (every container has, as long as no
call was left through an exception of `new`: `steady_hasRoom`). If the container is not full, or
the allocator answers the request of the growth with an unused address,
`push_back(x)` returns normally; afterwards the size is one more, the elements
are the former ones followed by `x`, and the capacity is the same whenever the
size was strictly below it. If the container is full and `new` throws, the call
is left through that exception, with the size and the elements as they
were. -/
theorem push_back_appends {α : Type} [Inhabited α] (w : World α) (this a : Nat) (v : Vector)
    (x : α) (hw : Reachable w) (hthis : w.objs this = some v) (hroom : HasRoom w.mem v) :
    ((capacity v ≤ size v → w.mem.fresh a ((size v + 1) * 2) = true) →
      ∃ w1 v1,
        w.call this (push_back a x) = .ok () w1 ∧
        w1.objs this = some v1 ∧
        size v1 = size v + 1 ∧
        contents w1.mem v1 = contents w.mem v ++ [some x] ∧
        (size v < capacity v → capacity v1 = capacity v)) ∧
    (capacity v ≤ size v → (a = 0 ∨ ALLOC_MAX < (size v + 1) * 2) →
      ∃ w1 v1,
        w.call this (push_back a x) = .bad_alloc w1 ∧
        w1.objs this = some v1 ∧ size v1 = size v ∧
        contents w1.mem v1 = contents w.mem v) := by
  have hwf := reachable_wf hw
  simp only [size, capacity]
  constructor
  · intro hf
    obtain ⟨v1, m1, h1, _, hs, hcap, _, hlo, hlast, _⟩ :=
      push_back_spec a x hwf.mem (hwf.vec this v hthis) hroom hf
    refine ⟨_, v1, call_ok hthis h1, put_objs _ _ _, hs, contents_push hs hlo hlast, ?_⟩
    intro hlt
    rw [hcap, if_neg (by omega)]
  · intro hg hbad
    exact ⟨_, _, call_bad hthis (push_back_bad a x hg hbad), put_objs _ _ _, rfl, rfl⟩

theorem push_back_appends_witness :
    Reachable world123 ∧ world123.objs 1 = some ⟨3, 6, 10⟩ ∧
    ∃ w1 v1,
      world123.call 1 (push_back 50 7) = .ok () w1 ∧ w1.objs 1 = some v1 ∧
      size v1 = 4 ∧ contents w1.mem v1 = [some 1, some 2, some 3, some 7] ∧
      capacity v1 = 6 := by
  refine ⟨after_reachable _, by decide, ?_⟩
  obtain ⟨w1, v1, h1, h2, h3, h4, h5⟩ :=
    (push_back_appends world123 1 50 ⟨3, 6, 10⟩ 7 (after_reachable _) (by decide)
      (fun _ => ⟨6, by decide, by decide⟩)).1 (by decide)
  exact ⟨w1, v1, h1, h2, h3, by rw [h4]; decide, h5 (by decide)⟩

/-- C4 as stated fails in two ways. A `push_back` that has to grow does not
return normally when the allocator has no memory (answer `0`): on the full
container `{1, 2, 3}` it is left through the exception of `new`, with the
capacity already set to 8 over the buffer of 3 slots. And after
`v.reserve(1 << 62)` on `{1, 2, 3}`, which `new` refuses and which leaves the
capacity at `2^62` over the buffer of 6 slots, and three more elements, a
`push_back` does not grow and stores at index 6, outside the buffer, whatever
the allocator would answer. -/
theorem push_back_without_memory :
    Reachable world_tight ∧ world_tight.objs 1 = some ⟨3, 3, 20⟩ ∧
    (∃ w1, world_tight.call 1 (push_back 0 7) = .bad_alloc w1 ∧
      w1.objs 1 = some ⟨3, 8, 20⟩ ∧ w1.mem.blk 20 = some 3) ∧
    Reachable world_filled ∧ world_filled.objs 1 = some ⟨6, 2 ^ 62, 10⟩ ∧
    world_filled.mem.blk 10 = some 6 ∧
    (∀ a x : Nat, world_filled.call 1 (push_back a x) = .ub) :=
  ⟨after_reachable _, by decide, ⟨_, rfl, by decide, by decide⟩, after_reachable _, by decide,
    by decide, fun _ _ => rfl⟩


/-- C5: on a reachable state whose container is full (`size ≥ capacity`), the
capacity after `push_back(x)` and the capacity after an `insert` at an offset
`k ≤ size` are both `(size + 1) * 2`, although `insert` computes it from the
old capacity. -/
theorem growth_policy {α : Type} [Inhabited α] (w : World α) (this a k : Nat) (v : Vector)
    (x : α) (pos : ConstIterator) (hw : Reachable w) (hthis : w.objs this = some v)
    (hfull : size v ≥ capacity v) (hf : w.mem.fresh a ((size v + 1) * 2) = true)
    (hpos : pos.ptr = v.values + k) (hk : k ≤ size v) :
    (∃ w1 v1, w.call this (push_back a x) = .ok () w1 ∧ w1.objs this = some v1 ∧
      capacity v1 = (size v + 1) * 2) ∧
    (∃ it w1 v1, w.call this (insert a this pos (.obj x)) = .ok it w1 ∧
      w1.objs this = some v1 ∧ capacity v1 = (size v + 1) * 2) := by
  have hwf := reachable_wf hw
  have hv := hwf.vec this v hthis
  have hle := hv.le
  simp only [size, capacity] at hfull hf hk ⊢
  have heq : v.max_sz = v.sz := by omega
  constructor
  · obtain ⟨v1, m1, h1, _, _, hcap, _⟩ :=
      push_back_spec a x hwf.mem hv (fun h => absurd h (by omega)) (fun _ => hf)
    refine ⟨_, v1, call_ok hthis h1, put_objs _ _ _, ?_⟩
    rw [hcap, if_pos (by omega)]
  · obtain ⟨cap, p, m2, hcap, _, _, _, hsome⟩ := insert_spec a this k pos (CRef.obj x) hwf.mem hv
      (fun h => absurd h (by omega)) hpos hk (fun _ => by rw [heq]; exact hf)
    obtain ⟨m3, h3, _⟩ := hsome x rfl
    refine ⟨_, _, ⟨v.sz + 1, cap, p⟩, call_ok hthis h3, put_objs _ _ _, ?_⟩
    rw [hcap, if_pos (by omega), heq]

theorem growth_policy_witness :
    Reachable world_tight ∧ world_tight.objs 1 = some ⟨3, 3, 20⟩ ∧
    (∃ w1 v1, world_tight.call 1 (push_back 50 7) = .ok () w1 ∧ w1.objs 1 = some v1 ∧
      capacity v1 = 8) ∧
    (∃ it w1 v1, world_tight.call 1 (insert 50 1 ⟨22, 2, 1⟩ (.obj 7)) = .ok it w1 ∧
      w1.objs 1 = some v1 ∧ capacity v1 = 8) :=
  ⟨after_reachable _, by decide,
    growth_policy world_tight 1 50 2 ⟨3, 3, 20⟩ 7 ⟨22, 2, 1⟩ (after_reachable _) (by decide)
      (by decide) (by decide) (by decide) (by decide)⟩

/-- The part of C6 that holds: in every state that is reached, also after calls
left through an exception of `new`, the size of a container is at most its
capacity and its elements are in a live buffer. -/
theorem size_le_capacity_reached {α : Type} [Inhabited α] {w : World α} (hw : Reachable w)
    {t : Nat} {v : Vector} (hv : w.objs t = some v) :
    size v ≤ capacity v ∧
      (size v ≠ 0 → ∃ cap, w.mem.blk v.values = some cap ∧ size v ≤ cap) := by
  have h := (reachable_wf hw).vec t v hv
  exact ⟨h.le, fun h0 => h.slots (by simp only [size] at h0; omega)⟩

/-- C6 fails on the code: `reserve` assigns `max_sz` before `realloc` calls
`new`, so `v.reserve(1 << 62)` on `{1, 2, 3}`, which `new` refuses whatever the
allocator answers, leaves the capacity at `2^62` over the buffer of 6 slots.
The caller catches the exception and appends three elements, which fills the
buffer. The next `push_back` finds `6 < 2^62`, does not grow, and stores at
index 6, which is not below the length of the buffer in use; so does an
`insert`. The store is outside the buffer: the call has no defined outcome. -/
theorem write_past_buffer :
    Reachable world123 ∧ world123.objs 1 = some ⟨3, 6, 10⟩ ∧
    world123.mem.blk 10 = some 6 ∧
    (∀ a : Nat, ∃ w1, world123.call 1 (reserve a (2 ^ 62)) = .bad_alloc w1 ∧
      w1.objs 1 = some ⟨3, 2 ^ 62, 10⟩ ∧ w1.mem.blk 10 = some 6) ∧
    Reachable world_filled ∧ world_filled.objs 1 = some ⟨6, 2 ^ 62, 10⟩ ∧
    world_filled.mem.blk 10 = some 6 ∧
    size ⟨6, 2 ^ 62, 10⟩ < capacity ⟨6, 2 ^ 62, 10⟩ ∧
    (∀ a x : Nat, world_filled.call 1 (push_back a x) = .ub) ∧
    (∀ a x : Nat, world_filled.call 1 (insert a 1 ⟨10, 0, 1⟩ (.obj x)) = .ub) := by
  have h123 : world123.objs 1 = some ⟨3, 6, 10⟩ := by decide
  refine ⟨after_reachable _, h123, by decide, ?_, after_reachable _, by decide, by decide,
    by decide, fun _ _ => rfl, fun _ _ => rfl⟩
  intro a
  refine ⟨_, call_bad h123 (reserve_bad a (2 ^ 62) (by decide) (by decide)
    (Or.inr (by decide))), put_objs _ _ _, ?_⟩
  show world123.mem.blk 10 = some 6
  decide

/-- C8: on a reachable state, both forms of `operator[]` throw for an index at
or beyond the size; for an index below the size both return the reference to
the slot that holds the element at that index, which is an initialised element
of the container, and a value stored through the reference of the mutable form
is the element at that index afterwards, the others being unchanged. -/
theorem bounds_checked_access {α : Type} [Inhabited α] (w : World α) (this i : Nat)
    (v : Vector) (hw : Reachable w) (hthis : w.objs this = some v) :
    (size v ≤ i →
      w.call this (index_mut i) = .throw .index_out_of_bounds w ∧
      w.call this (index_const i) = .throw .index_out_of_bounds w) ∧
    (i < size v →
      ∃ r e,
        w.call this (index_mut i) = .ok r w ∧
        w.call this (index_const i) = .ok r w ∧
        w.mem.read r = some e ∧
        (contents w.mem v)[i]? = some (some e) ∧
        ∀ x, ∃ w1,
          write_through x (w.call this (index_mut i)) = .ok () w1 ∧
          w1.objs this = some v ∧
          w1.call this (index_const i) = .ok r w1 ∧
          w1.mem.read r = some x ∧
          contents w1.mem v = (contents w.mem v).set i (some x)) := by
  have hwf := reachable_wf hw
  have hv := hwf.vec this v hthis
  have hself := put_self hthis
  simp only [size]
  constructor
  · intro hge
    have h1 : index_mut i v w.mem = .throw .index_out_of_bounds (v, w.mem) := by
      simp only [index_mut, ge_iff_le, if_pos hge]
    have h2 : index_const i v w.mem = .throw .index_out_of_bounds (v, w.mem) := by
      simp only [index_const, ge_iff_le, if_pos hge]
    rw [call_throw hthis h1, call_throw hthis h2, hself]
    exact ⟨rfl, rfl⟩
  · intro hlt
    have hnge : ¬ i ≥ v.sz := by omega
    have h1 : index_mut i v w.mem = .ok (v.values + i) (v, w.mem) := by
      simp only [index_mut, if_neg hnge]
    have h2 : ∀ m1 : Mem α, index_const i v m1 = .ok (v.values + i) (v, m1) := by
      intro m1
      simp only [index_const, if_neg hnge]
    obtain ⟨cap, hl, hcap⟩ := hv.slots (by omega)
    have hsome := hwf.mem.cells _ _ i hl (by omega)
    obtain ⟨e, he⟩ := Option.isSome_iff_exists.mp hsome
    refine ⟨v.values + i, e, ?_, ?_, he, ?_, fun x => ?_⟩
    · rw [call_ok hthis h1, hself]
    · rw [call_ok hthis (h2 w.mem), hself]
    · rw [contents_getElem?, if_pos hlt, he]
    · obtain ⟨m1, hwr⟩ := write_of_isSome x hsome
      obtain ⟨_, hc, _⟩ := write_eq_some hwr
      have hobj : (⟨w.objs, m1⟩ : World α).objs this = some v := hthis
      refine ⟨⟨w.objs, m1⟩, ?_, hthis, ?_, ?_, ?_⟩
      · rw [call_ok hthis h1, hself]
        simp only [write_through, hwr]
      · rw [call_ok hobj (h2 m1), put_self hobj]
      · show m1.cell (v.values + i) = some x
        rw [hc, if_pos rfl]
      · apply List.ext_getElem?
        intro j
        rw [contents_getElem?, List.getElem?_set, contents_getElem?]
        show (if j < v.sz then some (m1.cell (v.values + j)) else none) = _
        rw [hc, contents_length]
        by_cases hj : i = j
        · subst hj
          simp [hlt]
        · have hne : ¬ (v.values + j = v.values + i) := by omega
          simp [hj, hne]

theorem bounds_checked_access_witness :
    Reachable world123 ∧ world123.objs 1 = some ⟨3, 6, 10⟩ ∧
    (world123.call 1 (index_mut 3) = .throw .index_out_of_bounds world123) ∧
    ∃ r, world123.call 1 (index_const 2) = .ok r world123 ∧ world123.mem.read r = some 3 := by
  refine ⟨after_reachable _, by decide, ?_, ?_⟩
  · exact ((bounds_checked_access world123 1 3 ⟨3, 6, 10⟩ (after_reachable _)
      (by decide)).1 (by decide)).1
  · obtain ⟨r, e, _, h2, h3, h4, _⟩ := (bounds_checked_access world123 1 2 ⟨3, 6, 10⟩
      (after_reachable _) (by decide)).2 (by decide)
    refine ⟨r, h2, ?_⟩
    rw [h3]
    have h5 : (contents world123.mem ⟨3, 6, 10⟩)[2]? = some (some 3) := by decide
    rw [h4] at h5
    simpa using h5

/-- C9: on a reachable state, the container copy-constructed from `C` (as a new
object, the allocator answering with an unused address) has the size, the
capacity and the elements of `C`, and `C` is as before; whatever operations
are then applied to the copy, `C` keeps its size, capacity, buffer and
elements. The same holds for the target of an assignment `a = C`, `a` being
another container. -/
theorem copy_round_trip {α : Type} [Inhabited α] (w : World α) (src a : Nat) (v : Vector)
    (hw : Reachable w) (hsrc : w.objs src = some v)
    (hf : w.mem.fresh a (capacity v) = true) :
    (∀ d, d ≠ 0 → w.objs d = none →
      ∃ w1 c, exec w (.ctor_copy d a src) = .ok () w1 ∧ w1.objs d = some c ∧
        size c = size v ∧ capacity c = capacity v ∧
        contents w1.mem c = contents w.mem v ∧
        w1.objs src = some v ∧ contents w1.mem v = contents w.mem v ∧
        ∀ ops w2, (∀ op, op ∈ ops → op.this = d) → run w1 ops = some w2 →
          w2.objs src = some v ∧ contents w2.mem v = contents w.mem v) ∧
    (∀ d t, d ≠ src → w.objs d = some t →
      ∃ w1 c, exec w (.assign d a src) = .ok () w1 ∧ w1.objs d = some c ∧
        size c = size v ∧ capacity c = capacity v ∧
        contents w1.mem c = contents w.mem v ∧
        w1.objs src = some v ∧ contents w1.mem v = contents w.mem v ∧
        ∀ ops w2, (∀ op, op ∈ ops → op.this = d) → run w1 ops = some w2 →
          w2.objs src = some v ∧ contents w2.mem v = contents w.mem v) := by
  have hwf := reachable_wf hw
  have hv := hwf.vec src v hsrc
  simp only [size, capacity] at hf ⊢
  constructor
  · intro d h0 hnone
    have hne : src ≠ d := by
      intro e
      rw [e, hnone] at hsrc
      simp at hsrc
    obtain ⟨m1, h1, hfr, _, hc, _⟩ := ctor_copy_spec a hwf.mem hv hf
    have hex : exec w (.ctor_copy d a src) = .ok () (w.put d (⟨v.sz, v.max_sz, a⟩, m1)) := by
      simp only [exec, hsrc]
      exact construct_ok h0 hnone h1
    have hwf1 : WF (w.put d (⟨v.sz, v.max_sz, a⟩, m1)) := wf_new_put hwf h0 hfr
    have hk1 : Keeps w d (w.put d (⟨v.sz, v.max_sz, a⟩, m1)) :=
      put_keep hwf (fun _ _ _ _ hz => hz) hfr
    obtain ⟨ho1, hc1⟩ := keeps_contents hk1 hne hsrc
    refine ⟨_, ⟨v.sz, v.max_sz, a⟩, hex, put_objs _ _ _, rfl, rfl, contents_congr rfl hc, ho1,
      hc1, ?_⟩
    intro ops w2 hall hrun
    obtain ⟨ho2, hc2⟩ := keeps_contents (run_keep d ops _ _ hwf1 hall hrun) hne ho1
    exact ⟨ho2, by rw [hc2, hc1]⟩
  · intro d t hne0 hd
    have hne : src ≠ d := fun e => hne0 e.symm
    obtain ⟨m1, h1, hfr, _, hc, _⟩ := assign_spec a hwf.mem (hwf.vec d t hd) hv hf
    have hex : exec w (.assign d a src) = .ok () (w.put d (⟨v.sz, v.max_sz, a⟩, m1)) := by
      simp only [exec, World.assign, hsrc]
      exact call_ok hd h1
    have hwf1 : WF (w.put d (⟨v.sz, v.max_sz, a⟩, m1)) := wf_call_put hwf hd hfr
    have hk1 : Keeps w d (w.put d (⟨v.sz, v.max_sz, a⟩, m1)) :=
      put_keep hwf (fun t2 v2 hne2 h2 hz => hwf.sep t2 v2 d t h2 hd hne2 hz) hfr
    obtain ⟨ho1, hc1⟩ := keeps_contents hk1 hne hsrc
    refine ⟨_, ⟨v.sz, v.max_sz, a⟩, hex, put_objs _ _ _, rfl, rfl, contents_congr rfl hc, ho1,
      hc1, ?_⟩
    intro ops w2 hall hrun
    obtain ⟨ho2, hc2⟩ := keeps_contents (run_keep d ops _ _ hwf1 hall hrun) hne ho1
    exact ⟨ho2, by rw [hc2, hc1]⟩

theorem copy_round_trip_witness :
    Reachable world123 ∧ world123.objs 1 = some ⟨3, 6, 10⟩ ∧
    ∃ w1 c, exec world123 (.ctor_copy 2 60 1) = .ok () w1 ∧ w1.objs 2 = some c ∧
      size c = 3 ∧ capacity c = 6 ∧ contents w1.mem c = [some 1, some 2, some 3] ∧
      ∀ w2, run w1 [.push_back 2 80 9, .erase 2 ⟨60, 0, 2⟩, .index_write 2 0 5, .clear 2] =
          some w2 →
        w2.objs 1 = some ⟨3, 6, 10⟩ ∧
        contents w2.mem ⟨3, 6, 10⟩ = [some 1, some 2, some 3] := by
  refine ⟨after_reachable _, by decide, ?_⟩
  obtain ⟨w1, c, h1, h2, h3, h4, h5, _, _, h8⟩ :=
    (copy_round_trip world123 1 60 ⟨3, 6, 10⟩ (after_reachable _) (by decide) (by decide)).1 2
      (by decide) (by decide)
  refine ⟨w1, c, h1, h2, h3, h4, by rw [h5]; decide, fun w2 hrun => ?_⟩
  obtain ⟨h9, h10⟩ := h8 _ w2 (by decide) hrun
  exact ⟨h9, by rw [h10]; decide⟩

/-- C10: on a reachable state, for an iterator of either kind whose
back-reference is null or refers to a live container, `operator*` and
`operator->` return normally if and only if the validity predicate of the
specification holds, and throw otherwise, leaving the state as it was; on
success the reference returned is the one `operator[]` returns for the offset,
that is the container's element at that offset. The buffer test that only the
mutable iterator makes never changes the result of the check, and dereferencing
`end()` throws. -/
theorem deref_validity {α : Type} [Inhabited α] (w : World α) (ptr shift tied : Nat)
    (hw : Reachable w) (hlive : tied = 0 ∨ (w.objs tied).isSome) :
    ((∃ r w1, (Iterator.mk ptr shift tied).deref w = .ok r w1) ↔
      StructurallyValid w ptr shift tied) ∧
    ((∃ r w1, (Iterator.mk ptr shift tied).arrow w = .ok r w1) ↔
      StructurallyValid w ptr shift tied) ∧
    ((∃ r w1, (ConstIterator.mk ptr shift tied).deref w = .ok r w1) ↔
      StructurallyValid w ptr shift tied) ∧
    ((∃ r w1, (ConstIterator.mk ptr shift tied).arrow w = .ok r w1) ↔
      StructurallyValid w ptr shift tied) ∧
    (¬ StructurallyValid w ptr shift tied →
      (Iterator.mk ptr shift tied).deref w = .throw .bad_iterator_access w ∧
      (Iterator.mk ptr shift tied).arrow w = .throw .bad_iterator_access w ∧
      (ConstIterator.mk ptr shift tied).deref w = .throw .bad_const_iterator_access w ∧
      (ConstIterator.mk ptr shift tied).arrow w = .throw .bad_const_iterator_access w) ∧
    (∀ v, w.objs tied = some v → StructurallyValid w ptr shift tied →
      (Iterator.mk ptr shift tied).deref w = .ok (v.values + shift) w ∧
      (Iterator.mk ptr shift tied).arrow w = .ok (v.values + shift) w ∧
      (ConstIterator.mk ptr shift tied).deref w = .ok (v.values + shift) w ∧
      (ConstIterator.mk ptr shift tied).arrow w = .ok (v.values + shift) w ∧
      w.call tied (index_const shift) = .ok (v.values + shift) w) ∧
    (Iterator.mk ptr shift tied).check_validity w =
      (ConstIterator.mk ptr shift tied).check_validity w ∧
    (∀ v, w.objs tied = some v →
      (end_ tied v).deref w = .throw .bad_iterator_access w ∧
      (end_const tied v).deref w = .throw .bad_const_iterator_access w) := by
  have hwf := reachable_wf hw
  have heq : (Iterator.mk ptr shift tied).check_validity w =
      (ConstIterator.mk ptr shift tied).check_validity w :=
    const_check_validity_eq hwf ⟨ptr, shift, tied⟩
  obtain ⟨hyes, hno⟩ := const_check_validity_cases (w := w) ptr shift tied hlive
  have hthrow : ¬ StructurallyValid w ptr shift tied →
      (Iterator.mk ptr shift tied).deref w = .throw .bad_iterator_access w ∧
      (Iterator.mk ptr shift tied).arrow w = .throw .bad_iterator_access w ∧
      (ConstIterator.mk ptr shift tied).deref w = .throw .bad_const_iterator_access w ∧
      (ConstIterator.mk ptr shift tied).arrow w = .throw .bad_const_iterator_access w := by
    intro hn
    have h := hno hn
    simp only [Iterator.deref, Iterator.arrow, ConstIterator.deref, ConstIterator.arrow, heq, h,
      and_self]
  have hok : StructurallyValid w ptr shift tied →
      (Iterator.mk ptr shift tied).deref w = .ok ptr w ∧
      (Iterator.mk ptr shift tied).arrow w = .ok ptr w ∧
      (ConstIterator.mk ptr shift tied).deref w = .ok ptr w ∧
      (ConstIterator.mk ptr shift tied).arrow w = .ok ptr w := by
    intro hy
    have h := hyes hy
    simp only [Iterator.deref, Iterator.arrow, ConstIterator.deref, ConstIterator.arrow, heq, h,
      and_self]
  have hiff : ∀ (res : Res (World α) Nat) (e : Exn),
      (StructurallyValid w ptr shift tied → res = .ok ptr w) →
      (¬ StructurallyValid w ptr shift tied → res = .throw e w) →
      ((∃ r w1, res = .ok r w1) ↔ StructurallyValid w ptr shift tied) := by
    intro res e h1 h2
    constructor
    · rintro ⟨r, w1, h⟩
      by_contra hn
      rw [h2 hn] at h
      exact Res.noConfusion h
    · intro hy
      exact ⟨ptr, w, h1 hy⟩
  refine ⟨hiff _ _ (fun h => (hok h).1) (fun h => (hthrow h).1),
    hiff _ _ (fun h => (hok h).2.1) (fun h => (hthrow h).2.1),
    hiff _ _ (fun h => (hok h).2.2.1) (fun h => (hthrow h).2.2.1),
    hiff _ _ (fun h => (hok h).2.2.2) (fun h => (hthrow h).2.2.2), hthrow, ?_, heq, ?_⟩
  · intro v hv hy
    obtain ⟨v1, _, hv1, _, hlt, hp⟩ := hy
    rw [hv] at hv1
    simp only [Option.some.injEq] at hv1
    subst hv1
    have h := hok ⟨v, by assumption, hv, by assumption, hlt, hp⟩
    rw [← hp]
    refine ⟨h.1, h.2.1, h.2.2.1, h.2.2.2, ?_⟩
    have hi : index_const shift v w.mem = .ok (v.values + shift) (v, w.mem) := by
      simp only [size] at hlt
      have : ¬ shift ≥ v.sz := by omega
      simp only [index_const, if_neg this]
    rw [call_ok hv hi, put_self hv, hp]
  · intro v hv
    have h0 := this_ne_zero hwf hv
    have h1 : (end_ tied v).check_validity w = some false :=
      @check_validity_false_of_shift α w (end_ tied v) v hv (Nat.le_refl _)
    have h2 : (end_const tied v).check_validity w = some false := by
      have := const_check_validity_eq hwf (end_ tied v)
      rw [h1] at this
      exact this.symm
    simp only [Iterator.deref, ConstIterator.deref, h1, h2, and_self]

theorem deref_validity_witness :
    Reachable world123 ∧ (11 = 0 ∨ (world123.objs 1).isSome) ∧
    (Iterator.mk 11 1 1).deref world123 = .ok 11 world123 ∧
    (ConstIterator.mk 11 1 1).deref world123 = .ok 11 world123 ∧
    world123.mem.read 11 = some 2 ∧
    (end_ 1 ⟨3, 6, 10⟩).deref world123 = .throw .bad_iterator_access world123 := by
  obtain ⟨_, _, _, _, _, h6, _, h8⟩ :=
    deref_validity world123 11 1 1 (after_reachable _) (Or.inr (by decide))
  obtain ⟨h9, _, h10, _⟩ := h6 ⟨3, 6, 10⟩ (by decide)
    ⟨⟨3, 6, 10⟩, by decide, by decide, by decide, by decide, by decide⟩
  exact ⟨after_reachable _, Or.inr (by decide), h9, h10, by decide, (h8 ⟨3, 6, 10⟩ (by decide)).1⟩

/-- C11, amended: on a reachable state, take an iterator of either kind that the
container issues in that state, at an offset `k ≤ size` of its current buffer
(`begin()`, `end()`, their increments, the result of `insert` or `erase`).
After a `push_back` or an `insert` on a full container, a `reserve(n)` with
`n > capacity` or a `shrink_to_fit()` with `size < capacity` that returned
normally, the capacity is another one, the buffer, if there was one, is at
another address, and dereferencing that iterator throws. -/
theorem realloc_invalidates {α : Type} [Inhabited α] (w : World α) (this a k : Nat)
    (v : Vector) (hw : Reachable w) (hthis : w.objs this = some v) (hk : k ≤ size v) :
    (∀ x, capacity v ≤ size v → w.mem.fresh a ((size v + 1) * 2) = true →
      ∃ w1 v1, w.call this (push_back a x) = .ok () w1 ∧ w1.objs this = some v1 ∧
        capacity v1 ≠ capacity v ∧ v1.values ≠ v.values ∧
        (Iterator.mk (v.values + k) k this).deref w1 = .throw .bad_iterator_access w1 ∧
        (ConstIterator.mk (v.values + k) k this).deref w1 =
          .throw .bad_const_iterator_access w1) ∧
    (∀ x j, capacity v ≤ size v → w.mem.fresh a ((capacity v + 1) * 2) = true → j ≤ size v →
      ∃ it w1 v1, w.call this (insert a this ⟨v.values + j, j, this⟩ (.obj x)) = .ok it w1 ∧
        w1.objs this = some v1 ∧ capacity v1 ≠ capacity v ∧ v1.values ≠ v.values ∧
        (Iterator.mk (v.values + k) k this).deref w1 = .throw .bad_iterator_access w1 ∧
        (ConstIterator.mk (v.values + k) k this).deref w1 =
          .throw .bad_const_iterator_access w1) ∧
    (∀ n, capacity v < n → w.mem.fresh a n = true →
      ∃ w1 v1, w.call this (reserve a n) = .ok () w1 ∧ w1.objs this = some v1 ∧
        capacity v1 ≠ capacity v ∧ v1.values ≠ v.values ∧
        (Iterator.mk (v.values + k) k this).deref w1 = .throw .bad_iterator_access w1 ∧
        (ConstIterator.mk (v.values + k) k this).deref w1 =
          .throw .bad_const_iterator_access w1) ∧
    (size v < capacity v → (size v ≠ 0 → w.mem.fresh a (size v) = true) →
      ∃ w1 v1, w.call this (shrink_to_fit a) = .ok () w1 ∧ w1.objs this = some v1 ∧
        capacity v1 ≠ capacity v ∧ (v.values ≠ 0 → v1.values ≠ v.values) ∧
        (Iterator.mk (v.values + k) k this).deref w1 = .throw .bad_iterator_access w1 ∧
        (ConstIterator.mk (v.values + k) k this).deref w1 =
          .throw .bad_const_iterator_access w1) := by
  have hwf := reachable_wf hw
  have hv := hwf.vec this v hthis
  have hle := hv.le
  simp only [size, capacity] at hk ⊢
  refine ⟨?_, ?_, ?_, ?_⟩
  · intro x hfull hf
    obtain ⟨v1, m1, h1, _, _, hcap, hval, _⟩ :=
      push_back_spec a x hwf.mem hv (fun h => absurd h (by omega)) (fun _ => hf)
    rw [if_pos hfull] at hcap hval
    have hne := fresh_ne_values hv hf
    refine ⟨_, v1, call_ok hthis h1, put_objs _ _ _, by omega, by rw [hval]; exact hne.symm, ?_⟩
    exact deref_throw_of_stale (put_objs _ _ _) (Or.inl (by simp only; omega))
  · intro x j hfull hf hj
    obtain ⟨cap, p, m2, hcap, hp, _, _, hsome⟩ := insert_spec a this j ⟨v.values + j, j, this⟩
      (CRef.obj x) hwf.mem hv (fun h => absurd h (by omega)) rfl hj (fun _ => hf)
    obtain ⟨m3, h3, _⟩ := hsome x rfl
    rw [if_pos hfull] at hcap hp
    have hne := fresh_ne_values hv hf
    refine ⟨_, _, ⟨v.sz + 1, cap, p⟩, call_ok hthis h3, put_objs _ _ _, by simp only; omega,
      by simp only; rw [hp]; exact hne.symm, ?_⟩
    exact deref_throw_of_stale (put_objs _ _ _) (Or.inl (by simp only; omega))
  · intro n hn hf
    obtain ⟨m1, h1, _⟩ := reserve_grow_spec a n hwf.mem hv hn hf
    have hne := fresh_ne_values hv hf
    refine ⟨_, ⟨v.sz, n, a⟩, call_ok hthis h1, put_objs _ _ _, by simp only; omega,
      hne.symm, ?_⟩
    exact deref_throw_of_stale (put_objs _ _ _) (Or.inl (by simp only; omega))
  · intro hlt hf
    obtain ⟨m1, h1, _⟩ := shrink_spec a hwf.mem hv hlt hf
    refine ⟨_, ⟨v.sz, v.sz, if v.sz = 0 then 0 else a⟩, call_ok hthis h1, put_objs _ _ _,
      by simp only; omega, ?_, ?_⟩
    · intro hz
      simp only
      split_ifs with h0
      · exact hz.symm
      · exact (fresh_ne_values hv (hf h0)).symm
    · by_cases h0 : v.sz = 0
      · exact deref_throw_of_stale (put_objs _ _ _) (Or.inr (by simp only; omega))
      · have hne := fresh_ne_values hv (hf h0)
        exact deref_throw_of_stale (put_objs _ _ _)
          (Or.inl (by simp only [if_neg h0]; omega))

theorem realloc_invalidates_witness :
    Reachable world_tight ∧ world_tight.objs 1 = some ⟨3, 3, 20⟩ ∧
    (Iterator.mk 21 1 1).deref world_tight = .ok 21 world_tight ∧
    ∃ w1 v1, world_tight.call 1 (push_back 50 7) = .ok () w1 ∧ w1.objs 1 = some v1 ∧
      capacity v1 ≠ 3 ∧
      (Iterator.mk 21 1 1).deref w1 = .throw .bad_iterator_access w1 ∧
      (ConstIterator.mk 21 1 1).deref w1 = .throw .bad_const_iterator_access w1 := by
  refine ⟨after_reachable _, by decide, by rfl, ?_⟩
  obtain ⟨w1, v1, h1, h2, h3, _, h5, h6⟩ :=
    (realloc_invalidates world_tight 1 50 1 ⟨3, 3, 20⟩ (after_reachable _) (by decide)
      (by decide)).1 7 (by decide) (by decide)
  exact ⟨w1, v1, h1, h2, h3, h5, h6⟩

/-- C11 as stated fails: an iterator issued before an earlier reallocation is
valid again when the allocator reuses the address. The iterator `begin() + 1`
of `{1, 2, 3}` (buffer at 10) throws after `shrink_to_fit()` moved the elements
to the buffer at 20; `reserve(6)` then changes the capacity from 3 to 6 and
allocates, while the buffer at 20 is live, the buffer at 10 again; the new
buffer differs from the old one, and the iterator dereferences. -/
theorem stale_iterator_valid_again :
    Reachable world123 ∧ world123.objs 1 = some ⟨3, 6, 10⟩ ∧
    (begin 1 ⟨3, 6, 10⟩).inc_times world123 1 = some ⟨11, 1, 1⟩ ∧
    (Iterator.mk 11 1 1).deref world123 = .ok 11 world123 ∧
    Reachable world_tight ∧ world_tight.objs 1 = some ⟨3, 3, 20⟩ ∧
    (Iterator.mk 11 1 1).deref world_tight = .throw .bad_iterator_access world_tight ∧
    world_tight.mem.blk 20 = some 3 ∧ world_tight.mem.fresh 10 6 = true ∧
    (∃ w1, world_tight.call 1 (reserve 10 6) = .ok () w1 ∧
      w1.objs 1 = some ⟨3, 6, 10⟩ ∧
      capacity ⟨3, 6, 10⟩ ≠ capacity ⟨3, 3, 20⟩ ∧
      (⟨3, 6, 10⟩ : Vector).values ≠ (⟨3, 3, 20⟩ : Vector).values ∧
      (Iterator.mk 11 1 1).deref w1 = .ok 11 w1 ∧
      (ConstIterator.mk 11 1 1).deref w1 = .ok 11 w1 ∧
      w1.mem.read 11 = some 2) :=
  ⟨after_reachable _, by decide, by decide, by rfl, after_reachable _, by decide, by rfl,
    by decide, by decide, ⟨_, rfl, by decide, by decide, by decide, by rfl, by rfl, by decide⟩⟩

/-- C13: on every state, reachable or not, `clear()` on a live container
returns normally with the size 0 and
with the capacity, the buffer and the free store as they were; afterwards
`empty()` is true, `begin()` compares equal to `end()`, and dereferencing any
iterator of either kind tied to the container throws, whatever its position
and offset. -/
theorem clear_resets_size {α : Type} (w : World α) (this : Nat) (v : Vector)
    (hthis : w.objs this = some v) :
    ∃ w1 v1, w.call this clear = .ok () w1 ∧ w1.objs this = some v1 ∧
      size v1 = 0 ∧ capacity v1 = capacity v ∧ v1.values = v.values ∧ w1.mem = w.mem ∧
      empty v1 = true ∧
      (begin this v1).eq (end_ this v1).to_const = true ∧
      (begin_const this v1).eq (end_const this v1) = true ∧
      ∀ ptr shift,
        (Iterator.mk ptr shift this).deref w1 = .throw .bad_iterator_access w1 ∧
        (ConstIterator.mk ptr shift this).deref w1 = .throw .bad_const_iterator_access w1 := by
  have h1 : clear v w.mem = .ok () (⟨0, v.max_sz, v.values⟩, w.mem) := rfl
  refine ⟨_, ⟨0, v.max_sz, v.values⟩, call_ok hthis h1, put_objs _ _ _, rfl, rfl, rfl, rfl, rfl,
    ?_, ?_, ?_⟩
  · simp [Iterator.eq, ConstIterator.eq, Iterator.to_const, begin, end_]
  · simp [ConstIterator.eq, begin_const, end_const]
  · intro ptr shift
    exact deref_throw_of_stale (put_objs _ _ _) (Or.inr (Nat.zero_le _))

theorem clear_resets_size_witness :
    Reachable world123 ∧ world123.objs 1 = some ⟨3, 6, 10⟩ ∧
    (Iterator.mk 11 1 1).deref world123 = .ok 11 world123 ∧
    ∃ w1 v1, world123.call 1 clear = .ok () w1 ∧ w1.objs 1 = some v1 ∧
      size v1 = 0 ∧ capacity v1 = 6 ∧ v1.values = 10 ∧
      (Iterator.mk 11 1 1).deref w1 = .throw .bad_iterator_access w1 := by
  obtain ⟨w1, v1, h1, h2, h3, h4, h5, _, _, _, _, h10⟩ :=
    clear_resets_size world123 1 ⟨3, 6, 10⟩ (by decide)
  exact ⟨after_reachable _, by decide, by rfl, w1, v1, h1, h2, h3, h4, h5, (h10 11 1).1⟩

/-- C14: on a reachable state, for an iterator of either kind whose
back-reference is null or refers to a live container, pre- and post-increment
always complete; when the iterator is valid its position and offset are each
one more afterwards, when it is not it is unchanged, and post-increment returns
the iterator as it was before the call. For a live container, `begin()`
incremented `k` times is the iterator at offset `min k size`; it compares equal
to `end()` exactly when `k ≥ size`, and for `k < size` it dereferences to the
element at index `k`. -/
theorem increment_semantics {α : Type} [Inhabited α] (w : World α) (hw : Reachable w) :
    (∀ ptr shift tied, (tied = 0 ∨ (w.objs tied).isSome) →
      (StructurallyValid w ptr shift tied →
        (Iterator.mk ptr shift tied).pre_inc w =
          some (⟨ptr + 1, shift + 1, tied⟩, ⟨ptr + 1, shift + 1, tied⟩) ∧
        (Iterator.mk ptr shift tied).post_inc w =
          some (⟨ptr + 1, shift + 1, tied⟩, ⟨ptr, shift, tied⟩) ∧
        (ConstIterator.mk ptr shift tied).pre_inc w =
          some (⟨ptr + 1, shift + 1, tied⟩, ⟨ptr + 1, shift + 1, tied⟩) ∧
        (ConstIterator.mk ptr shift tied).post_inc w =
          some (⟨ptr + 1, shift + 1, tied⟩, ⟨ptr, shift, tied⟩)) ∧
      (¬ StructurallyValid w ptr shift tied →
        (Iterator.mk ptr shift tied).pre_inc w = some (⟨ptr, shift, tied⟩, ⟨ptr, shift, tied⟩) ∧
        (Iterator.mk ptr shift tied).post_inc w = some (⟨ptr, shift, tied⟩, ⟨ptr, shift, tied⟩) ∧
        (ConstIterator.mk ptr shift tied).pre_inc w =
          some (⟨ptr, shift, tied⟩, ⟨ptr, shift, tied⟩) ∧
        (ConstIterator.mk ptr shift tied).post_inc w =
          some (⟨ptr, shift, tied⟩, ⟨ptr, shift, tied⟩))) ∧
    (∀ this v k, w.objs this = some v →
      (begin this v).inc_times w k =
        some ⟨v.values + min k (size v), min k (size v), this⟩ ∧
      (begin_const this v).inc_times w k =
        some ⟨v.values + min k (size v), min k (size v), this⟩ ∧
      ((Iterator.mk (v.values + min k (size v)) (min k (size v)) this).eq
          (end_ this v).to_const = true ↔ k ≥ size v) ∧
      ((ConstIterator.mk (v.values + min k (size v)) (min k (size v)) this).eq
          (end_const this v) = true ↔ k ≥ size v) ∧
      (k < size v →
        (Iterator.mk (v.values + min k (size v)) (min k (size v)) this).deref w =
          .ok (v.values + k) w ∧
        w.call this (index_const k) = .ok (v.values + k) w)) := by
  have hwf := reachable_wf hw
  constructor
  · intro ptr shift tied hlive
    obtain ⟨hyes, hno⟩ := check_validity_cases hwf ptr shift tied hlive
    constructor
    · intro h
      obtain ⟨h1, h2⟩ := hyes h
      simp only [Iterator.pre_inc, Iterator.post_inc, Iterator.advance, ConstIterator.pre_inc,
        ConstIterator.post_inc, ConstIterator.advance, h1, h2, and_self]
    · intro h
      obtain ⟨h1, h2⟩ := hno h
      simp only [Iterator.pre_inc, Iterator.post_inc, Iterator.advance, ConstIterator.pre_inc,
        ConstIterator.post_inc, ConstIterator.advance, h1, h2, and_self]
  · intro this v k hthis
    obtain ⟨i1, i2⟩ := inc_times_from hwf hthis k 0 (Nat.zero_le _)
    simp only [Nat.zero_add] at i1 i2
    simp only [size]
    refine ⟨i1, i2, ?_, ?_, ?_⟩
    · simp only [Iterator.eq, ConstIterator.eq, Iterator.to_const, end_, beq_iff_eq]
      omega
    · simp only [ConstIterator.eq, end_const, beq_iff_eq]
      omega
    · intro hlt
      have e : min k v.sz = k := by omega
      rw [e]
      have hlive : this = 0 ∨ (w.objs this).isSome := Or.inr (by rw [hthis]; rfl)
      obtain ⟨hyes, _⟩ := check_validity_cases hwf (v.values + k) k this hlive
      obtain ⟨h1, _⟩ := hyes (valid_at_offset hwf hthis hlt)
      refine ⟨by simp only [Iterator.deref, h1], ?_⟩
      have hi : index_const k v w.mem = .ok (v.values + k) (v, w.mem) := by
        have : ¬ k ≥ v.sz := by omega
        simp only [index_const, if_neg this]
      rw [call_ok hthis hi, put_self hthis]

theorem increment_semantics_witness :
    Reachable world123 ∧ world123.objs 1 = some ⟨3, 6, 10⟩ ∧
    (begin 1 ⟨3, 6, 10⟩).inc_times world123 2 = some ⟨12, 2, 1⟩ ∧
    (begin 1 ⟨3, 6, 10⟩).inc_times world123 5 = some ⟨13, 3, 1⟩ ∧
    (Iterator.mk 13 3 1).eq (end_ 1 ⟨3, 6, 10⟩).to_const = true ∧
    (Iterator.mk 12 2 1).post_inc world123 = some (⟨13, 3, 1⟩, ⟨12, 2, 1⟩) ∧
    (Iterator.mk 13 3 1).pre_inc world123 = some (⟨13, 3, 1⟩, ⟨13, 3, 1⟩) := by
  obtain ⟨h1, h2⟩ := increment_semantics world123 (after_reachable _)
  obtain ⟨a1, _⟩ := h2 1 ⟨3, 6, 10⟩ 2 (by decide)
  obtain ⟨b1, _, b3, _⟩ := h2 1 ⟨3, 6, 10⟩ 5 (by decide)
  obtain ⟨c1, _⟩ := h1 12 2 1 (Or.inr (by decide))
  obtain ⟨_, c2⟩ := h1 13 3 1 (Or.inr (by decide))
  exact ⟨after_reachable _, by decide, a1, b1, b3.mpr (by decide),
    (c1 ⟨⟨3, 6, 10⟩, by decide, by decide, by decide, by decide, by decide⟩).2.1,
    (c2 (by
      rintro ⟨v1, _, hv1, _, hlt, _⟩
      have e : world123.objs 1 = some ⟨3, 6, 10⟩ := by decide
      rw [e] at hv1
      simp only [Option.some.injEq] at hv1
      subst hv1
      exact absurd hlt (by decide))).1⟩

/-- C15, amended: on a reachable state, `reserve(n)` and `shrink_to_fit()`
return normally whenever they do not reallocate or the allocator answers the
request with an unused address; the size and the elements are then as before,
the capacity is `max capacity n` after `reserve(n)` and the size after
`shrink_to_fit()`; when the capacity already is at least `n`, respectively
already equals the size, the call changes nothing at all; and when the call
reallocates, the capacity afterwards is the length of the buffer, which is the
one just allocated (null for `shrink_to_fit()` at size 0), and the former
buffer is released. When the call has to reallocate and `new` throws, it is
left through that exception, with the size and the elements as they were. -/
theorem reserve_shrink_frame {α : Type} [Inhabited α] (w : World α) (this a : Nat)
    (v : Vector) (hw : Reachable w) (hthis : w.objs this = some v) :
    (∀ n, (capacity v < n → w.mem.fresh a n = true) →
      ∃ w1 v1, w.call this (reserve a n) = .ok () w1 ∧ w1.objs this = some v1 ∧
        size v1 = size v ∧ contents w1.mem v1 = contents w.mem v ∧
        capacity v1 = max (capacity v) n ∧
        (n ≤ capacity v → w1 = w) ∧
        (capacity v < n → v1.values = a ∧ w.mem.blk a = none ∧
          w1.mem.blk v1.values = some (capacity v1) ∧ w1.mem.blk v.values = none)) ∧
    (∀ n, capacity v < n → (a = 0 ∨ ALLOC_MAX < n) →
      ∃ w1 v1, w.call this (reserve a n) = .bad_alloc w1 ∧ w1.objs this = some v1 ∧
        size v1 = size v ∧ contents w1.mem v1 = contents w.mem v) ∧
    ((size v < capacity v → size v ≠ 0 → w.mem.fresh a (size v) = true) →
      ∃ w1 v1, w.call this (shrink_to_fit a) = .ok () w1 ∧ w1.objs this = some v1 ∧
        size v1 = size v ∧ contents w1.mem v1 = contents w.mem v ∧
        capacity v1 = size v ∧
        (capacity v = size v → w1 = w) ∧
        (size v < capacity v →
          v1.values = (if size v = 0 then 0 else a) ∧
          (size v ≠ 0 → w.mem.blk a = none ∧ w1.mem.blk v1.values = some (capacity v1)) ∧
          w1.mem.blk v.values = none)) ∧
    (size v < capacity v → size v ≠ 0 → (a = 0 ∨ ALLOC_MAX < size v) →
      ∃ w1 v1, w.call this (shrink_to_fit a) = .bad_alloc w1 ∧ w1.objs this = some v1 ∧
        size v1 = size v ∧ contents w1.mem v1 = contents w.mem v) := by
  have hwf := reachable_wf hw
  have hv := hwf.vec this v hthis
  have hle := hv.le
  simp only [size, capacity]
  refine ⟨?_, ?_, ?_, ?_⟩
  · intro n hf
    by_cases hn : v.max_sz < n
    · obtain ⟨m1, h1, _, hok, hc, hba, ha, hrel⟩ := reserve_grow_spec a n hwf.mem hv hn (hf hn)
      refine ⟨_, ⟨v.sz, n, a⟩, call_ok hthis h1, put_objs _ _ _, rfl, contents_congr rfl hc, ?_,
        fun h => by omega, fun _ => ⟨rfl, hba, hok.live ha, hrel⟩⟩
      simp only
      omega
    · refine ⟨w, v, ?_, hthis, rfl, rfl, by omega, fun _ => rfl, fun h => absurd h hn⟩
      rw [call_ok hthis (reserve_noop a n hn), put_self hthis]
  · intro n hn hbad
    exact ⟨_, _, call_bad hthis (reserve_bad a n hle hn hbad), put_objs _ _ _, rfl, rfl⟩
  · intro hf
    by_cases hn : v.sz < v.max_sz
    · obtain ⟨m1, h1, _, hok, hc, hx, hrel⟩ := shrink_spec a hwf.mem hv hn (hf hn)
      refine ⟨_, ⟨v.sz, v.sz, if v.sz = 0 then 0 else a⟩, call_ok hthis h1, put_objs _ _ _, rfl,
        contents_congr rfl hc, rfl, fun h => by omega, fun _ => ⟨rfl, fun h0 => ?_, hrel⟩⟩
      refine ⟨(hx h0).1, hok.live ?_⟩
      simp only [if_neg h0]
      exact (hx h0).2
    · refine ⟨w, v, ?_, hthis, rfl, rfl, by omega, fun _ => rfl, fun h => absurd h hn⟩
      rw [call_ok hthis (shrink_noop a hn), put_self hthis]
  · intro hn h0 hbad
    exact ⟨_, _, call_bad hthis (shrink_bad a hn h0 hbad), put_objs _ _ _, rfl, rfl⟩

theorem reserve_shrink_frame_witness :
    Reachable world123 ∧ world123.objs 1 = some ⟨3, 6, 10⟩ ∧
    (∃ w1 v1, world123.call 1 (reserve 50 9) = .ok () w1 ∧ w1.objs 1 = some v1 ∧
      size v1 = 3 ∧ contents w1.mem v1 = [some 1, some 2, some 3] ∧ capacity v1 = 9 ∧
      v1.values = 50 ∧ w1.mem.blk 50 = some 9 ∧ w1.mem.blk 10 = none) ∧
    (∃ w1 v1, world123.call 1 (reserve 50 4) = .ok () w1 ∧ w1.objs 1 = some v1 ∧
      capacity v1 = 6 ∧ w1 = world123) ∧
    (∃ w1 v1, world123.call 1 (shrink_to_fit 50) = .ok () w1 ∧ w1.objs 1 = some v1 ∧
      size v1 = 3 ∧ contents w1.mem v1 = [some 1, some 2, some 3] ∧ capacity v1 = 3 ∧
      v1.values = 50 ∧ w1.mem.blk 50 = some 3 ∧ w1.mem.blk 10 = none) := by
  obtain ⟨h1, _, h2, _⟩ :=
    reserve_shrink_frame world123 1 50 ⟨3, 6, 10⟩ (after_reachable _) (by decide)
  obtain ⟨w1, v1, a1, a2, a3, a4, a5, _, a7⟩ := h1 9 (by decide)
  obtain ⟨w2, v2, b1, b2, _, _, b5, b6, _⟩ := h1 4 (by decide)
  obtain ⟨w3, v3, c1, c2, c3, c4, c5, _, c7⟩ := h2 (by decide)
  obtain ⟨a8, _, a9, a10⟩ := a7 (by decide)
  obtain ⟨c8, c9, c10⟩ := c7 (by decide)
  refine ⟨after_reachable _, by decide, ⟨w1, v1, a1, a2, a3, by rw [a4]; decide, a5, a8, ?_, a10⟩,
    ⟨w2, v2, b1, b2, b5, b6 (by decide)⟩,
    ⟨w3, v3, c1, c2, c3, by rw [c4]; decide, c5, c8, ?_, c10⟩⟩
  · rw [← a8, a9, a5]
    rfl
  · have := (c9 (by decide)).2
    rw [c8, c5] at this
    exact this

/-- C15 as stated fails: `v.reserve(1 << 62)` on `{1, 2, 3}` does not return
normally, whatever the allocator answers, since `new` refuses an array of that
length; and `shrink_to_fit()` does not return normally when the allocator has
no memory (answer `0`). Both calls are left through the exception of `new`,
after `max_sz` was assigned. -/
theorem reserve_beyond_alloc_max :
    Reachable world123 ∧ world123.objs 1 = some ⟨3, 6, 10⟩ ∧
    (∀ a : Nat, ∃ w1, world123.call 1 (reserve a (2 ^ 62)) = .bad_alloc w1 ∧
      w1.objs 1 = some ⟨3, 2 ^ 62, 10⟩) ∧
    (∃ w1, world123.call 1 (shrink_to_fit 0) = .bad_alloc w1 ∧
      w1.objs 1 = some ⟨3, 3, 10⟩ ∧ w1.mem.blk 10 = some 6) := by
  have h123 : world123.objs 1 = some ⟨3, 6, 10⟩ := by decide
  refine ⟨after_reachable _, h123, fun a => ?_, ⟨_, rfl, by decide, by decide⟩⟩
  exact ⟨_, call_bad h123 (reserve_bad a (2 ^ 62) (by decide) (by decide)
    (Or.inr (by decide))), put_objs _ _ _⟩

theorem push_all_growth {α : Type} [Inhabited α] (this : Nat) :
    ∀ (l : List (Nat × α)) (w : World α) (v : Vector) (j : Nat), WF w →
      w.objs this = some v → (v.sz < v.max_sz → VecOK w.mem v) →
      alloc_ok this l w = true →
      2 ^ j ≤ v.sz + 1 → v.sz + 1 < 2 ^ (j + 1) → v.max_sz = 2 ^ (j + 1) - 2 →
      ∃ w1 v1 c, push_all this l w = some (w1, c) ∧ w1.objs this = some v1 ∧
        v1.sz = v.sz + l.length ∧
        2 ^ (j + c) ≤ v1.sz + 1 ∧ v1.sz + 1 < 2 ^ (j + c + 1) ∧
        v1.max_sz = 2 ^ (j + c + 1) - 2 := by
  intro l
  induction l with
  | nil =>
    intro w v j _ hthis _ _ h1 h2 h3
    exact ⟨w, v, 0, rfl, hthis, rfl, h1, h2, h3⟩
  | cons p l ih =>
    obtain ⟨a, x⟩ := p
    intro w v j hwf hthis hinv ha h1 h2 h3
    have hv := hwf.vec this v hthis
    simp only [alloc_ok, hthis, Bool.and_eq_true, Bool.or_eq_true, decide_eq_true_eq] at ha
    obtain ⟨hfr, hrest⟩ := ha
    have hf : v.max_sz ≤ v.sz → w.mem.fresh a ((v.sz + 1) * 2) = true := by
      intro hg
      rcases hfr with h | h
      · omega
      · exact h
    obtain ⟨v1, m1, hpb, hframe, hs, hcap, _, _, _, hok⟩ :=
      push_back_spec a x hwf.mem hv (fun hlt => (hinv hlt).hasRoom hlt) hf
    have hok1 : VecOK m1 v1 := by
      by_cases hg : v.max_sz ≤ v.sz
      · exact hok (Or.inl hg)
      · exact hok (Or.inr (hinv (by omega)))
    have hcall := call_ok hthis hpb
    rw [hcall] at hrest
    have hwf1 : WF (w.put this (v1, m1)) := wf_call_put hwf hthis hframe
    have hp1 : (2 : Nat) ^ (j + 1) = 2 * 2 ^ j := by rw [pow_succ]; omega
    have hp2 : (2 : Nat) ^ (j + 1 + 1) = 4 * 2 ^ j := by rw [pow_succ, pow_succ]; omega
    have hpos : 0 < 2 ^ j := pow_pos (by omega) j
    by_cases hg : v.sz ≥ v.max_sz
    · rw [if_pos hg] at hcap
      obtain ⟨w2, v2, c, hpa, hv2, hs2, i1, i2, i3⟩ := ih (w.put this (v1, m1)) v1 (j + 1) hwf1
        (put_objs _ _ _) (fun _ => hok1) hrest (by omega) (by omega) (by omega)
      refine ⟨w2, v2, 1 + c, ?_, hv2, ?_, ?_, ?_, ?_⟩
      · simp only [push_all, hthis, hcall, hpa, if_pos hg]
      · simp only [List.length_cons]
        omega
      · have e : j + (1 + c) = j + 1 + c := by omega
        rw [e]
        exact i1
      · have e : j + (1 + c) + 1 = j + 1 + c + 1 := by omega
        rw [e]
        exact i2
      · have e : j + (1 + c) + 1 = j + 1 + c + 1 := by omega
        rw [e]
        exact i3
    · have hng : ¬ v.max_sz ≤ v.sz := by omega
      rw [if_neg hng] at hcap
      obtain ⟨w2, v2, c, hpa, hv2, hs2, i1, i2, i3⟩ := ih (w.put this (v1, m1)) v1 j hwf1
        (put_objs _ _ _) (fun _ => hok1) hrest (by omega) (by omega) (by omega)
      refine ⟨w2, v2, 0 + c, ?_, hv2, ?_, ?_, ?_, ?_⟩
      · simp only [push_all, hthis, hcall, hpa, if_neg hg]
      · simp only [List.length_cons]
        omega
      · rw [Nat.zero_add]
        exact i1
      · rw [Nat.zero_add]
        exact i2
      · rw [Nat.zero_add]
        exact i3

/-- C16: on a reachable state, appending `n` elements with `push_back` to a
container of size 0 and capacity 0 (the allocator answering each growth with
an unused address) completes with exactly `k = log2 (n + 1)` reallocating
calls, where `2 ^ k ≤ n + 1`; the size is then `n` and the capacity is
`2 ^ (k + 1) - 2`, which is at least `n`. -/
theorem growth_amortization {α : Type} [Inhabited α] (w : World α) (this : Nat) (v : Vector)
    (l : List (Nat × α)) (hw : Reachable w) (hthis : w.objs this = some v)
    (hsz : size v = 0) (hcap : capacity v = 0) (ha : alloc_ok this l w = true) :
    ∃ w1 v1 k, push_all this l w = some (w1, k) ∧ w1.objs this = some v1 ∧
      k = Nat.log 2 (l.length + 1) ∧ 2 ^ k ≤ l.length + 1 ∧
      size v1 = l.length ∧ capacity v1 = 2 ^ (k + 1) - 2 ∧ capacity v1 ≥ size v1 := by
  simp only [size, capacity] at hsz hcap ⊢
  obtain ⟨w1, v1, c, h1, h2, h3, i1, i2, i3⟩ := push_all_growth this l w v 0 (reachable_wf hw)
    hthis (fun h => absurd h (by omega)) ha (by rw [hsz]; decide) (by rw [hsz]; decide)
    (by rw [hcap]; decide)
  simp only [Nat.zero_add] at i1 i2 i3
  rw [hsz, Nat.zero_add] at h3
  rw [h3] at i1 i2
  refine ⟨w1, v1, c, h1, h2, ?_, i1, h3, i3, ?_⟩
  · exact (Nat.log_eq_of_pow_le_of_lt_pow i1 i2).symm
  · omega

theorem growth_amortization_witness :
    Reachable world_default ∧ world_default.objs 1 = some ⟨0, 0, 0⟩ ∧
    alloc_ok 1 [(10, 5), (0, 7), (20, 9)] world_default = true ∧
    ∃ w1 v1, push_all 1 [(10, 5), (0, 7), (20, 9)] world_default = some (w1, 2) ∧
      w1.objs 1 = some v1 ∧ size v1 = 3 ∧ capacity v1 = 6 := by
  obtain ⟨w1, v1, k, h1, h2, h3, _, h5, h6, _⟩ :=
    growth_amortization world_default 1 ⟨0, 0, 0⟩ [(10, 5), (0, 7), (20, 9)] (after_reachable _)
      (by decide) (by decide) (by decide) (by decide)
  have hk : k = 2 := by
    rw [h3]
    exact Nat.log_eq_of_pow_le_of_lt_pow (by decide) (by decide)
  subst hk
  exact ⟨after_reachable _, by decide, by decide, w1, v1, h1, h2, h5, h6⟩

/-- C17: on a reachable state, the container constructed from a literal list
(as a new object, the allocator answering with an unused address) has the
length of the list as size, twice that as capacity and the elements of the list
in order; and the text `operator<<` writes for a container is `[`, the texts
of its elements in index order separated by `, `, and `]`. -/
theorem literal_list_and_rendering {α : Type} [Inhabited α] (w : World α)
    (hw : Reachable w) :
    (∀ this a (il : List α), this ≠ 0 → w.objs this = none →
      (il.length ≠ 0 → w.mem.fresh a (il.length * 2) = true) →
      ∃ w1 v1, exec w (.ctor_il this a il) = .ok () w1 ∧ w1.objs this = some v1 ∧
        size v1 = il.length ∧ capacity v1 = 2 * il.length ∧
        contents w1.mem v1 = il.map some ∧
        ∀ (render : α → String) (o : String), print render o v1 w1.mem =
          some (o ++ "[" ++ ", ".intercalate (il.map render) ++ "]")) ∧
    (∀ this v (es : List α), w.objs this = some v → contents w.mem v = es.map some →
      ∀ (render : α → String) (o : String), print render o v w.mem =
        some (o ++ "[" ++ ", ".intercalate (es.map render) ++ "]")) := by
  have hwf := reachable_wf hw
  constructor
  · intro this a il h0 hnone hf
    obtain ⟨m1, h1, hfr, _, hc⟩ := ctor_il_spec a il hwf.mem hf
    have hcont : contents m1 ⟨il.length, il.length * 2, if il.length = 0 then 0 else a⟩ =
        il.map some := by
      apply List.ext_getElem?
      intro i
      rw [contents_getElem?, List.getElem?_map]
      simp only
      by_cases hi : i < il.length
      · rw [if_pos hi, hc i hi, List.getElem?_eq_getElem hi]
        rfl
      · rw [if_neg hi, List.getElem?_eq_none (by omega)]
        rfl
    refine ⟨_, _, construct_ok h0 hnone h1, put_objs _ _ _, rfl, ?_, hcont, ?_⟩
    · simp only [capacity]
      omega
    · intro render o
      obtain ⟨hlen, hget⟩ := get_of_contents hfr.vec il hcont
      exact print_spec render o il hlen hget
  · intro this v es hthis hc render o
    obtain ⟨hlen, hget⟩ := get_of_contents (hwf.vec this v hthis) es hc
    exact print_spec render o es hlen hget

theorem literal_list_and_rendering_witness :
    Reachable world_default ∧ world_default.objs 2 = none ∧
    (∃ w1 v1, exec world_default (.ctor_il 2 10 [1, 2, 3]) = .ok () w1 ∧
      w1.objs 2 = some v1 ∧ size v1 = 3 ∧ capacity v1 = 6 ∧
      contents w1.mem v1 = [some 1, some 2, some 3] ∧
      print Nat.repr "" v1 w1.mem = some "[1, 2, 3]") ∧
    print Nat.repr "" ⟨0, 0, 0⟩ world_default.mem = some "[]" := by
  obtain ⟨h1, h2⟩ := literal_list_and_rendering world_default (after_reachable _)
  obtain ⟨w1, v1, a1, a2, a3, a4, a5, a6⟩ := h1 2 10 [1, 2, 3] (by decide) (by decide) (by decide)
  refine ⟨after_reachable _, by decide, ⟨w1, v1, a1, a2, a3, a4, a5, ?_⟩, ?_⟩
  · rw [a6]
    decide
  · rw [h2 1 ⟨0, 0, 0⟩ [] (by decide) (by decide)]
    decide

/-- C18: `==` on iterators, in every combination of the two kinds, is true
if and only if the two positions are equal, whatever the offsets and the
containers the iterators are tied to, and `!=` is its negation; and there are
iterators issued by two different containers that compare equal: `begin()` of
one default-constructed container and `begin()` and `end()` of another, all at
the null position. -/
theorem equality_by_position :
    (∀ p1 s1 t1 p2 s2 t2 : Nat,
      ((ConstIterator.mk p1 s1 t1).eq ⟨p2, s2, t2⟩ = true ↔ p1 = p2) ∧
      ((Iterator.mk p1 s1 t1).eq ⟨p2, s2, t2⟩ = true ↔ p1 = p2) ∧
      ((Iterator.mk p1 s1 t1).eq (Iterator.mk p2 s2 t2).to_const = true ↔ p1 = p2) ∧
      ((ConstIterator.mk p1 s1 t1).eq (Iterator.mk p2 s2 t2).to_const = true ↔ p1 = p2) ∧
      (ConstIterator.mk p1 s1 t1).ne ⟨p2, s2, t2⟩ = !(ConstIterator.mk p1 s1 t1).eq ⟨p2, s2, t2⟩ ∧
      (Iterator.mk p1 s1 t1).ne ⟨p2, s2, t2⟩ = !(Iterator.mk p1 s1 t1).eq ⟨p2, s2, t2⟩) ∧
    (Reachable world_two ∧
      world_two.objs 1 = some ⟨0, 0, 0⟩ ∧ world_two.objs 2 = some ⟨0, 0, 0⟩ ∧
      (begin 1 ⟨0, 0, 0⟩).tied_vec ≠ (begin 2 ⟨0, 0, 0⟩).tied_vec ∧
      (begin 1 ⟨0, 0, 0⟩).ptr = 0 ∧
      (begin 1 ⟨0, 0, 0⟩).eq (begin 2 ⟨0, 0, 0⟩).to_const = true ∧
      (begin 1 ⟨0, 0, 0⟩).eq (end_ 2 ⟨0, 0, 0⟩).to_const = true ∧
      (begin_const 1 ⟨0, 0, 0⟩).eq (end_const 2 ⟨0, 0, 0⟩) = true ∧
      (begin 1 ⟨0, 0, 0⟩).ne (begin 2 ⟨0, 0, 0⟩).to_const = false) := by
  constructor
  · intro p1 s1 t1 p2 s2 t2
    simp [ConstIterator.eq, ConstIterator.ne, Iterator.eq, Iterator.ne, Iterator.to_const,
      bne]
  · exact ⟨after_reachable _, by decide, by decide, by decide, by decide, by decide, by decide,
      by decide, by decide⟩

/-- C19 fails on the code: the copy of a default-constructed container is a
reachable state in which the capacity is 0 and the buffer is not null, because
the copy constructor calls `new value_type[max_sz]` without the test for 0 that
the sized constructor and `realloc` make. -/
theorem copy_of_empty_has_buffer :
    Reachable world_copy_of_empty ∧
    world_copy_of_empty.objs 1 = some ⟨0, 0, 0⟩ ∧
    world_copy_of_empty.objs 2 = some ⟨0, 0, 60⟩ ∧
    capacity ⟨0, 0, 60⟩ = 0 ∧ (⟨0, 0, 60⟩ : Vector).values ≠ 0 ∧
    world_copy_of_empty.mem.blk 60 = some 0 ∧
    ctor_sized 60 0 world_two.mem = .ok ⟨0, 0, 0⟩ world_two.mem :=
  ⟨after_reachable _, by decide, by decide, by decide, by decide, by decide, by rfl⟩

/-- C20, amended: `realloc(c)` throws the invalid-capacity error whenever `c` is
below `DEFAULT_MAX_SZ` and the capacity-too-small error whenever `c` is below
the size, in both cases with the members and the free store as they were; no
`c` is below the floor 0, so the first error is never thrown. For every other
`c`, on a reachable state and whatever the caller has written to `max_sz`: if
`c` is 0 or the allocator answers the request with an unused address, it
returns normally; the capacity is then `c`, the buffer is null when `c` is 0
and the live buffer of `c` slots just allocated otherwise, the former buffer is
released, and the size and the elements are as before. If `c` is not 0 and
`new` throws, the call is left through that exception, with the size, the
buffer and the free store as they were. -/
theorem realloc_contract {α : Type} [Inhabited α] :
    (∀ (m : Mem α) (v : Vector) (a c : Nat), c < DEFAULT_MAX_SZ →
      realloc a c v m = .throw .invalid_capacity (v, m)) ∧
    (∀ (m : Mem α) (v : Vector) (a c : Nat), c < size v →
      realloc a c v m = .throw .capacity_too_small (v, m)) ∧
    (∀ (m : Mem α) (v : Vector) (a c : Nat) (s : Vector × Mem α),
      ¬ c < DEFAULT_MAX_SZ ∧ realloc a c v m ≠ .throw .invalid_capacity s) ∧
    (∀ (w : World α) (this a c cap0 : Nat) (v : Vector), Reachable w →
      w.objs this = some v → ¬ c < DEFAULT_MAX_SZ → ¬ c < size v →
      (c ≠ 0 → w.mem.fresh a c = true) →
      ∃ m1 v1, realloc a c ⟨v.sz, cap0, v.values⟩ w.mem = .ok () (v1, m1) ∧
        capacity v1 = c ∧ size v1 = size v ∧
        (c = 0 → v1.values = 0) ∧
        (c ≠ 0 → v1.values = a ∧ w.mem.blk a = none ∧ m1.blk v1.values = some c) ∧
        m1.blk v.values = none ∧
        contents m1 v1 = contents w.mem v) ∧
    (∀ (m : Mem α) (v : Vector) (a c : Nat), ¬ c < DEFAULT_MAX_SZ → ¬ c < size v → c ≠ 0 →
      (a = 0 ∨ ALLOC_MAX < c) →
      ∃ v1, realloc a c v m = .bad_alloc (v1, m) ∧ size v1 = size v ∧
        v1.values = v.values) := by
  refine ⟨?_, ?_, ?_, ?_, ?_⟩
  · intro m v a c h
    simp only [realloc, if_pos h]
  · intro m v a c h
    simp only [size] at h
    have h0 : ¬ c < DEFAULT_MAX_SZ := by simp [DEFAULT_MAX_SZ]
    simp only [realloc, if_neg h0, if_pos h]
  · intro m v a c s
    have h0 : ¬ c < DEFAULT_MAX_SZ := by simp [DEFAULT_MAX_SZ]
    refine ⟨h0, fun h => ?_⟩
    by_cases h1 : c < v.sz
    · rw [realloc_small h1] at h
      exact Exn.noConfusion (Res.throw.inj h).1
    · simp only [realloc, if_neg h0, if_neg h1] at h
      split_ifs at h
      · cases h2 : m.alloc a c with
        | stuck => simp [h2] at h
        | bad_alloc => simp [h2] at h
        | ok m1 =>
          simp only [h2] at h
          cases h3 : copy_elems v.values a v.sz 0 m1 with
          | none => simp [h3] at h
          | some m2 =>
            simp only [h3] at h
            cases h4 : m2.release v.values with
            | none => simp [h4] at h
            | some m3 => simp [h4] at h
      · cases h4 : m.release v.values with
        | none => simp [h4] at h
        | some m3 => simp [h4] at h
  · intro w this a c cap0 v hw hthis _ hsz hf
    have hwf := reachable_wf hw
    have hv := hwf.vec this v hthis
    simp only [size] at hsz
    have hb : BufOK w.mem ⟨v.sz, cap0, v.values⟩ := ⟨hv.null, hv.live⟩
    obtain ⟨m1, h1, hfr, hok, hc, hx, hrel⟩ :=
      realloc_spec (v := ⟨v.sz, cap0, v.values⟩) a c hwf.mem hb (by simp only; omega) hf
    refine ⟨m1, _, h1, rfl, rfl, ?_, ?_, hrel, contents_congr rfl hc⟩
    · intro h0
      simp only [if_pos h0]
    · intro h0
      have hz : (if c = 0 then 0 else a) ≠ 0 := by
        rw [if_neg h0]
        exact (hx h0).2
      exact ⟨by simp only [if_neg h0], (hx h0).1, hok.live hz⟩
  · intro m v a c _ hsz h0 hbad
    simp only [size] at hsz
    exact ⟨_, realloc_bad (by omega) h0 hbad, rfl, rfl⟩

theorem realloc_contract_witness :
    Reachable world123 ∧ world123.objs 1 = some ⟨3, 6, 10⟩ ∧
    realloc 50 2 ⟨3, 6, 10⟩ world123.mem = .throw .capacity_too_small (⟨3, 6, 10⟩, world123.mem) ∧
    (∃ m1 v1, realloc 50 4 ⟨3, 6, 10⟩ world123.mem = .ok () (v1, m1) ∧ capacity v1 = 4 ∧
      size v1 = 3 ∧ v1.values = 50 ∧ m1.blk 10 = none ∧
      contents m1 v1 = [some 1, some 2, some 3]) ∧
    (∃ v1, realloc 0 4 ⟨3, 6, 10⟩ world123.mem = .bad_alloc (v1, world123.mem) ∧
      size v1 = 3 ∧ v1.values = 10) := by
  obtain ⟨_, h2, _, h4, h5⟩ := realloc_contract (α := Nat)
  obtain ⟨m1, v1, a1, a2, a3, _, a5, a6, a7⟩ := h4 world123 1 50 4 6 ⟨3, 6, 10⟩
    (after_reachable _) (by decide) (by decide) (by decide) (by decide)
  exact ⟨after_reachable _, by decide, h2 world123.mem ⟨3, 6, 10⟩ 50 2 (by decide),
    ⟨m1, v1, a1, a2, a3, (a5 (by decide)).1, a6, by rw [a7]; decide⟩,
    h5 world123.mem ⟨3, 6, 10⟩ 0 4 (by decide) (by decide) (by decide) (Or.inl rfl)⟩

/-- C20 as stated fails: `realloc(1 << 62)`, which `reserve(1 << 62)` calls on
`{1, 2, 3}`, is neither below the size nor below the floor, and it does not
return normally, whatever the allocator answers, since `new` refuses an array
of that length; nor does `realloc(8)` when the allocator has no memory (answer
`0`). Both are left through the exception of `new`, after
`max_sz = new_max_sz`. -/
theorem realloc_new_throws :
    Reachable world123 ∧ world123.objs 1 = some ⟨3, 6, 10⟩ ∧
    ¬ 2 ^ 62 < size ⟨3, 6, 10⟩ ∧ ¬ 2 ^ 62 < DEFAULT_MAX_SZ ∧
    (∀ a : Nat, realloc a (2 ^ 62) ⟨3, 6, 10⟩ world123.mem =
      .bad_alloc (⟨3, 2 ^ 62, 10⟩, world123.mem)) ∧
    realloc 0 8 ⟨3, 6, 10⟩ world123.mem = .bad_alloc (⟨3, 8, 10⟩, world123.mem) :=
  ⟨after_reachable _, by decide, by decide, by decide,
    fun a => realloc_bad (by decide) (by decide) (Or.inr (by decide)),
    realloc_bad (by decide) (by decide) (Or.inl rfl)⟩

end UniVector
